import Mathlib

/-!
# bmp_project: rotation and Gaussian blur of a 24-bit bitmap

Shallow embedding of `src/main.cpp`.

* A pixel buffer (`std::vector<unsigned char>`) is a `List Nat`; a well-formed
  buffer holds values below 256.
* `int` variables are `Int`.  Signed overflow is undefined in the source, so the
  arithmetic of the pixel offsets is the exact one; it agrees with 32-bit arithmetic
  whenever `3 * width * height < 2 ^ 31`.  The row-size expression of the driver is
  evaluated in 32-bit two's complement (`wrapInt32`).
* `v[i]` on a vector is undefined outside `0 ≤ i < v.size()`.  In the model a read
  outside the buffer yields `0` and a write outside the buffer does nothing; under
  the hypotheses of the theorems below every access is inside the buffer.
* A `double` is the rational number it denotes.  Every `double` operation of the filter
  (the conversion of a decimal constant, a product, a sum) is the exact result rounded to
  the nearest binary64 value, ties to even (`roundDouble`); the exponent range is not
  modelled, the values of the filter being far from its limits.  The products and sums
  are rounded one by one, as without contraction into fused operations.
* `rotateChecked` and `gaussianChecked` are the two functions with every `int`
  operation required to fit 32 bits and every vector or kernel access required to be
  in range; they are `none` where the source has undefined behaviour.
* The header is read and written as the 54 bytes of the packed record; the fields are
  little-endian values, signed ones in two's complement.
-/

namespace BmpProject

/-! ## Buffers -/

/-- Read `buf[off]` for an `int` offset. -/
def readAt (buf : List Nat) (off : Int) : Nat :=
  if 0 ≤ off then buf.getD off.toNat 0 else 0

/-- The assignment `buf[off] = v` for an `int` offset. -/
def writeAt (buf : List Nat) (off : Int) (v : Nat) : List Nat :=
  if 0 ≤ off then buf.set off.toNat v else buf

/-- Values taken by the loop variable of `for (int k = lo; k < hi; k++)`, in order. -/
def intRange (lo hi : Int) : List Int :=
  (List.range (hi - lo).toNat).map (fun (k : Nat) => lo + (k : Int))

/-- Run a sequence of assignments `buf[off] = v` from left to right. -/
def applyWrites (ws : List (Int × Nat)) (buf : List Nat) : List Nat :=
  ws.foldl (fun b w => writeAt b w.1 w.2) buf

/-! ## `rotateImage90Degrees` (main.cpp, lines 104-128) -/

/-- Source offset `srcOffset = (y * width + x) * 3`. -/
def srcOffset (width x y : Int) : Int := (y * width + x) * 3

/-- Destination offset `destOffset = ((width - x - 1) * height + y) * 3`. -/
def destOffset (width height x y : Int) : Int := ((width - x - 1) * height + y) * 3

/-- Body of the inner loop of `rotateImage90Degrees`: the three channel bytes of the
source pixel are stored at the destination offset. -/
def rotateBody (pixels : List Nat) (width height x y : Int) (rotatedPixels : List Nat) :
    List Nat :=
  let src := srcOffset width x y
  let dest := destOffset width height x y
  let r0 := writeAt rotatedPixels dest (readAt pixels src)
  let r1 := writeAt r0 (dest + 1) (readAt pixels (src + 1))
  writeAt r1 (dest + 2) (readAt pixels (src + 2))

/-- The function `rotateImage90Degrees`: the value of `pixels` on return. -/
def rotateImage90Degrees (pixels : List Nat) (width height : Int) : List Nat :=
  (intRange 0 width).foldl
    (fun acc x =>
      (intRange 0 height).foldl (fun acc y => rotateBody pixels width height x y acc) acc)
    (List.replicate pixels.length 0)

/-- The three assignments of the loop body at `(x, y)`, as (offset, value) pairs. -/
def rotateWrites (pixels : List Nat) (width height x y : Int) : List (Int × Nat) :=
  [ (destOffset width height x y, readAt pixels (srcOffset width x y)),
    (destOffset width height x y + 1, readAt pixels (srcOffset width x y + 1)),
    (destOffset width height x y + 2, readAt pixels (srcOffset width x y + 2)) ]

/-- All assignments made by `rotateImage90Degrees`, in execution order. -/
def rotateAllWrites (pixels : List Nat) (width height : Int) : List (Int × Nat) :=
  (intRange 0 width).flatMap
    (fun x => (intRange 0 height).flatMap (fun y => rotateWrites pixels width height x y))

/-- Pixel index written by the iteration that reads pixel index `k = y * width + x`,
that is `(width - x - 1) * height + y` with `x = k % width` and `y = k / width`. -/
def rotateIndex (width height k : Int) : Int :=
  (width - k % width - 1) * height + k / width

/-! ## `GaussianFilter` (main.cpp, lines 33-99) -/

/-- The decimal constants of the table `kernel[5][5]`, as the source writes them. -/
def kernel : List (List ℚ) :=
  [ [0.003, 0.013, 0.022, 0.013, 0.003],
    [0.013, 0.059, 0.097, 0.059, 0.013],
    [0.022, 0.097, 0.159, 0.097, 0.022],
    [0.013, 0.059, 0.097, 0.059, 0.013],
    [0.003, 0.013, 0.022, 0.013, 0.003] ]

/-- The constant `radius`. -/
def radius : Int := 2

/-- The decimal constant written at `kernel[r][c]`. -/
def kernelAt (r c : Int) : ℚ :=
  if 0 ≤ r ∧ 0 ≤ c then (kernel.getD r.toNat []).getD c.toNat 0 else 0

/-- The integer nearest to `q`, the even one of the two when `q` is half way. -/
def roundHalfEven (q : ℚ) : Int :=
  if q - ⌊q⌋ < 1 / 2 then ⌊q⌋
  else if 1 / 2 < q - ⌊q⌋ then ⌊q⌋ + 1
  else if ⌊q⌋ % 2 = 0 then ⌊q⌋ else ⌊q⌋ + 1

/-- The binary64 value nearest to `q`: with `2^e ≤ |q| < 2^(e+1)`, the multiple of
`2^(e-52)` nearest to `q`, ties to even (a significand of 53 bits). -/
def roundDouble (q : ℚ) : ℚ :=
  if q = 0 then 0
  else (roundHalfEven (q / 2 ^ (Int.log 2 |q| - 52)) : ℚ) * 2 ^ (Int.log 2 |q| - 52)

/-- The value of `kernel[r][c]`: the `double` that the decimal constant denotes. -/
def kernelDouble (r c : Int) : ℚ := roundDouble (kernelAt r c)

/-- Sum of the 25 weights of the kernel. -/
def kernelSum : ℚ := (kernel.map List.sum).sum

/-- The conversion `static_cast<unsigned char>(s)`: the fractional part is discarded
(rounding toward zero) and the integer is reduced modulo 256. -/
def toUChar (s : ℚ) : Nat :=
  ((if 0 ≤ s then ⌊s⌋ else ⌈s⌉) % 256).toNat

/-- Body of the innermost loop: `(sumR, sumG, sumB)` after adding the contribution of
the neighbour `(x + i, y + j)`; each `sum += pixels[..] * weight` is a product and a sum
in `double`. -/
def convStep (pixels : List Nat) (width x y j i : Int) (sum : ℚ × ℚ × ℚ) : ℚ × ℚ × ℚ :=
  let pixelOffset := ((y + j) * width + (x + i)) * 3
  let weight := kernelDouble (j + radius) (i + radius)
  (roundDouble (sum.1 + roundDouble ((readAt pixels pixelOffset : ℚ) * weight)),
   roundDouble (sum.2.1 + roundDouble ((readAt pixels (pixelOffset + 1) : ℚ) * weight)),
   roundDouble (sum.2.2 + roundDouble ((readAt pixels (pixelOffset + 2) : ℚ) * weight)))

/-- The two loops over `j` and `i`: the final `(sumR, sumG, sumB)` at `(x, y)`. -/
def convolve (pixels : List Nat) (width x y : Int) : ℚ × ℚ × ℚ :=
  (intRange (-radius) (radius + 1)).foldl
    (fun sum j =>
      (intRange (-radius) (radius + 1)).foldl
        (fun sum i => convStep pixels width x y j i sum) sum)
    (0, 0, 0)

/-- Component `c` of `(sumR, sumG, sumB)`. -/
def channel (c : Int) (sum : ℚ × ℚ × ℚ) : ℚ :=
  if c = 0 then sum.1 else if c = 1 then sum.2.1 else sum.2.2

/-- Body of the loop over `x` of `GaussianFilter`: the three sums are converted to
`unsigned char` and stored at `offset = (y * width + x) * 3`. -/
def gaussianBody (pixels : List Nat) (width x y : Int) (filteredPixels : List Nat) :
    List Nat :=
  let sum := convolve pixels width x y
  let offset := (y * width + x) * 3
  let f0 := writeAt filteredPixels offset (toUChar sum.1)
  let f1 := writeAt f0 (offset + 1) (toUChar sum.2.1)
  writeAt f1 (offset + 2) (toUChar sum.2.2)

/-- The function `GaussianFilter`: the value of `pixels` on return. -/
def GaussianFilter (pixels : List Nat) (width height : Int) : List Nat :=
  (intRange radius (height - radius)).foldl
    (fun acc y =>
      (intRange radius (width - radius)).foldl
        (fun acc x => gaussianBody pixels width x y acc) acc)
    (List.replicate pixels.length 0)

/-- The three assignments to `filteredPixels` at `(x, y)`, as (offset, value) pairs. -/
def gaussianWrites (pixels : List Nat) (width x y : Int) : List (Int × Nat) :=
  let sum := convolve pixels width x y
  let offset := (y * width + x) * 3
  [ (offset, toUChar sum.1),
    (offset + 1, toUChar sum.2.1),
    (offset + 2, toUChar sum.2.2) ]

/-- All assignments made by `GaussianFilter`, in execution order. -/
def gaussianAllWrites (pixels : List Nat) (width height : Int) : List (Int × Nat) :=
  (intRange radius (height - radius)).flatMap
    (fun y => (intRange radius (width - radius)).flatMap
      (fun x => gaussianWrites pixels width x y))

/-- The pairs `(j, i)` in the order in which the two inner loops visit them. -/
def kernelOrder : List (Int × Int) :=
  [ (-2, -2), (-2, -1), (-2, 0), (-2, 1), (-2, 2),
    (-1, -2), (-1, -1), (-1, 0), (-1, 1), (-1, 2),
    (0, -2), (0, -1), (0, 0), (0, 1), (0, 2),
    (1, -2), (1, -1), (1, 0), (1, 1), (1, 2),
    (2, -2), (2, -1), (2, 0), (2, 1), (2, 2) ]

/-- The 25 bytes of channel `c` around `(x, y)`, in the order of the loops. -/
def neighbourhood (pixels : List Nat) (width x y c : Int) : List Nat :=
  kernelOrder.map (fun ji => readAt pixels (((y + ji.1) * width + (x + ji.2)) * 3 + c))

/-- The 25 decimal constants of the kernel, in the order of the loops. -/
def kernelWeights : List ℚ :=
  kernelOrder.map (fun ji => kernelAt (ji.1 + 2) (ji.2 + 2))

/-- One accumulation `sum += byte * weight` in binary64, `weight` being the `double` of a
decimal constant: the constant, the product and the sum are each rounded. -/
def accumulateStep (sum : ℚ) (t : Nat × ℚ) : ℚ :=
  roundDouble (sum + roundDouble ((t.1 : ℚ) * roundDouble t.2))

/-- One accumulation `sum += byte * weight` in exact arithmetic. -/
def exactStep (sum : ℚ) (t : Nat × ℚ) : ℚ := sum + (t.1 : ℚ) * t.2

/-- The weighted sum of the neighbourhood of `(x, y)` in channel `c` accumulated in
binary64, term after term in the order of the loops, starting from `0.0`. -/
def doubleSum (pixels : List Nat) (width x y c : Int) : ℚ :=
  ((neighbourhood pixels width x y c).zip kernelWeights).foldl accumulateStep 0

/-- The weighted sum of the 5x5 neighbourhood of `(x, y)` in channel `c`, as the
specification writes it. -/
def weightedSum (pixels : List Nat) (width x y c : Int) : ℚ :=
  ∑ j in Finset.Icc (-2 : Int) 2, ∑ i in Finset.Icc (-2 : Int) 2,
    kernelAt (j + 2) (i + 2) * (readAt pixels (((y + j) * width + (x + i)) * 3 + c) : ℚ)

/-! ## The driver (main.cpp, lines 133-257) -/

/-- The packed record `BMPHeader`; unsigned fields are `Nat`, signed fields are `Int`. -/
structure BMPHeader where
  signature : Nat
  fileSize : Nat
  reserved1 : Nat
  reserved2 : Nat
  dataOffset : Nat
  headerSize : Nat
  width : Int
  height : Int
  planes : Nat
  bitsPerPixel : Nat
  compression : Nat
  dataSize : Nat
  horizontalRes : Int
  verticalRes : Int
  colors : Nat
  importantColors : Nat
deriving DecidableEq

/-- The value of `sizeof(header)` for the packed layout: 2+4+2+2+4+4+4+4+2+2+4+4+4+4+4+4. -/
def sizeofHeader : Nat := 54

/-- Reduction of an integer to the range of a 32-bit `int` (two's complement). -/
def wrapInt32 (z : Int) : Int := (z + 2 ^ 31) % 2 ^ 32 - 2 ^ 31

/-- The expression `(width * bitsPerPixel / 8 + 3) & (~3)` in 32-bit `int` arithmetic. -/
def rowSize (width bitsPerPixel : Int) : Int :=
  Int.land (wrapInt32 (Int.tdiv (wrapInt32 (width * bitsPerPixel)) 8 + 3)) (Int.not 3)

/-- Number of bytes of the vector `pixels(rowSize * height)` the driver allocates and
fills for a header. -/
def loadedSize (header : BMPHeader) : Int :=
  wrapInt32 (rowSize header.width (header.bitsPerPixel : Int) * header.height)

/-- The rotate step of the driver (lines 159-160 and 188-198): the header and the pixel
buffer after it. -/
def rotateStep (header : BMPHeader) (pixels : List Nat) : BMPHeader × List Nat :=
  let width := header.width
  let height := header.height
  let rotated := rotateImage90Degrees pixels width height
  ({ header with
      width := height
      height := width
      fileSize := (sizeofHeader + rotated.length) % 2 ^ 32 },
   rotated)

/-- A header of a 24-bit image of width 4 and height 1 (pixel data: one row of 12 bytes). -/
def header4x1 : BMPHeader :=
  { signature := 19778, fileSize := 66, reserved1 := 0, reserved2 := 0, dataOffset := 54,
    headerSize := 40, width := 4, height := 1, planes := 1, bitsPerPixel := 24,
    compression := 0, dataSize := 12, horizontalRes := 0, verticalRes := 0, colors := 0,
    importantColors := 0 }

/-- Offset, in the buffer the driver loads from the file, of channel `c` of pixel
`(x, y)` of a 24-bit image: the scanlines of the file are `rowSize` bytes long. -/
def storedOffset (width x y c : Int) : Int := y * rowSize width 24 + 3 * x + c

/-- The 16 bytes the driver loads for a 24-bit image of width 2 and height 2 with pixels
`(1,2,3)`, `(4,5,6)` in row 0 and `(7,8,9)`, `(10,11,12)` in row 1: each scanline of 6
bytes is followed by 2 padding bytes. -/
def padded2x2 : List Nat := [1, 2, 3, 4, 5, 6, 0, 0, 7, 8, 9, 10, 11, 12, 0, 0]

/-- The 80 bytes the driver loads for a 24-bit image of width 5 and height 5 (scanlines
of 15 bytes followed by 1 padding byte) that is black except for channel 0 of pixel
`(2, 2)`, stored at offset `2 * 16 + 6 = 38`, which is 200. -/
def padded5x5 : List Nat := (List.range 80).map (fun k => if k = 38 then 200 else 0)

/-! ## The transforms with every access checked -/

/-- The result of a 32-bit `int` operation: defined when the exact value is
representable. -/
def int32 (z : Int) : Option Int :=
  if -2 ^ 31 ≤ z ∧ z < 2 ^ 31 then some z else none

/-- The read `buf[off]`, defined inside the vector only. -/
def readChecked (buf : List Nat) (off : Int) : Option Nat :=
  if 0 ≤ off ∧ off < (buf.length : Int) then some (readAt buf off) else none

/-- The assignment `buf[off] = v`, defined inside the vector only. -/
def writeChecked (buf : List Nat) (off : Int) (v : Nat) : Option (List Nat) :=
  if 0 ≤ off ∧ off < (buf.length : Int) then some (writeAt buf off v) else none

/-- The expression `(y * width + x) * 3`, operation by operation. -/
def srcOffsetChecked (width x y : Int) : Option Int := do
  let a ← int32 (y * width)
  let b ← int32 (a + x)
  int32 (b * 3)

/-- The expression `((width - x - 1) * height + y) * 3`, operation by operation. -/
def destOffsetChecked (width height x y : Int) : Option Int := do
  let a ← int32 (width - x)
  let b ← int32 (a - 1)
  let c ← int32 (b * height)
  let d ← int32 (c + y)
  int32 (d * 3)

/-- Body of the inner loop of `rotateImage90Degrees` with every arithmetic operation
and every vector access checked. -/
def rotateBodyChecked (pixels : List Nat) (width height x y : Int)
    (rotatedPixels : List Nat) : Option (List Nat) := do
  let src ← srcOffsetChecked width x y
  let dest ← destOffsetChecked width height x y
  let v0 ← readChecked pixels src
  let r0 ← writeChecked rotatedPixels dest v0
  let d1 ← int32 (dest + 1)
  let s1 ← int32 (src + 1)
  let v1 ← readChecked pixels s1
  let r1 ← writeChecked r0 d1 v1
  let d2 ← int32 (dest + 2)
  let s2 ← int32 (src + 2)
  let v2 ← readChecked pixels s2
  writeChecked r1 d2 v2

/-- The function `rotateImage90Degrees` with every access checked: `none` when an
operation overflows or an access falls outside its vector. -/
def rotateChecked (pixels : List Nat) (width height : Int) : Option (List Nat) :=
  (intRange 0 width).foldlM
    (fun acc x =>
      (intRange 0 height).foldlM
        (fun acc y => rotateBodyChecked pixels width height x y acc) acc)
    (List.replicate pixels.length 0)

/-- The entry `kernel[r][c]`, defined for `0 ≤ r, c ≤ 4` only. -/
def kernelChecked (r c : Int) : Option ℚ :=
  if (0 ≤ r ∧ r ≤ 4) ∧ (0 ≤ c ∧ c ≤ 4) then some (kernelDouble r c) else none

/-- The expression `((y + j) * width + (x + i)) * 3`, operation by operation. -/
def pixelOffsetChecked (width x y j i : Int) : Option Int := do
  let a ← int32 (y + j)
  let b ← int32 (a * width)
  let c ← int32 (x + i)
  let d ← int32 (b + c)
  int32 (d * 3)

/-- Body of the innermost loop of `GaussianFilter` with every access checked. -/
def convStepChecked (pixels : List Nat) (width x y j i : Int) (sum : ℚ × ℚ × ℚ) :
    Option (ℚ × ℚ × ℚ) := do
  let pixelOffset ← pixelOffsetChecked width x y j i
  let r ← int32 (j + radius)
  let c ← int32 (i + radius)
  let weight ← kernelChecked r c
  let v0 ← readChecked pixels pixelOffset
  let o1 ← int32 (pixelOffset + 1)
  let v1 ← readChecked pixels o1
  let o2 ← int32 (pixelOffset + 2)
  let v2 ← readChecked pixels o2
  pure (roundDouble (sum.1 + roundDouble ((v0 : ℚ) * weight)),
    roundDouble (sum.2.1 + roundDouble ((v1 : ℚ) * weight)),
    roundDouble (sum.2.2 + roundDouble ((v2 : ℚ) * weight)))

/-- The loops over `j` and `i` with every access checked. -/
def convolveChecked (pixels : List Nat) (width x y : Int) : Option (ℚ × ℚ × ℚ) :=
  (intRange (-radius) (radius + 1)).foldlM
    (fun sum j =>
      (intRange (-radius) (radius + 1)).foldlM
        (fun sum i => convStepChecked pixels width x y j i sum) sum)
    (0, 0, 0)

/-- Body of the loop over `x` of `GaussianFilter` with every access checked. -/
def gaussianBodyChecked (pixels : List Nat) (width x y : Int) (filteredPixels : List Nat) :
    Option (List Nat) := do
  let sum ← convolveChecked pixels width x y
  let offset ← srcOffsetChecked width x y
  let f0 ← writeChecked filteredPixels offset (toUChar sum.1)
  let o1 ← int32 (offset + 1)
  let f1 ← writeChecked f0 o1 (toUChar sum.2.1)
  let o2 ← int32 (offset + 2)
  writeChecked f1 o2 (toUChar sum.2.2)

/-- The function `GaussianFilter` with every access checked. -/
def gaussianChecked (pixels : List Nat) (width height : Int) : Option (List Nat) :=
  (intRange radius (height - radius)).foldlM
    (fun acc y =>
      (intRange radius (width - radius)).foldlM
        (fun acc x => gaussianBodyChecked pixels width x y acc) acc)
    (List.replicate pixels.length 0)

/-- The largest of the 25 bytes of channel `c` in the 5x5 neighbourhood of `(x, y)`. -/
def neighbourhoodMax (pixels : List Nat) (width x y c : Int) : Nat :=
  (Finset.Icc (-2 : Int) 2).sup (fun j => (Finset.Icc (-2 : Int) 2).sup (fun i =>
    readAt pixels (((y + j) * width + (x + i)) * 3 + c)))

/-- A 5x5 image (75 bytes) that is black except for channel 0 of pixels `(0, 0)` and
`(2, 0)`, bytes 0 and 6, which are 40. -/
def image40 : List Nat := (List.range 75).map (fun k => if k = 0 ∨ k = 6 then 40 else 0)

/-- A 5x5 image (75 bytes) that is black except for channel 0 of pixels `(0, 0)`, `(4, 0)`
and `(4, 1)`, bytes 0, 12 and 27, which are 10, 20 and 70. -/
def image102070 : List Nat :=
  (List.range 75).map (fun k =>
    if k = 0 then 10 else if k = 12 then 20 else if k = 27 then 70 else 0)

/-- A 5x5 image (75 bytes) that is black except for channel 0 of pixels `(0, 0)`, `(1, 0)`
and `(2, 0)`, bytes 0, 3 and 6, which are 10, 50 and 60. -/
def image105060 : List Nat :=
  (List.range 75).map (fun k =>
    if k = 0 then 10 else if k = 3 then 50 else if k = 6 then 60 else 0)

/-! ## The header as bytes (main.cpp, lines 8-30, 156 and 215)

The driver fills the record by copying `sizeof(header)` bytes of the file over it and
writes it by copying the same bytes back.  With `#pragma pack(1)` the fields follow each
other without padding; on a little-endian machine with two's complement integers a field
is the little-endian value of its bytes. -/

/-- The `k` bytes of `n`, least significant first. -/
def leBytes : Nat → Nat → List Nat
  | 0, _ => []
  | k + 1, n => n % 256 :: leBytes k (n / 256)

/-- The value of a byte sequence read least significant byte first. -/
def leValue : List Nat → Nat
  | [] => 0
  | b :: bs => b + 256 * leValue bs

/-- The 32-bit pattern of an `int32_t` (two's complement). -/
def toUInt32 (z : Int) : Nat := (z % 2 ^ 32).toNat

/-- The `int32_t` with a given 32-bit pattern. -/
def ofUInt32 (n : Nat) : Int := if n < 2 ^ 31 then (n : Int) else (n : Int) - 2 ^ 32

/-- The field of `k` bytes at byte offset `off` of the record. -/
def fieldAt (b : List Nat) (off k : Nat) : Nat := leValue ((b.drop off).take k)

/-- The record whose memory holds the bytes `b`: what the driver obtains with
`read(reinterpret_cast<char*>(&header), sizeof(header))`. -/
def decodeHeader (b : List Nat) : BMPHeader :=
  { signature := fieldAt b 0 2
    fileSize := fieldAt b 2 4
    reserved1 := fieldAt b 6 2
    reserved2 := fieldAt b 8 2
    dataOffset := fieldAt b 10 4
    headerSize := fieldAt b 14 4
    width := ofUInt32 (fieldAt b 18 4)
    height := ofUInt32 (fieldAt b 22 4)
    planes := fieldAt b 26 2
    bitsPerPixel := fieldAt b 28 2
    compression := fieldAt b 30 4
    dataSize := fieldAt b 34 4
    horizontalRes := ofUInt32 (fieldAt b 38 4)
    verticalRes := ofUInt32 (fieldAt b 42 4)
    colors := fieldAt b 46 4
    importantColors := fieldAt b 50 4 }

/-- The bytes of the memory of a record: what the driver emits with
`write(reinterpret_cast<char*>(&header), sizeof(header))`. -/
def encodeHeader (h : BMPHeader) : List Nat :=
  leBytes 2 h.signature ++ (leBytes 4 h.fileSize ++ (leBytes 2 h.reserved1 ++
  (leBytes 2 h.reserved2 ++ (leBytes 4 h.dataOffset ++ (leBytes 4 h.headerSize ++
  (leBytes 4 (toUInt32 h.width) ++ (leBytes 4 (toUInt32 h.height) ++
  (leBytes 2 h.planes ++ (leBytes 2 h.bitsPerPixel ++ (leBytes 4 h.compression ++
  (leBytes 4 h.dataSize ++ (leBytes 4 (toUInt32 h.horizontalRes) ++
  (leBytes 4 (toUInt32 h.verticalRes) ++ (leBytes 4 h.colors ++
  leBytes 4 h.importantColors))))))))))))))

/-- Every field of the record holds a value of its C++ type. -/
def headerInRange (h : BMPHeader) : Prop :=
  h.signature < 2 ^ 16 ∧ h.fileSize < 2 ^ 32 ∧ h.reserved1 < 2 ^ 16 ∧ h.reserved2 < 2 ^ 16
    ∧ h.dataOffset < 2 ^ 32 ∧ h.headerSize < 2 ^ 32
    ∧ (-2 ^ 31 ≤ h.width ∧ h.width < 2 ^ 31) ∧ (-2 ^ 31 ≤ h.height ∧ h.height < 2 ^ 31)
    ∧ h.planes < 2 ^ 16 ∧ h.bitsPerPixel < 2 ^ 16 ∧ h.compression < 2 ^ 32
    ∧ h.dataSize < 2 ^ 32
    ∧ (-2 ^ 31 ≤ h.horizontalRes ∧ h.horizontalRes < 2 ^ 31)
    ∧ (-2 ^ 31 ≤ h.verticalRes ∧ h.verticalRes < 2 ^ 31)
    ∧ h.colors < 2 ^ 32 ∧ h.importantColors < 2 ^ 32

/-- The 54 bytes of the header of a 24-bit image of width 4 and height 1. -/
def header4x1Bytes : List Nat :=
  [66, 77, 66, 0, 0, 0, 0, 0, 0, 0, 54, 0, 0, 0, 40, 0, 0, 0, 4, 0, 0, 0, 1, 0, 0, 0,
   1, 0, 24, 0, 0, 0, 0, 0, 12, 0, 0, 0, 0, 0, 0, 0, 0, 0, 0, 0, 0, 0, 0, 0, 0, 0, 0, 0]

/-! ## Generic facts about buffers and loops -/

theorem mem_intRange {lo hi z : Int} : z ∈ intRange lo hi ↔ lo ≤ z ∧ z < hi := by
  unfold intRange
  simp only [List.mem_map, List.mem_range]
  constructor
  · rintro ⟨k, hk, rfl⟩
    constructor <;> omega
  · rintro ⟨h1, h2⟩
    exact ⟨(z - lo).toNat, by omega, by omega⟩

theorem intRange_eq_nil {lo hi : Int} (h : hi ≤ lo) : intRange lo hi = [] := by
  unfold intRange
  have : (hi - lo).toNat = 0 := by omega
  simp [this]

theorem length_writeAt (buf : List Nat) (off : Int) (v : Nat) :
    (writeAt buf off v).length = buf.length := by
  unfold writeAt
  split <;> simp

theorem readAt_writeAt (buf : List Nat) (off k : Int) (v : Nat) :
    readAt (writeAt buf off v) k
      = if k = off ∧ 0 ≤ off ∧ off < buf.length then v else readAt buf k := by
  unfold readAt writeAt
  by_cases hoff : 0 ≤ off
  · by_cases hk : 0 ≤ k
    · simp only [hoff, hk, if_true, List.getD_eq_getElem?_getD, List.getElem?_set]
      by_cases hko : k = off
      · subst hko
        by_cases hlt : k < buf.length
        · have : k.toNat < buf.length := by omega
          simp [hlt, this]
        · have : buf.length ≤ k.toNat := by omega
          have h' : ¬ k.toNat < buf.length := by omega
          simp [hlt, h', List.getElem?_eq_none this]
      · have : off.toNat ≠ k.toNat := by omega
        simp [hko, this]
    · have : ¬ (k = off) := by omega
      simp [hoff, hk, this]
  · simp [hoff]

theorem length_applyWrites (ws : List (Int × Nat)) (buf : List Nat) :
    (applyWrites ws buf).length = buf.length := by
  induction ws generalizing buf with
  | nil => rfl
  | cons w ws ih =>
    show (applyWrites ws (writeAt buf w.1 w.2)).length = buf.length
    rw [ih, length_writeAt]

theorem applyWrites_append (ws vs : List (Int × Nat)) (buf : List Nat) :
    applyWrites (ws ++ vs) buf = applyWrites vs (applyWrites ws buf) := by
  simp [applyWrites, List.foldl_append]

/-- A nested loop whose body is a block of assignments is the run of all the blocks. -/
theorem foldl_applyWrites {α : Type} (l : List α) (f : α → List (Int × Nat))
    (buf : List Nat) :
    l.foldl (fun acc a => applyWrites (f a) acc) buf = applyWrites (l.flatMap f) buf := by
  induction l generalizing buf with
  | nil => rfl
  | cons a l ih =>
    rw [List.foldl_cons, ih, List.flatMap_cons, applyWrites_append]

/-- An offset no assignment targets keeps its value. -/
theorem readAt_applyWrites_of_not_mem (ws : List (Int × Nat)) (buf : List Nat) (k : Int)
    (h : ∀ w ∈ ws, w.1 ≠ k) : readAt (applyWrites ws buf) k = readAt buf k := by
  induction ws generalizing buf with
  | nil => rfl
  | cons w ws ih =>
    show readAt (applyWrites ws (writeAt buf w.1 w.2)) k = readAt buf k
    rw [ih _ (fun w' hw' => h w' (List.mem_cons_of_mem _ hw')), readAt_writeAt]
    have : ¬ (k = w.1) := fun e => h w (List.mem_cons_self _ _) e.symm
    simp [this]

/-- An offset inside the buffer that is assigned, and only ever assigned the value `v`,
holds `v` at the end. -/
theorem readAt_applyWrites_of_mem (ws : List (Int × Nat)) (buf : List Nat) (k : Int)
    (v : Nat) (hmem : (k, v) ∈ ws) (huniq : ∀ w ∈ ws, w.1 = k → w.2 = v)
    (h0 : 0 ≤ k) (hlt : k < buf.length) : readAt (applyWrites ws buf) k = v := by
  induction ws generalizing buf with
  | nil => simp at hmem
  | cons w ws ih =>
    show readAt (applyWrites ws (writeAt buf w.1 w.2)) k = v
    by_cases hex : ∃ w' ∈ ws, w'.1 = k
    · obtain ⟨w', hw', hk⟩ := hex
      have hv : w'.2 = v := huniq w' (List.mem_cons_of_mem _ hw') hk
      have hmem' : (k, v) ∈ ws := by
        have : w' = (k, v) := Prod.ext hk hv
        rw [← this]; exact hw'
      exact ih _ hmem' (fun u hu => huniq u (List.mem_cons_of_mem _ hu)) (by
        rw [length_writeAt]; exact hlt)
    · have hnot : ∀ w' ∈ ws, w'.1 ≠ k := fun w' hw' e => hex ⟨w', hw', e⟩
      rw [readAt_applyWrites_of_not_mem _ _ _ hnot, readAt_writeAt]
      rcases List.mem_cons.mp hmem with e | e
      · have h1 : w.1 = k := by rw [← e]
        have h2 : w.2 = v := by rw [← e]
        simp [h1, h2, h0, hlt]
      · exact absurd rfl (hnot _ e)

theorem readAt_replicate_zero (n : Nat) (k : Int) : readAt (List.replicate n 0) k = 0 := by
  unfold readAt
  split
  · rw [List.getD_eq_getElem?_getD, List.getElem?_replicate]
    split <;> rfl
  · rfl

/-- Quotient and remainder by `m` are unique. -/
theorem mul_add_unique {m a b r s : Int} (hr : 0 ≤ r ∧ r < m) (hs : 0 ≤ s ∧ s < m)
    (h : a * m + r = b * m + s) : a = b ∧ r = s := by
  have hab : a = b := by
    rcases lt_trichotomy a b with hlt | heq | hgt
    · exfalso
      have : (a + 1) * m ≤ b * m := Int.mul_le_mul_of_nonneg_right (by omega) (by omega)
      nlinarith
    · exact heq
    · exfalso
      have : (b + 1) * m ≤ a * m := Int.mul_le_mul_of_nonneg_right (by omega) (by omega)
      nlinarith
  subst hab
  exact ⟨rfl, by omega⟩

/-! ## Facts about `rotateImage90Degrees` -/

theorem rotateImage90Degrees_eq (p : List Nat) (W H : Int) :
    rotateImage90Degrees p W H
      = applyWrites (rotateAllWrites p W H) (List.replicate p.length 0) := by
  unfold rotateImage90Degrees rotateAllWrites
  rw [← foldl_applyWrites]
  congr 1
  funext acc x
  rw [← foldl_applyWrites]
  rfl

theorem length_rotateImage90Degrees (p : List Nat) (W H : Int) :
    (rotateImage90Degrees p W H).length = p.length := by
  rw [rotateImage90Degrees_eq, length_applyWrites, List.length_replicate]

theorem mem_rotateAllWrites {p : List Nat} {W H : Int} {w : Int × Nat} :
    w ∈ rotateAllWrites p W H ↔
      ∃ x y c : Int, (0 ≤ x ∧ x < W) ∧ (0 ≤ y ∧ y < H) ∧ (c = 0 ∨ c = 1 ∨ c = 2) ∧
        w = (destOffset W H x y + c, readAt p (srcOffset W x y + c)) := by
  unfold rotateAllWrites rotateWrites
  simp only [List.mem_flatMap, mem_intRange, List.mem_cons, List.mem_singleton,
    List.not_mem_nil, or_false]
  constructor
  · rintro ⟨x, hx, y, hy, h | h | h⟩
    · exact ⟨x, y, 0, hx, hy, Or.inl rfl, by simpa using h⟩
    · exact ⟨x, y, 1, hx, hy, Or.inr (Or.inl rfl), h⟩
    · exact ⟨x, y, 2, hx, hy, Or.inr (Or.inr rfl), h⟩
  · rintro ⟨x, y, c, hx, hy, rfl | rfl | rfl, h⟩
    · exact ⟨x, hx, y, hy, Or.inl (by simpa using h)⟩
    · exact ⟨x, hx, y, hy, Or.inr (Or.inl h)⟩
    · exact ⟨x, hx, y, hy, Or.inr (Or.inr h)⟩

/-- Distinct iterations and channels of the rotation write distinct offsets. -/
theorem destOffset_inj {W H x y c x' y' c' : Int}
    (hy : 0 ≤ y ∧ y < H) (hc : c = 0 ∨ c = 1 ∨ c = 2)
    (hy' : 0 ≤ y' ∧ y' < H) (hc' : c' = 0 ∨ c' = 1 ∨ c' = 2)
    (h : destOffset W H x y + c = destOffset W H x' y' + c') :
    x = x' ∧ y = y' ∧ c = c' := by
  unfold destOffset at h
  have h1 := mul_add_unique (m := 3) (by omega) (by omega) h
  have h2 := mul_add_unique hy hy' h1.1
  exact ⟨by omega, h2.2, h1.2⟩

/-- The destination pixel index lies inside the grid. -/
theorem destOffset_bounds {W H x y c : Int} (hx : 0 ≤ x ∧ x < W) (hy : 0 ≤ y ∧ y < H)
    (hc : c = 0 ∨ c = 1 ∨ c = 2) :
    0 ≤ destOffset W H x y + c ∧ destOffset W H x y + c < 3 * W * H := by
  unfold destOffset
  have h1 : 0 ≤ (W - x - 1) * H := Int.mul_nonneg (by omega) (by omega)
  have h2 : (W - x - 1) * H ≤ (W - 1) * H := Int.mul_le_mul_of_nonneg_right (by omega) (by omega)
  have h3 : (W - 1) * H = W * H - H := by ring
  have h4 : 3 * W * H = 3 * (W * H) := by ring
  omega

/-- The source pixel index lies inside the grid. -/
theorem srcOffset_bounds {W H x y c : Int} (hx : 0 ≤ x ∧ x < W) (hy : 0 ≤ y ∧ y < H)
    (hc : c = 0 ∨ c = 1 ∨ c = 2) :
    0 ≤ srcOffset W x y + c ∧ srcOffset W x y + c < 3 * W * H := by
  unfold srcOffset
  have h1 : 0 ≤ y * W := Int.mul_nonneg (by omega) (by omega)
  have h2 : y * W ≤ (H - 1) * W := Int.mul_le_mul_of_nonneg_right (by omega) (by omega)
  have h3 : (H - 1) * W = W * H - W := by ring
  have h4 : 3 * W * H = 3 * (W * H) := by ring
  omega

/-- What the rotated buffer holds at the destination of `(x, y)`, channel `c`. -/
theorem readAt_rotate (p : List Nat) (W H x y c : Int)
    (hlen : 3 * W * H ≤ (p.length : Int))
    (hx : 0 ≤ x ∧ x < W) (hy : 0 ≤ y ∧ y < H) (hc : c = 0 ∨ c = 1 ∨ c = 2) :
    readAt (rotateImage90Degrees p W H) (destOffset W H x y + c)
      = readAt p (srcOffset W x y + c) := by
  rw [rotateImage90Degrees_eq]
  have hb := destOffset_bounds hx hy hc
  apply readAt_applyWrites_of_mem
  · exact mem_rotateAllWrites.mpr ⟨x, y, c, hx, hy, hc, rfl⟩
  · rintro w hw hk
    obtain ⟨x', y', c', hx', hy', hc', rfl⟩ := mem_rotateAllWrites.mp hw
    obtain ⟨rfl, rfl, rfl⟩ := destOffset_inj hy' hc' hy hc hk
    rfl
  · exact hb.1
  · rw [List.length_replicate]; omega

/-- Offsets at or beyond `3 * width * height` are never assigned by the rotation. -/
theorem readAt_rotate_outside (p : List Nat) (W H k : Int) (hk : 3 * W * H ≤ k) :
    readAt (rotateImage90Degrees p W H) k = 0 := by
  rw [rotateImage90Degrees_eq, readAt_applyWrites_of_not_mem, readAt_replicate_zero]
  rintro w hw rfl
  obtain ⟨x, y, c, hx, hy, hc, rfl⟩ := mem_rotateAllWrites.mp hw
  have := destOffset_bounds hx hy hc
  simp only at hk
  omega

/-- Inside the buffer `readAt` is the list lookup. -/
theorem getElem?_eq_readAt (buf : List Nat) (n : Nat) (h : n < buf.length) :
    buf[n]? = some (readAt buf (n : Int)) := by
  unfold readAt
  rw [if_pos (by omega), List.getD_eq_getElem?_getD, Int.toNat_ofNat, List.getElem?_eq_getElem h]
  rfl

/-- The destination of `(x, y)` is pixel `(y, width - 1 - x)` of an image of width
`height`. -/
theorem destOffset_eq_srcOffset (W H x y : Int) :
    destOffset W H x y = srcOffset H y (W - 1 - x) := by
  unfold destOffset srcOffset
  ring

/-- One rotation, read through the source addressing of the rotated image. -/
theorem readAt_rotate_src (p : List Nat) (W H x y c : Int)
    (hlen : 3 * W * H ≤ (p.length : Int))
    (hx : 0 ≤ x ∧ x < W) (hy : 0 ≤ y ∧ y < H) (hc : c = 0 ∨ c = 1 ∨ c = 2) :
    readAt (rotateImage90Degrees p W H) (srcOffset H y (W - 1 - x) + c)
      = readAt p (srcOffset W x y + c) := by
  rw [← destOffset_eq_srcOffset]
  exact readAt_rotate p W H x y c hlen hx hy hc

/-- Four rotations, pixel by pixel. -/
theorem readAt_rotate_four (p : List Nat) (W H x y c : Int)
    (hlen : 3 * W * H ≤ (p.length : Int))
    (hx : 0 ≤ x ∧ x < W) (hy : 0 ≤ y ∧ y < H) (hc : c = 0 ∨ c = 1 ∨ c = 2) :
    readAt (rotateImage90Degrees (rotateImage90Degrees (rotateImage90Degrees
        (rotateImage90Degrees p W H) H W) W H) H W) (srcOffset W x y + c)
      = readAt p (srcOffset W x y + c) := by
  have e : 3 * H * W = 3 * W * H := by ring
  have l1 : 3 * H * W ≤ ((rotateImage90Degrees p W H).length : Int) := by
    rw [length_rotateImage90Degrees]; omega
  have l2 : 3 * W * H
      ≤ ((rotateImage90Degrees (rotateImage90Degrees p W H) H W).length : Int) := by
    rw [length_rotateImage90Degrees, length_rotateImage90Degrees]; omega
  have l3 : 3 * H * W ≤ ((rotateImage90Degrees (rotateImage90Degrees
      (rotateImage90Degrees p W H) H W) W H).length : Int) := by
    rw [length_rotateImage90Degrees, length_rotateImage90Degrees,
      length_rotateImage90Degrees]; omega
  have s1 := readAt_rotate_src p W H x y c hlen hx hy hc
  have s2 := readAt_rotate_src (rotateImage90Degrees p W H) H W y (W - 1 - x) c l1 hy
    (by omega) hc
  have s3 := readAt_rotate_src (rotateImage90Degrees (rotateImage90Degrees p W H) H W)
    W H (W - 1 - x) (H - 1 - y) c l2 (by omega) (by omega) hc
  have s4 := readAt_rotate_src (rotateImage90Degrees (rotateImage90Degrees
    (rotateImage90Degrees p W H) H W) W H) H W (H - 1 - y) (W - 1 - (W - 1 - x)) c l3
    (by omega) (by omega) hc
  have ex : W - 1 - (W - 1 - x) = x := by ring
  have ey : H - 1 - (H - 1 - y) = y := by ring
  rw [ex] at s3 s4
  rw [ey] at s4
  rw [s4, s3, s2, s1]

/-- Every offset below `3 * width * height` is the offset of a channel of a pixel. -/
theorem exists_srcOffset (W H k : Int) (hk : 0 ≤ k ∧ k < 3 * W * H) (hW : 0 ≤ W) :
    ∃ x y c : Int, (0 ≤ x ∧ x < W) ∧ (0 ≤ y ∧ y < H) ∧ (c = 0 ∨ c = 1 ∨ c = 2) ∧
      k = srcOffset W x y + c := by
  have hWpos : 0 < W := by
    rcases lt_or_ge 0 W with h | h
    · exact h
    · have : W = 0 := by omega
      subst this
      simp at hk
      omega
  have h3 : 3 * W * H = (H * W) * 3 := by ring
  have hq : k / 3 < H * W := Int.ediv_lt_of_lt_mul (by omega) (by omega)
  have hq0 : 0 ≤ k / 3 := Int.ediv_nonneg hk.1 (by omega)
  refine ⟨(k / 3) % W, (k / 3) / W, k % 3,
    ⟨Int.emod_nonneg _ (by omega), Int.emod_lt_of_pos _ hWpos⟩,
    ⟨Int.ediv_nonneg hq0 (by omega), Int.ediv_lt_of_lt_mul hWpos hq⟩, by omega, ?_⟩
  unfold srcOffset
  have e1 : k / 3 / W * W + k / 3 % W = k / 3 := by
    rw [mul_comm]; exact Int.ediv_add_emod _ _
  rw [e1]
  omega

/-! ## Rotation: the claims -/

/-- C1. Rotation coordinate mapping: for `W, H ≥ 0`, a buffer `p` of length at least
`3*W*H`, `0 ≤ x < W`, `0 ≤ y < H` and a channel `c ∈ {0,1,2}`, the buffer `r` returned
by `rotateImage90Degrees p W H` satisfies
`r[((W-1-x)*H + y)*3 + c] = p[(y*W + x)*3 + c]`, both offsets being inside their
buffers. -/
theorem rotate_coordinate_mapping (p : List Nat) (W H x y c : Int)
    (_hW : 0 ≤ W) (_hH : 0 ≤ H) (hlen : 3 * W * H ≤ (p.length : Int))
    (hx : 0 ≤ x ∧ x < W) (hy : 0 ≤ y ∧ y < H) (hc : c = 0 ∨ c = 1 ∨ c = 2) :
    readAt (rotateImage90Degrees p W H) (((W - 1 - x) * H + y) * 3 + c)
        = readAt p ((y * W + x) * 3 + c)
      ∧ (0 ≤ ((W - 1 - x) * H + y) * 3 + c
          ∧ ((W - 1 - x) * H + y) * 3 + c < ((rotateImage90Degrees p W H).length : Int))
      ∧ (0 ≤ (y * W + x) * 3 + c ∧ (y * W + x) * 3 + c < (p.length : Int)) := by
  have hd := destOffset_bounds (W := W) (H := H) hx hy hc
  have hs := srcOffset_bounds (W := W) (H := H) hx hy hc
  have e : ((W - 1 - x) * H + y) * 3 = destOffset W H x y := by
    unfold destOffset; ring
  rw [e, length_rotateImage90Degrees]
  exact ⟨readAt_rotate p W H x y c hlen hx hy hc, ⟨hd.1, by omega⟩, ⟨hs.1, by
    unfold srcOffset at hs; omega⟩⟩

/-- C1 at the 2x3 image `0, ..., 17`, pixel `(1, 2)`, channel `1`. -/
theorem rotate_coordinate_mapping_witness :
    readAt (rotateImage90Degrees (List.range 18) 2 3) (((2 - 1 - 1) * 3 + 2) * 3 + 1)
        = readAt (List.range 18) ((2 * 2 + 1) * 3 + 1)
      ∧ ((0 : Int) ≤ ((2 - 1 - 1) * 3 + 2) * 3 + 1
          ∧ ((2 - 1 - 1) * 3 + 2) * 3 + 1
              < ((rotateImage90Degrees (List.range 18) 2 3).length : Int))
      ∧ ((0 : Int) ≤ (2 * 2 + 1) * 3 + 1
          ∧ (2 * 2 + 1) * 3 + 1 < ((List.range 18).length : Int)) :=
  rotate_coordinate_mapping (List.range 18) 2 3 1 2 1 (by decide) (by decide) (by decide)
    (by decide) (by decide) (by decide)

/-- C2, as stated, fails: for the 2x2 image with pixels `A = (1,2,3)` at `(0,0)`,
`B = (4,5,6)` at `(1,0)`, `C = (7,8,9)` at `(0,1)` and `D = (10,11,12)` at `(1,1)`, the
rotated image is not `C, A, D, B`; none of its four pixels is the one the example
names. -/
theorem example_2x2_as_stated_fails :
    rotateImage90Degrees [1, 2, 3, 4, 5, 6, 7, 8, 9, 10, 11, 12] 2 2
        ≠ [7, 8, 9, 1, 2, 3, 10, 11, 12, 4, 5, 6]
      ∧ readAt (rotateImage90Degrees [1, 2, 3, 4, 5, 6, 7, 8, 9, 10, 11, 12] 2 2) 0 ≠ 7
      ∧ readAt (rotateImage90Degrees [1, 2, 3, 4, 5, 6, 7, 8, 9, 10, 11, 12] 2 2) 3 ≠ 1
      ∧ readAt (rotateImage90Degrees [1, 2, 3, 4, 5, 6, 7, 8, 9, 10, 11, 12] 2 2) 6 ≠ 10
      ∧ readAt (rotateImage90Degrees [1, 2, 3, 4, 5, 6, 7, 8, 9, 10, 11, 12] 2 2) 9 ≠ 4 := by
  decide

/-- C2, amended: for the 2x2 image with pixels `A` at `(0,0)`, `B` at `(1,0)`, `C` at
`(0,1)` and `D` at `(1,1)` (linear pixel index `y*width + x`), `rotateImage90Degrees`
returns the 2x2 image whose pixel at `(0,0)` is `B`, at `(1,0)` is `D`, at `(0,1)` is
`A` and at `(1,1)` is `C`. -/
theorem rotate_2x2_example (a0 a1 a2 b0 b1 b2 c0 c1 c2 d0 d1 d2 : Nat) :
    rotateImage90Degrees [a0, a1, a2, b0, b1, b2, c0, c1, c2, d0, d1, d2] 2 2
      = [b0, b1, b2, d0, d1, d2, a0, a1, a2, c0, c1, c2] := by
  rfl

/-- C3. Four rotations are the identity on pixel data: for `W, H ≥ 0` and a buffer `p`
of length at least `3*W*H`, rotating with arguments `(W,H)`, `(H,W)`, `(W,H)`, `(H,W)`
gives a buffer whose first `3*W*H` bytes are those of `p`; when `p` has length exactly
`3*W*H` the result is `p`. -/
theorem four_rotations_identity (p : List Nat) (W H : Int) (hW : 0 ≤ W) (hH : 0 ≤ H)
    (hlen : 3 * W * H ≤ (p.length : Int)) :
    (rotateImage90Degrees (rotateImage90Degrees (rotateImage90Degrees
        (rotateImage90Degrees p W H) H W) W H) H W).take (3 * W * H).toNat
        = p.take (3 * W * H).toNat
      ∧ ((p.length : Int) = 3 * W * H →
          rotateImage90Degrees (rotateImage90Degrees (rotateImage90Degrees
            (rotateImage90Degrees p W H) H W) W H) H W = p) := by
  have hl : (rotateImage90Degrees (rotateImage90Degrees (rotateImage90Degrees
      (rotateImage90Degrees p W H) H W) W H) H W).length = p.length := by
    simp only [length_rotateImage90Degrees]
  have hn : 0 ≤ 3 * W * H := Int.mul_nonneg (Int.mul_nonneg (by omega) hW) hH
  have key : (rotateImage90Degrees (rotateImage90Degrees (rotateImage90Degrees
      (rotateImage90Degrees p W H) H W) W H) H W).take (3 * W * H).toNat
        = p.take (3 * W * H).toNat := by
    apply List.ext_getElem?
    intro n
    rw [List.getElem?_take, List.getElem?_take]
    by_cases hn' : n < (3 * W * H).toNat
    · rw [if_pos hn', if_pos hn', getElem?_eq_readAt _ n (by omega),
        getElem?_eq_readAt p n (by omega)]
      obtain ⟨x, y, c, hx, hy, hc, hk⟩ := exists_srcOffset W H n ⟨by omega, by omega⟩ hW
      rw [hk, readAt_rotate_four p W H x y c hlen hx hy hc]
    · rw [if_neg hn', if_neg hn']
  refine ⟨key, fun hexact => ?_⟩
  have e1 : (3 * W * H).toNat = p.length := by omega
  rw [e1, List.take_of_length_le (by omega), List.take_of_length_le (by omega)] at key
  exact key

/-- C3 at the 2x3 image `0, ..., 17` of exactly 18 bytes. -/
theorem four_rotations_identity_witness :
    (rotateImage90Degrees (rotateImage90Degrees (rotateImage90Degrees
        (rotateImage90Degrees (List.range 18) 2 3) 3 2) 2 3) 3 2).take
          ((3 : Int) * 2 * 3).toNat
        = (List.range 18).take ((3 : Int) * 2 * 3).toNat
      ∧ ((((List.range 18).length : Nat) : Int) = 3 * 2 * 3 →
          rotateImage90Degrees (rotateImage90Degrees (rotateImage90Degrees
            (rotateImage90Degrees (List.range 18) 2 3) 3 2) 2 3) 3 2 = List.range 18) :=
  four_rotations_identity (List.range 18) 2 3 (by decide) (by decide) (by decide)

theorem nodup_intRange (lo hi : Int) : (intRange lo hi).Nodup := by
  unfold intRange
  apply List.Nodup.map _ (List.nodup_range _)
  intro a b h
  simp only at h
  omega

/-- Quotient and remainder of a pixel index `y * W + x`. -/
theorem ediv_emod_index {W x y : Int} (hx : 0 ≤ x ∧ x < W) :
    (y * W + x) / W = y ∧ (y * W + x) % W = x := by
  have hWpos : 0 < W := by omega
  have h := Int.ediv_add_emod (y * W + x) W
  exact mul_add_unique (m := W)
    ⟨Int.emod_nonneg _ (by omega), Int.emod_lt_of_pos _ hWpos⟩ hx (by linarith)

theorem rotateIndex_index {W H x y : Int} (hx : 0 ≤ x ∧ x < W) :
    rotateIndex W H (y * W + x) = (W - 1 - x) * H + y := by
  unfold rotateIndex
  rw [(ediv_emod_index hx).1, (ediv_emod_index hx).2]
  ring

/-- The offsets assigned by the rotation are pairwise distinct: no byte is written
twice. -/
theorem nodup_rotate_dests (p : List Nat) (W H : Int) :
    ((rotateAllWrites p W H).map Prod.fst).Nodup := by
  unfold rotateAllWrites
  rw [List.map_flatMap, List.nodup_flatMap]
  constructor
  · intro x _
    rw [List.map_flatMap, List.nodup_flatMap]
    constructor
    · intro y _
      simp [rotateWrites]
    · apply (nodup_intRange 0 H).pairwise_of_forall_ne
      intro y hy y' hy' hne
      rw [mem_intRange] at hy hy'
      simp only [Function.onFun, List.disjoint_left]
      intro d hd hd'
      simp only [rotateWrites, List.map_cons, List.map_nil, List.mem_cons,
        List.mem_singleton, List.not_mem_nil, or_false] at hd hd'
      have hc : ∃ c : Int, (c = 0 ∨ c = 1 ∨ c = 2) ∧ d = destOffset W H x y + c := by
        rcases hd with h | h | h
        · exact ⟨0, Or.inl rfl, by omega⟩
        · exact ⟨1, Or.inr (Or.inl rfl), h⟩
        · exact ⟨2, Or.inr (Or.inr rfl), h⟩
      have hc' : ∃ c : Int, (c = 0 ∨ c = 1 ∨ c = 2) ∧ d = destOffset W H x y' + c := by
        rcases hd' with h | h | h
        · exact ⟨0, Or.inl rfl, by omega⟩
        · exact ⟨1, Or.inr (Or.inl rfl), h⟩
        · exact ⟨2, Or.inr (Or.inr rfl), h⟩
      obtain ⟨c, hc, e⟩ := hc
      obtain ⟨c', hc', e'⟩ := hc'
      exact hne (destOffset_inj hy hc hy' hc' (e.symm.trans e')).2.1
  · apply (nodup_intRange 0 W).pairwise_of_forall_ne
    intro x _ x' _ hne
    simp only [Function.onFun, List.disjoint_left]
    intro d hd hd'
    simp only [List.map_flatMap, List.mem_flatMap, mem_intRange, rotateWrites,
      List.map_cons, List.map_nil, List.mem_cons, List.mem_singleton, List.not_mem_nil,
      or_false] at hd hd'
    obtain ⟨y, hy, hd⟩ := hd
    obtain ⟨y', hy', hd'⟩ := hd'
    have hc : ∃ c : Int, (c = 0 ∨ c = 1 ∨ c = 2) ∧ d = destOffset W H x y + c := by
      rcases hd with h | h | h
      · exact ⟨0, Or.inl rfl, by omega⟩
      · exact ⟨1, Or.inr (Or.inl rfl), h⟩
      · exact ⟨2, Or.inr (Or.inr rfl), h⟩
    have hc' : ∃ c : Int, (c = 0 ∨ c = 1 ∨ c = 2) ∧ d = destOffset W H x' y' + c := by
      rcases hd' with h | h | h
      · exact ⟨0, Or.inl rfl, by omega⟩
      · exact ⟨1, Or.inr (Or.inl rfl), h⟩
      · exact ⟨2, Or.inr (Or.inr rfl), h⟩
    obtain ⟨c, hc, e⟩ := hc
    obtain ⟨c', hc', e'⟩ := hc'
    exact hne (destOffset_inj hy hc hy' hc' (e.symm.trans e')).1

/-- The index map of the rotation maps the grid into itself. -/
theorem rotateIndex_mapsTo {W H k : Int} (hW : 1 ≤ W) (hk : 0 ≤ k ∧ k < W * H) :
    0 ≤ rotateIndex W H k ∧ rotateIndex W H k < W * H := by
  have hWpos : 0 < W := by omega
  have hx : 0 ≤ k % W ∧ k % W < W := ⟨Int.emod_nonneg _ (by omega), Int.emod_lt_of_pos _ hWpos⟩
  have hy : 0 ≤ k / W ∧ k / W < H :=
    ⟨Int.ediv_nonneg hk.1 (by omega), Int.ediv_lt_of_lt_mul hWpos (by linarith [mul_comm W H])⟩
  have hb := destOffset_bounds (W := W) (H := H) hx hy (Or.inl rfl)
  unfold destOffset at hb
  unfold rotateIndex
  have h4 : 3 * W * H = 3 * (W * H) := by ring
  omega

theorem rotateIndex_injOn {W H k k' : Int} (hW : 1 ≤ W) (hk : 0 ≤ k ∧ k < W * H)
    (hk' : 0 ≤ k' ∧ k' < W * H) (h : rotateIndex W H k = rotateIndex W H k') : k = k' := by
  have hWpos : 0 < W := by omega
  have hy : 0 ≤ k / W ∧ k / W < H :=
    ⟨Int.ediv_nonneg hk.1 (by omega), Int.ediv_lt_of_lt_mul hWpos (by linarith [mul_comm W H])⟩
  have hy' : 0 ≤ k' / W ∧ k' / W < H :=
    ⟨Int.ediv_nonneg hk'.1 (by omega), Int.ediv_lt_of_lt_mul hWpos (by linarith [mul_comm W H])⟩
  unfold rotateIndex at h
  have h2 := mul_add_unique hy hy' h
  have e := Int.ediv_add_emod k W
  have e' := Int.ediv_add_emod k' W
  have hm : k % W = k' % W := by omega
  rw [h2.2, hm] at e
  omega

theorem rotateIndex_surjOn {W H d : Int} (hH : 1 ≤ H)
    (hd : 0 ≤ d ∧ d < W * H) :
    ∃ k, (0 ≤ k ∧ k < W * H) ∧ rotateIndex W H k = d := by
  have hHpos : 0 < H := by omega
  have hq : 0 ≤ d / H ∧ d / H < W :=
    ⟨Int.ediv_nonneg hd.1 (by omega), Int.ediv_lt_of_lt_mul hHpos hd.2⟩
  have hr : 0 ≤ d % H ∧ d % H < H := ⟨Int.emod_nonneg _ (by omega), Int.emod_lt_of_pos _ hHpos⟩
  have hx : 0 ≤ W - 1 - d / H ∧ W - 1 - d / H < W := by omega
  have hs := srcOffset_bounds (W := W) (H := H) hx hr (Or.inl rfl)
  unfold srcOffset at hs
  have h4 : 3 * W * H = 3 * (W * H) := by ring
  refine ⟨d % H * W + (W - 1 - d / H), by omega, ?_⟩
  rw [rotateIndex_index hx]
  have e := Int.ediv_add_emod d H
  have e2 : (W - 1 - (W - 1 - d / H)) * H = H * (d / H) := by ring
  rw [e2]
  exact e

/-- C4. The rotation index map is a bijection: for `W, H ≥ 1` the iteration `(x, y)`
reads pixel index `y*W + x` and writes pixel index `(W-1-x)*H + y`, this map is a
bijection of `{0, ..., W*H-1}`, every byte of the first `W*H` output pixels is assigned
exactly once, and every such output pixel is the copy of exactly one source pixel. -/
theorem rotate_index_bijection (p : List Nat) (W H : Int) (hW : 1 ≤ W) (hH : 1 ≤ H) :
    (∀ x y : Int, 0 ≤ x ∧ x < W → 0 ≤ y ∧ y < H →
        srcOffset W x y = (y * W + x) * 3
        ∧ destOffset W H x y = rotateIndex W H (y * W + x) * 3
        ∧ rotateIndex W H (y * W + x) = (W - 1 - x) * H + y)
      ∧ Set.BijOn (rotateIndex W H) (Set.Ico 0 (W * H)) (Set.Ico 0 (W * H))
      ∧ rotateImage90Degrees p W H
          = applyWrites (rotateAllWrites p W H) (List.replicate p.length 0)
      ∧ (∀ d c : Int, 0 ≤ d ∧ d < W * H → c = 0 ∨ c = 1 ∨ c = 2 →
          List.count (d * 3 + c) ((rotateAllWrites p W H).map Prod.fst) = 1)
      ∧ (3 * W * H ≤ (p.length : Int) → ∀ d : Int, 0 ≤ d ∧ d < W * H →
          ∃ k : Int, (0 ≤ k ∧ k < W * H) ∧ rotateIndex W H k = d
            ∧ (∀ k' : Int, 0 ≤ k' ∧ k' < W * H → rotateIndex W H k' = d → k' = k)
            ∧ ∀ c : Int, c = 0 ∨ c = 1 ∨ c = 2 →
                readAt (rotateImage90Degrees p W H) (d * 3 + c) = readAt p (k * 3 + c)) := by
  refine ⟨?_, ?_, rotateImage90Degrees_eq p W H, ?_, ?_⟩
  · intro x y hx _
    refine ⟨rfl, ?_, rotateIndex_index hx⟩
    rw [rotateIndex_index hx]
    unfold destOffset
    ring
  · refine ⟨fun k hk => ?_, fun k hk k' hk' h => ?_, fun d hd => ?_⟩
    · exact rotateIndex_mapsTo hW hk
    · exact rotateIndex_injOn hW hk hk' h
    · obtain ⟨k, hk, e⟩ := rotateIndex_surjOn hH hd
      exact ⟨k, hk, e⟩
  · intro d c hd hc
    apply List.count_eq_one_of_mem (nodup_rotate_dests p W H)
    obtain ⟨k, hk, e⟩ := rotateIndex_surjOn hH hd
    have hWpos : 0 < W := by omega
    have hx : 0 ≤ k % W ∧ k % W < W :=
      ⟨Int.emod_nonneg _ (by omega), Int.emod_lt_of_pos _ hWpos⟩
    have hy : 0 ≤ k / W ∧ k / W < H :=
      ⟨Int.ediv_nonneg hk.1 (by omega),
        Int.ediv_lt_of_lt_mul hWpos (by linarith [mul_comm W H])⟩
    rw [List.mem_map]
    refine ⟨(destOffset W H (k % W) (k / W) + c, _),
      mem_rotateAllWrites.mpr ⟨k % W, k / W, c, hx, hy, hc, rfl⟩, ?_⟩
    show destOffset W H (k % W) (k / W) + c = d * 3 + c
    rw [← e]
    unfold destOffset rotateIndex
    ring
  · intro hlen d hd
    obtain ⟨k, hk, e⟩ := rotateIndex_surjOn hH hd
    refine ⟨k, hk, e, fun k' hk' e' => rotateIndex_injOn hW hk' hk (e'.trans e.symm), ?_⟩
    intro c hc
    have hWpos : 0 < W := by omega
    have hx : 0 ≤ k % W ∧ k % W < W :=
      ⟨Int.emod_nonneg _ (by omega), Int.emod_lt_of_pos _ hWpos⟩
    have hy : 0 ≤ k / W ∧ k / W < H :=
      ⟨Int.ediv_nonneg hk.1 (by omega),
        Int.ediv_lt_of_lt_mul hWpos (by linarith [mul_comm W H])⟩
    have h1 := readAt_rotate p W H (k % W) (k / W) c hlen hx hy hc
    have e1 : destOffset W H (k % W) (k / W) = d * 3 := by
      rw [← e]; unfold destOffset rotateIndex; ring
    have e2 : srcOffset W (k % W) (k / W) = k * 3 := by
      unfold srcOffset
      have := Int.ediv_add_emod k W
      have e3 : k / W * W = W * (k / W) := by ring
      rw [e3, this]
    rw [e1, e2] at h1
    exact h1

/-- C4 at the 2x3 image `0, ..., 17`. -/
theorem rotate_index_bijection_witness :
    (∀ x y : Int, 0 ≤ x ∧ x < 2 → 0 ≤ y ∧ y < 3 →
        srcOffset 2 x y = (y * 2 + x) * 3
        ∧ destOffset 2 3 x y = rotateIndex 2 3 (y * 2 + x) * 3
        ∧ rotateIndex 2 3 (y * 2 + x) = (2 - 1 - x) * 3 + y)
      ∧ Set.BijOn (rotateIndex 2 3) (Set.Ico 0 (2 * 3)) (Set.Ico 0 (2 * 3))
      ∧ rotateImage90Degrees (List.range 18) 2 3
          = applyWrites (rotateAllWrites (List.range 18) 2 3)
              (List.replicate (List.range 18).length 0)
      ∧ (∀ d c : Int, 0 ≤ d ∧ d < 2 * 3 → c = 0 ∨ c = 1 ∨ c = 2 →
          List.count (d * 3 + c) ((rotateAllWrites (List.range 18) 2 3).map Prod.fst) = 1)
      ∧ (3 * 2 * 3 ≤ ((List.range 18).length : Int) → ∀ d : Int, 0 ≤ d ∧ d < 2 * 3 →
          ∃ k : Int, (0 ≤ k ∧ k < 2 * 3) ∧ rotateIndex 2 3 k = d
            ∧ (∀ k' : Int, 0 ≤ k' ∧ k' < 2 * 3 → rotateIndex 2 3 k' = d → k' = k)
            ∧ ∀ c : Int, c = 0 ∨ c = 1 ∨ c = 2 →
                readAt (rotateImage90Degrees (List.range 18) 2 3) (d * 3 + c)
                  = readAt (List.range 18) (k * 3 + c)) :=
  rotate_index_bijection (List.range 18) 2 3 (by decide) (by decide)

/-! ## Facts about `GaussianFilter` -/

theorem GaussianFilter_eq (p : List Nat) (W H : Int) :
    GaussianFilter p W H
      = applyWrites (gaussianAllWrites p W H) (List.replicate p.length 0) := by
  unfold GaussianFilter gaussianAllWrites
  rw [← foldl_applyWrites]
  congr 1
  funext acc y
  rw [← foldl_applyWrites]
  rfl

theorem length_GaussianFilter (p : List Nat) (W H : Int) :
    (GaussianFilter p W H).length = p.length := by
  rw [GaussianFilter_eq, length_applyWrites, List.length_replicate]

theorem mem_gaussianAllWrites {p : List Nat} {W H : Int} {w : Int × Nat} :
    w ∈ gaussianAllWrites p W H ↔
      ∃ x y c : Int, (2 ≤ x ∧ x < W - 2) ∧ (2 ≤ y ∧ y < H - 2) ∧ (c = 0 ∨ c = 1 ∨ c = 2) ∧
        w = (srcOffset W x y + c, toUChar (channel c (convolve p W x y))) := by
  unfold gaussianAllWrites gaussianWrites srcOffset radius
  simp only [List.mem_flatMap, mem_intRange, List.mem_cons, List.mem_singleton,
    List.not_mem_nil, or_false]
  constructor
  · rintro ⟨y, hy, x, hx, h | h | h⟩
    · exact ⟨x, y, 0, hx, hy, Or.inl rfl, by simpa [channel] using h⟩
    · exact ⟨x, y, 1, hx, hy, Or.inr (Or.inl rfl), by simpa [channel] using h⟩
    · exact ⟨x, y, 2, hx, hy, Or.inr (Or.inr rfl), by simpa [channel] using h⟩
  · rintro ⟨x, y, c, hx, hy, rfl | rfl | rfl, h⟩
    · exact ⟨y, hy, x, hx, Or.inl (by simpa [channel] using h)⟩
    · exact ⟨y, hy, x, hx, Or.inr (Or.inl (by simpa [channel] using h))⟩
    · exact ⟨y, hy, x, hx, Or.inr (Or.inr (by simpa [channel] using h))⟩

/-- Distinct pixels and channels have distinct offsets. -/
theorem srcOffset_inj {W x y c x' y' c' : Int}
    (hx : 0 ≤ x ∧ x < W) (hc : c = 0 ∨ c = 1 ∨ c = 2)
    (hx' : 0 ≤ x' ∧ x' < W) (hc' : c' = 0 ∨ c' = 1 ∨ c' = 2)
    (h : srcOffset W x y + c = srcOffset W x' y' + c') :
    x = x' ∧ y = y' ∧ c = c' := by
  unfold srcOffset at h
  have h1 := mul_add_unique (m := 3) (by omega) (by omega) h
  have h2 := mul_add_unique hx hx' h1.1
  exact ⟨h2.2, h2.1, h1.2⟩

/-- What the filtered buffer holds at an interior pixel. -/
theorem readAt_gaussian (p : List Nat) (W H x y c : Int)
    (hlen : 3 * W * H ≤ (p.length : Int))
    (hx : 2 ≤ x ∧ x < W - 2) (hy : 2 ≤ y ∧ y < H - 2) (hc : c = 0 ∨ c = 1 ∨ c = 2) :
    readAt (GaussianFilter p W H) (srcOffset W x y + c)
      = toUChar (channel c (convolve p W x y)) := by
  rw [GaussianFilter_eq]
  have hb := srcOffset_bounds (W := W) (H := H) (x := x) (y := y) (by omega) (by omega) hc
  apply readAt_applyWrites_of_mem
  · exact mem_gaussianAllWrites.mpr ⟨x, y, c, hx, hy, hc, rfl⟩
  · rintro w hw hk
    obtain ⟨x', y', c', hx', hy', hc', rfl⟩ := mem_gaussianAllWrites.mp hw
    obtain ⟨rfl, rfl, rfl⟩ :=
      @srcOffset_inj W x' y' c' x y c (by omega) hc' (by omega) hc hk
    rfl
  · exact hb.1
  · rw [List.length_replicate]; omega

/-- An offset that is not a channel of an interior pixel is never assigned. -/
theorem readAt_gaussian_border (p : List Nat) (W H x y c : Int)
    (hx : 0 ≤ x ∧ x < W) (hc : c = 0 ∨ c = 1 ∨ c = 2)
    (hb : x < 2 ∨ W - 2 ≤ x ∨ y < 2 ∨ H - 2 ≤ y) :
    readAt (GaussianFilter p W H) (srcOffset W x y + c) = 0 := by
  rw [GaussianFilter_eq, readAt_applyWrites_of_not_mem, readAt_replicate_zero]
  intro w hw hk
  obtain ⟨x', y', c', hx', hy', hc', rfl⟩ := mem_gaussianAllWrites.mp hw
  obtain ⟨rfl, rfl, rfl⟩ :=
    @srcOffset_inj W x' y' c' x y c (by omega) hc' hx hc hk
  omega

/-- When no pixel is interior the filter assigns nothing. -/
theorem gaussianAllWrites_small (p : List Nat) (W H : Int) (h : W < 5 ∨ H < 5) :
    gaussianAllWrites p W H = [] := by
  apply List.eq_nil_iff_forall_not_mem.mpr
  intro w hw
  obtain ⟨x, y, c, hx, hy, _, _⟩ := mem_gaussianAllWrites.mp hw
  omega

theorem intRange_kernel : intRange (-radius) (radius + 1) = [-2, -1, 0, 1, 2] := by
  decide

theorem Icc_kernel : Finset.Icc (-2 : Int) 2 = {-2, -1, 0, 1, 2} := by
  decide

theorem toNat_two : Int.toNat 2 = 2 := rfl

theorem toNat_three : Int.toNat 3 = 3 := rfl

theorem toNat_four : Int.toNat 4 = 4 := rfl

theorem kernelAt_nonneg (j i : Int) (hj : j ∈ Finset.Icc (-2 : Int) 2)
    (hi : i ∈ Finset.Icc (-2 : Int) 2) : 0 ≤ kernelAt (j + 2) (i + 2) := by
  rw [Icc_kernel] at hj hi
  simp only [Finset.mem_insert, Finset.mem_singleton] at hj hi
  rcases hj with rfl | rfl | rfl | rfl | rfl <;> rcases hi with rfl | rfl | rfl | rfl | rfl <;>
    norm_num [kernelAt, kernel, toNat_two, toNat_three, toNat_four]

theorem weightedSum_nonneg (p : List Nat) (W x y c : Int) : 0 ≤ weightedSum p W x y c := by
  unfold weightedSum
  exact Finset.sum_nonneg (fun j hj => Finset.sum_nonneg (fun i hi =>
    mul_nonneg (kernelAt_nonneg j i hj hi) (Nat.cast_nonneg _)))

/-- On a non-negative value the conversion to `unsigned char` is the floor modulo 256. -/
theorem toUChar_of_nonneg (s : ℚ) (h : 0 ≤ s) : toUChar s = ⌊s⌋.toNat % 256 := by
  unfold toUChar
  rw [if_pos h]
  have : 0 ≤ ⌊s⌋ := Int.floor_nonneg.mpr h
  omega

/-- The 25 offsets read at an interior pixel lie inside the pixel grid. -/
theorem neighbour_bounds {W H x y c j i : Int}
    (hx : 2 ≤ x ∧ x < W - 2) (hy : 2 ≤ y ∧ y < H - 2) (hc : c = 0 ∨ c = 1 ∨ c = 2)
    (hj : -2 ≤ j ∧ j ≤ 2) (hi : -2 ≤ i ∧ i ≤ 2) :
    0 ≤ ((y + j) * W + (x + i)) * 3 + c ∧ ((y + j) * W + (x + i)) * 3 + c < 3 * W * H := by
  have := srcOffset_bounds (W := W) (H := H) (x := x + i) (y := y + j) (c := c)
    (by omega) (by omega) hc
  unfold srcOffset at this
  exact this

theorem readAt_replicate (n v : Nat) (k : Int) (hk : 0 ≤ k ∧ k < (n : Int)) :
    readAt (List.replicate n v) k = v := by
  unfold readAt
  rw [if_pos hk.1, List.getD_eq_getElem?_getD, List.getElem?_replicate, if_pos (by omega)]
  rfl

theorem kernelSum_eq : kernelSum = 987 / 1000 := by
  norm_num [kernelSum, kernel]

/-- On a uniform image the weighted sum at an interior pixel is the value times the sum
of the weights. -/
theorem weightedSum_uniform (n v : Nat) (W H x y c : Int) (hlen : 3 * W * H ≤ (n : Int))
    (hx : 2 ≤ x ∧ x < W - 2) (hy : 2 ≤ y ∧ y < H - 2) (hc : c = 0 ∨ c = 1 ∨ c = 2) :
    weightedSum (List.replicate n v) W x y c = (v : ℚ) * kernelSum := by
  have h : weightedSum (List.replicate n v) W x y c
      = ∑ j in Finset.Icc (-2 : Int) 2, ∑ i in Finset.Icc (-2 : Int) 2,
          kernelAt (j + 2) (i + 2) * (v : ℚ) := by
    unfold weightedSum
    refine Finset.sum_congr rfl (fun j hj => Finset.sum_congr rfl (fun i hi => ?_))
    rw [Finset.mem_Icc] at hj hi
    have hb := neighbour_bounds (c := c) hx hy hc hj hi
    rw [readAt_replicate n v _ ⟨hb.1, by omega⟩]
  rw [h, kernelSum_eq, Icc_kernel]
  simp
  norm_num [kernelAt, kernel, toNat_two, toNat_three, toNat_four]
  ring

/-! ## Binary64 rounding -/

theorem roundDouble_zero : roundDouble 0 = 0 := by
  unfold roundDouble
  rw [if_pos rfl]

/-- Rounding to the nearest integer moves a value by at most one half. -/
theorem roundHalfEven_error (q : ℚ) : |(roundHalfEven q : ℚ) - q| ≤ 1 / 2 := by
  have h1 := Int.floor_le q
  have h2 := Int.lt_floor_add_one q
  unfold roundHalfEven
  rw [abs_le]
  split_ifs with a b c
  · constructor <;> linarith
  · push_cast; constructor <;> linarith
  · constructor <;> linarith
  · push_cast; constructor <;> linarith

theorem roundHalfEven_nonneg (q : ℚ) (h : 0 ≤ q) : 0 ≤ roundHalfEven q := by
  have h0 : 0 ≤ ⌊q⌋ := Int.floor_nonneg.mpr h
  unfold roundHalfEven
  split_ifs <;> omega

/-- A value within one half of an integer, ties excluded, rounds to that integer. -/
theorem roundHalfEven_eq (q : ℚ) (n : Int) (h : |q - n| < 1 / 2) : roundHalfEven q = n := by
  rw [abs_lt] at h
  have h1 := Int.floor_le q
  have h2 := Int.lt_floor_add_one q
  unfold roundHalfEven
  by_cases hq : (n : ℚ) ≤ q
  · have hf : ⌊q⌋ = n := Int.floor_eq_iff.mpr ⟨hq, by linarith⟩
    rw [hf, if_pos (by linarith)]
  · have hf : ⌊q⌋ = n - 1 := Int.floor_eq_iff.mpr ⟨by push_cast; linarith, by push_cast; linarith⟩
    rw [hf]
    push_cast
    rw [if_neg (by linarith), if_pos (by linarith)]
    ring

/-- Relative error of one rounding: at most `2^-53`. -/
theorem roundDouble_error (q : ℚ) : |roundDouble q - q| ≤ |q| * (1 / 2 ^ 53) := by
  unfold roundDouble
  by_cases hq : q = 0
  · rw [if_pos hq, hq]; simp
  · rw [if_neg hq]
    have hpos : 0 < |q| := abs_pos.mpr hq
    have hle : (2 : ℚ) ^ Int.log 2 |q| ≤ |q| := by
      have := Int.zpow_log_le_self (b := 2) (r := |q|) (by norm_num) hpos
      simpa using this
    have hs : (0 : ℚ) < 2 ^ (Int.log 2 |q| - 52) := by positivity
    have he : (2 : ℚ) ^ (Int.log 2 |q| - 52) = 2 ^ Int.log 2 |q| * (1 / 2 ^ 52) := by
      rw [zpow_sub₀ (by norm_num : (2 : ℚ) ≠ 0)]
      norm_num
      ring
    have hr := roundHalfEven_error (q / 2 ^ (Int.log 2 |q| - 52))
    have e1 : (roundHalfEven (q / 2 ^ (Int.log 2 |q| - 52)) : ℚ) * 2 ^ (Int.log 2 |q| - 52) - q
        = ((roundHalfEven (q / 2 ^ (Int.log 2 |q| - 52)) : ℚ) - q / 2 ^ (Int.log 2 |q| - 52))
            * 2 ^ (Int.log 2 |q| - 52) := by
      field_simp
    rw [e1, abs_mul, abs_of_pos hs]
    calc |(roundHalfEven (q / 2 ^ (Int.log 2 |q| - 52)) : ℚ) - q / 2 ^ (Int.log 2 |q| - 52)|
          * 2 ^ (Int.log 2 |q| - 52)
        ≤ 1 / 2 * 2 ^ (Int.log 2 |q| - 52) := mul_le_mul_of_nonneg_right hr hs.le
      _ = 2 ^ Int.log 2 |q| * (1 / 2 ^ 53) := by rw [he]; ring
      _ ≤ |q| * (1 / 2 ^ 53) := mul_le_mul_of_nonneg_right hle (by positivity)

theorem roundDouble_nonneg (q : ℚ) (h : 0 ≤ q) : 0 ≤ roundDouble q := by
  unfold roundDouble
  split
  · exact le_refl 0
  · have hs : (0 : ℚ) < 2 ^ (Int.log 2 |q| - 52) := by positivity
    have : 0 ≤ roundHalfEven (q / 2 ^ (Int.log 2 |q| - 52)) :=
      roundHalfEven_nonneg _ (div_nonneg h hs.le)
    exact mul_nonneg (by exact_mod_cast this) hs.le

/-- A value with `2^52 ≤ q * 2^k < 2^53` is rounded on the grid of step `2^-k`. -/
theorem roundDouble_scaled (q : ℚ) (k : Nat) (h1 : 2 ^ 52 ≤ q * 2 ^ k)
    (h2 : q * 2 ^ k < 2 ^ 53) :
    roundDouble q = (roundHalfEven (q * 2 ^ k) : ℚ) / 2 ^ k := by
  have hk : (0 : ℚ) < 2 ^ k := by positivity
  have hq : 0 < q := by
    by_contra hne
    have : q * 2 ^ k ≤ 0 := mul_nonpos_of_nonpos_of_nonneg (not_lt.mp hne) hk.le
    have : (0 : ℚ) < 2 ^ 52 := by norm_num
    linarith
  have habs : |q| = q := abs_of_pos hq
  have hlog : Int.log 2 |q| = 52 - (k : Int) := by
    rw [habs]
    apply le_antisymm
    · have : Int.log 2 q < 53 - (k : Int) := by
        rw [← Int.lt_zpow_iff_log_lt (by norm_num) hq]
        rw [zpow_sub₀ (by norm_num)]
        simp only [Nat.cast_ofNat, zpow_natCast]
        rw [lt_div_iff₀ hk]
        exact_mod_cast h2
      omega
    · rw [← Int.zpow_le_iff_le_log (by norm_num) hq]
      rw [zpow_sub₀ (by norm_num)]
      simp only [Nat.cast_ofNat, zpow_natCast]
      rw [div_le_iff₀ hk]
      exact_mod_cast h1
  unfold roundDouble
  rw [if_neg (ne_of_gt hq), hlog]
  have e : (52 - (k : Int) - 52) = -(k : Int) := by ring
  rw [e, zpow_neg, zpow_natCast]
  have e2 : q / (2 ^ k)⁻¹ = q * 2 ^ k := by field_simp
  rw [e2]
  field_simp

/-- Evaluation of a rounding from its scaled significand. -/
theorem roundDouble_eq (q : ℚ) (n : Int) (k : Nat) (h1 : 2 ^ 52 ≤ q * 2 ^ k)
    (h2 : q * 2 ^ k < 2 ^ 53) (h3 : |q * 2 ^ k - n| < 1 / 2) :
    roundDouble q = (n : ℚ) / 2 ^ k := by
  rw [roundDouble_scaled q k h1 h2, roundHalfEven_eq _ n h3]

/-- A value half way between two integers rounds to the even one. -/
theorem roundHalfEven_tie (q : ℚ) (n : Int) (h : |q - n| = 1 / 2) (hn : n % 2 = 0) :
    roundHalfEven q = n := by
  unfold roundHalfEven
  rcases abs_eq (by norm_num : (0 : ℚ) ≤ 1 / 2) |>.mp h with h1 | h1
  · have hf : ⌊q⌋ = n := Int.floor_eq_iff.mpr ⟨by linarith, by linarith⟩
    rw [hf, if_neg (by linarith), if_neg (by linarith), if_pos hn]
  · have hf : ⌊q⌋ = n - 1 :=
      Int.floor_eq_iff.mpr ⟨by push_cast; linarith, by push_cast; linarith⟩
    rw [hf]
    push_cast
    rw [if_neg (by linarith), if_neg (by linarith), if_neg (by omega)]
    ring

/-- Evaluation of a rounding that falls half way between two binary64 values. -/
theorem roundDouble_eq_tie (q : ℚ) (n : Int) (k : Nat) (h1 : 2 ^ 52 ≤ q * 2 ^ k)
    (h2 : q * 2 ^ k < 2 ^ 53) (h3 : |q * 2 ^ k - n| = 1 / 2) (hn : n % 2 = 0) :
    roundDouble q = (n : ℚ) / 2 ^ k := by
  rw [roundDouble_scaled q k h1 h2, roundHalfEven_tie _ n h3 hn]


/-- One accumulation in binary64 against the exact one. -/
theorem accumulateStep_error (sD sE a : ℚ) (t : Nat × ℚ) (hv : t.1 < 256)
    (hw : 0 ≤ t.2 ∧ t.2 ≤ 1 / 5) (h0 : 0 ≤ sD) (hE : 0 ≤ sE ∧ sE ≤ 1300) (ha : a ≤ 1)
    (herr : |sD - sE| ≤ a) :
    0 ≤ accumulateStep sD t
      ∧ |accumulateStep sD t - exactStep sE t| ≤ a + 1 / 2 ^ 41
      ∧ 0 ≤ exactStep sE t ∧ exactStep sE t ≤ sE + 51 := by
  obtain ⟨v, w⟩ := t
  simp only at hv hw
  unfold accumulateStep exactStep
  simp only
  have hv0 : (0 : ℚ) ≤ (v : ℚ) := Nat.cast_nonneg v
  have hv1 : (v : ℚ) ≤ 255 := by
    have : v ≤ 255 := by omega
    exact_mod_cast this
  -- the weight
  have e1 := roundDouble_error w
  rw [abs_of_nonneg hw.1, abs_le] at e1
  have hwd0 := roundDouble_nonneg w hw.1
  have hwu : w * (1 / 2 ^ 53) ≤ 1 / 5 * (1 / 2 ^ 53) :=
    mul_le_mul_of_nonneg_right hw.2 (by positivity)
  have hwd1 : roundDouble w ≤ 1 / 4 := by
    have : (1 : ℚ) / 5 * (1 / 2 ^ 53) ≤ 1 / 20 := by norm_num
    linarith
  -- the product
  have hx0 : 0 ≤ (v : ℚ) * roundDouble w := mul_nonneg hv0 hwd0
  have hx1 : (v : ℚ) * roundDouble w ≤ 255 * (1 / 4) := mul_le_mul hv1 hwd1 hwd0 (by norm_num)
  have e2 := roundDouble_error ((v : ℚ) * roundDouble w)
  rw [abs_of_nonneg hx0, abs_le] at e2
  have hxu : (v : ℚ) * roundDouble w * (1 / 2 ^ 53) ≤ 255 * (1 / 4) * (1 / 2 ^ 53) :=
    mul_le_mul_of_nonneg_right hx1 (by positivity)
  have hpd0 := roundDouble_nonneg _ hx0
  have e3a : (v : ℚ) * (roundDouble w - w) ≤ 255 * (1 / 5 * (1 / 2 ^ 53)) :=
    le_trans (mul_le_mul_of_nonneg_left (by linarith) hv0)
      (mul_le_mul_of_nonneg_right hv1 (by positivity))
  have e3b : -(255 * (1 / 5 * (1 / 2 ^ 53))) ≤ (v : ℚ) * (roundDouble w - w) := by
    have h1 : (v : ℚ) * (w - roundDouble w) ≤ 255 * (1 / 5 * (1 / 2 ^ 53)) :=
      le_trans (mul_le_mul_of_nonneg_left (by linarith) hv0)
        (mul_le_mul_of_nonneg_right hv1 (by positivity))
    have h2 : (v : ℚ) * (roundDouble w - w) = -((v : ℚ) * (w - roundDouble w)) := by ring
    linarith
  have e3 : (v : ℚ) * (roundDouble w - w) = (v : ℚ) * roundDouble w - (v : ℚ) * w := by ring
  have hvw0 : 0 ≤ (v : ℚ) * w := mul_nonneg hv0 hw.1
  have hvw1 : (v : ℚ) * w ≤ 255 * (1 / 5) := mul_le_mul hv1 hw.2 hw.1 (by norm_num)
  -- the sum
  rw [abs_le] at herr
  have ht0 : 0 ≤ sD + roundDouble ((v : ℚ) * roundDouble w) := add_nonneg h0 hpd0
  have hu : (255 : ℚ) * (1 / 4) * (1 / 2 ^ 53) ≤ 1 := by norm_num
  have ht1 : sD + roundDouble ((v : ℚ) * roundDouble w) ≤ 1400 := by linarith
  have e4 := roundDouble_error (sD + roundDouble ((v : ℚ) * roundDouble w))
  rw [abs_of_nonneg ht0, abs_le] at e4
  have htu : (sD + roundDouble ((v : ℚ) * roundDouble w)) * (1 / 2 ^ 53)
      ≤ 1400 * (1 / 2 ^ 53) := mul_le_mul_of_nonneg_right ht1 (by positivity)
  have hc : (1400 : ℚ) * (1 / 2 ^ 53) + 255 * (1 / 4) * (1 / 2 ^ 53)
      + 255 * (1 / 5 * (1 / 2 ^ 53)) ≤ 1 / 2 ^ 41 := by norm_num
  refine ⟨roundDouble_nonneg _ ht0, ?_, by linarith, by linarith⟩
  rw [abs_le]
  constructor <;> linarith

/-- Up to 25 accumulations in binary64 against the exact sum. -/
theorem accumulate_error (ts : List (Nat × ℚ)) (sD sE : ℚ) (n : Nat)
    (hts : ∀ t ∈ ts, t.1 < 256 ∧ 0 ≤ t.2 ∧ t.2 ≤ 1 / 5) (hn : n + ts.length ≤ 25)
    (h0 : 0 ≤ sD) (hE : 0 ≤ sE ∧ sE ≤ 51 * (n : ℚ))
    (herr : |sD - sE| ≤ (n : ℚ) * (1 / 2 ^ 41)) :
    0 ≤ ts.foldl accumulateStep sD
      ∧ |ts.foldl accumulateStep sD - ts.foldl exactStep sE|
          ≤ ((n + ts.length : Nat) : ℚ) * (1 / 2 ^ 41) := by
  induction ts generalizing sD sE n with
  | nil => exact ⟨h0, by simpa using herr⟩
  | cons t ts ih =>
    have ht := hts t (List.mem_cons_self _ _)
    simp only [List.length_cons] at hn
    have hn25 : (n : ℚ) ≤ 25 := by
      have : n ≤ 25 := by omega
      exact_mod_cast this
    have hstep := accumulateStep_error sD sE ((n : ℚ) * (1 / 2 ^ 41)) t ht.1 ht.2 h0
      ⟨hE.1, by linarith⟩ (by
        have : (25 : ℚ) * (1 / 2 ^ 41) ≤ 1 := by norm_num
        have : (n : ℚ) * (1 / 2 ^ 41) ≤ 25 * (1 / 2 ^ 41) :=
          mul_le_mul_of_nonneg_right hn25 (by positivity)
        linarith) herr
    have key := ih (accumulateStep sD t) (exactStep sE t) (n + 1)
      (fun t' ht' => hts t' (List.mem_cons_of_mem _ ht')) (by omega) hstep.1
      ⟨hstep.2.2.1, by push_cast; linarith [hstep.2.2.2]⟩
      (by push_cast; linarith [hstep.2.1])
    simp only [List.foldl_cons, List.length_cons]
    have e : n + (ts.length + 1) = n + 1 + ts.length := by omega
    rw [e]
    exact key

/-- A value within `25 / 2^41` of a multiple `q` of `1/1000` has the floor of `q`, or
one less when `q` is an integer. -/
theorem floor_near_milli (d q : ℚ) (N : Int) (hq : q = (N : ℚ) / 1000)
    (h : |d - q| ≤ 25 * (1 / 2 ^ 41)) :
    (q ≠ (⌊q⌋ : ℚ) → ⌊d⌋ = ⌊q⌋)
      ∧ (q = (⌊q⌋ : ℚ) → ⌊d⌋ = ⌊q⌋ ∨ ⌊d⌋ = ⌊q⌋ - 1)
      ∧ ⌊d⌋ ≤ ⌊q⌋ := by
  rw [abs_le] at h
  have he : (25 : ℚ) * (1 / 2 ^ 41) < 1 / 2000 := by norm_num
  have f1 := Int.floor_le q
  have f2 := Int.lt_floor_add_one q
  -- the fractional part of `q` in thousandths is an integer
  have hr : ((N - 1000 * ⌊q⌋ : Int) : ℚ) = 1000 * (q - ⌊q⌋) := by
    push_cast; rw [hq]; ring
  have hr0 : 0 ≤ N - 1000 * ⌊q⌋ := by
    have : (0 : ℚ) ≤ ((N - 1000 * ⌊q⌋ : Int) : ℚ) := by rw [hr]; linarith
    exact_mod_cast this
  have hr1 : N - 1000 * ⌊q⌋ < 1000 := by
    have : ((N - 1000 * ⌊q⌋ : Int) : ℚ) < 1000 := by rw [hr]; linarith
    exact_mod_cast this
  by_cases hint : q = (⌊q⌋ : ℚ)
  · have hcase : ⌊d⌋ = ⌊q⌋ ∨ ⌊d⌋ = ⌊q⌋ - 1 := by
      by_cases hd : (⌊q⌋ : ℚ) ≤ d
      · left
        exact Int.floor_eq_iff.mpr ⟨hd, by linarith⟩
      · right
        exact Int.floor_eq_iff.mpr ⟨by push_cast; linarith, by push_cast; linarith⟩
    refine ⟨fun hne => absurd hint hne, fun _ => hcase, ?_⟩
    rcases hcase with e | e <;> omega
  · have hrne : N - 1000 * ⌊q⌋ ≠ 0 := by
      intro e
      apply hint
      have : ((N - 1000 * ⌊q⌋ : Int) : ℚ) = 0 := by rw [e]; simp
      rw [hr] at this
      linarith
    have hlo : (1 : ℚ) ≤ ((N - 1000 * ⌊q⌋ : Int) : ℚ) := by
      have : 1 ≤ N - 1000 * ⌊q⌋ := by omega
      exact_mod_cast this
    have hhi : ((N - 1000 * ⌊q⌋ : Int) : ℚ) ≤ 999 := by
      have : N - 1000 * ⌊q⌋ ≤ 999 := by omega
      exact_mod_cast this
    rw [hr] at hlo hhi
    have hfl : ⌊d⌋ = ⌊q⌋ := Int.floor_eq_iff.mpr ⟨by linarith, by linarith⟩
    exact ⟨fun _ => hfl, fun e => absurd e hint, le_of_eq hfl⟩

theorem channel_convStep (p : List Nat) (W x y j i c : Int) (sum : ℚ × ℚ × ℚ)
    (hc : c = 0 ∨ c = 1 ∨ c = 2) :
    channel c (convStep p W x y j i sum)
      = accumulateStep (channel c sum)
          (readAt p (((y + j) * W + (x + i)) * 3 + c), kernelAt (j + 2) (i + 2)) := by
  unfold convStep accumulateStep kernelDouble radius
  rcases hc with rfl | rfl | rfl
  · simp only [channel, if_true, add_zero]
  · simp only [channel, one_ne_zero, if_false, if_true]
  · have h20 : ¬ ((2 : Int) = 0) := by decide
    have h21 : ¬ ((2 : Int) = 1) := by decide
    simp only [channel, h20, h21, if_false]

/-- The loop over `i`, in one channel. -/
theorem channel_foldl_convStep (p : List Nat) (W x y j c : Int) (hc : c = 0 ∨ c = 1 ∨ c = 2)
    (l : List Int) (sum : ℚ × ℚ × ℚ) :
    channel c (l.foldl (fun s i => convStep p W x y j i s) sum)
      = (l.map (fun i => (readAt p (((y + j) * W + (x + i)) * 3 + c),
          kernelAt (j + 2) (i + 2)))).foldl accumulateStep (channel c sum) := by
  induction l generalizing sum with
  | nil => rfl
  | cons i l ih =>
    rw [List.foldl_cons, ih, channel_convStep p W x y j i c sum hc, List.map_cons,
      List.foldl_cons]

/-- The loops over `j` and `i`, in one channel. -/
theorem channel_foldl_foldl_convStep (p : List Nat) (W x y c : Int)
    (hc : c = 0 ∨ c = 1 ∨ c = 2) (l m : List Int) (sum : ℚ × ℚ × ℚ) :
    channel c (l.foldl (fun s j => m.foldl (fun s i => convStep p W x y j i s) s) sum)
      = (l.flatMap (fun j => m.map (fun i => (readAt p (((y + j) * W + (x + i)) * 3 + c),
          kernelAt (j + 2) (i + 2))))).foldl accumulateStep (channel c sum) := by
  induction l generalizing sum with
  | nil => rfl
  | cons j l ih =>
    rw [List.foldl_cons, ih, channel_foldl_convStep p W x y j c hc, List.flatMap_cons,
      List.foldl_append]

theorem kernelOrder_eq :
    kernelOrder = ([-2, -1, 0, 1, 2] : List Int).flatMap
      (fun j => ([-2, -1, 0, 1, 2] : List Int).map (fun i => (j, i))) := by
  decide

/-- The 25 terms the filter accumulates: the byte and the decimal constant. -/
theorem terms_eq (p : List Nat) (W x y c : Int) :
    (neighbourhood p W x y c).zip kernelWeights
      = ([-2, -1, 0, 1, 2] : List Int).flatMap (fun j => ([-2, -1, 0, 1, 2] : List Int).map
          (fun i => (readAt p (((y + j) * W + (x + i)) * 3 + c), kernelAt (j + 2) (i + 2)))) := by
  unfold neighbourhood kernelWeights
  rw [List.zip_map', kernelOrder_eq]
  rfl

/-- The loops over `j` and `i` accumulate, in each channel, the binary64 sum of the 25
terms in the order of `kernelOrder`. -/
theorem channel_convolve (p : List Nat) (W x y c : Int) (hc : c = 0 ∨ c = 1 ∨ c = 2) :
    channel c (convolve p W x y) = doubleSum p W x y c := by
  unfold convolve doubleSum
  rw [intRange_kernel, channel_foldl_foldl_convStep p W x y c hc, terms_eq]
  rcases hc with rfl | rfl | rfl <;> rfl

theorem readAt_lt_of_bytes (p : List Nat) (hb : ∀ b ∈ p, b < 256) (k : Int) :
    readAt p k < 256 := by
  unfold readAt
  split
  · rw [List.getD_eq_getElem?_getD]
    cases h : p[k.toNat]? with
    | none => simp
    | some v =>
      simp only [Option.getD_some]
      exact hb v (List.getElem?_mem h)
  · decide

theorem kernelAt_le (j i : Int) (hj : j ∈ Finset.Icc (-2 : Int) 2)
    (hi : i ∈ Finset.Icc (-2 : Int) 2) : kernelAt (j + 2) (i + 2) ≤ 1 / 5 := by
  rw [Icc_kernel] at hj hi
  simp only [Finset.mem_insert, Finset.mem_singleton] at hj hi
  rcases hj with rfl | rfl | rfl | rfl | rfl <;> rcases hi with rfl | rfl | rfl | rfl | rfl <;>
    norm_num [kernelAt, kernel, toNat_two, toNat_three, toNat_four]

/-- Every decimal constant of the kernel is a whole number of thousandths. -/
theorem kernelAt_milli (j i : Int) (hj : j ∈ Finset.Icc (-2 : Int) 2)
    (hi : i ∈ Finset.Icc (-2 : Int) 2) : ∃ m : Int, kernelAt (j + 2) (i + 2) = (m : ℚ) / 1000 := by
  rw [Icc_kernel] at hj hi
  simp only [Finset.mem_insert, Finset.mem_singleton] at hj hi
  rcases hj with rfl | rfl | rfl | rfl | rfl <;> rcases hi with rfl | rfl | rfl | rfl | rfl
  · exact ⟨3, by norm_num [kernelAt, kernel, toNat_two, toNat_three, toNat_four]⟩
  · exact ⟨13, by norm_num [kernelAt, kernel, toNat_two, toNat_three, toNat_four]⟩
  · exact ⟨22, by norm_num [kernelAt, kernel, toNat_two, toNat_three, toNat_four]⟩
  · exact ⟨13, by norm_num [kernelAt, kernel, toNat_two, toNat_three, toNat_four]⟩
  · exact ⟨3, by norm_num [kernelAt, kernel, toNat_two, toNat_three, toNat_four]⟩
  · exact ⟨13, by norm_num [kernelAt, kernel, toNat_two, toNat_three, toNat_four]⟩
  · exact ⟨59, by norm_num [kernelAt, kernel, toNat_two, toNat_three, toNat_four]⟩
  · exact ⟨97, by norm_num [kernelAt, kernel, toNat_two, toNat_three, toNat_four]⟩
  · exact ⟨59, by norm_num [kernelAt, kernel, toNat_two, toNat_three, toNat_four]⟩
  · exact ⟨13, by norm_num [kernelAt, kernel, toNat_two, toNat_three, toNat_four]⟩
  · exact ⟨22, by norm_num [kernelAt, kernel, toNat_two, toNat_three, toNat_four]⟩
  · exact ⟨97, by norm_num [kernelAt, kernel, toNat_two, toNat_three, toNat_four]⟩
  · exact ⟨159, by norm_num [kernelAt, kernel, toNat_two, toNat_three, toNat_four]⟩
  · exact ⟨97, by norm_num [kernelAt, kernel, toNat_two, toNat_three, toNat_four]⟩
  · exact ⟨22, by norm_num [kernelAt, kernel, toNat_two, toNat_three, toNat_four]⟩
  · exact ⟨13, by norm_num [kernelAt, kernel, toNat_two, toNat_three, toNat_four]⟩
  · exact ⟨59, by norm_num [kernelAt, kernel, toNat_two, toNat_three, toNat_four]⟩
  · exact ⟨97, by norm_num [kernelAt, kernel, toNat_two, toNat_three, toNat_four]⟩
  · exact ⟨59, by norm_num [kernelAt, kernel, toNat_two, toNat_three, toNat_four]⟩
  · exact ⟨13, by norm_num [kernelAt, kernel, toNat_two, toNat_three, toNat_four]⟩
  · exact ⟨3, by norm_num [kernelAt, kernel, toNat_two, toNat_three, toNat_four]⟩
  · exact ⟨13, by norm_num [kernelAt, kernel, toNat_two, toNat_three, toNat_four]⟩
  · exact ⟨22, by norm_num [kernelAt, kernel, toNat_two, toNat_three, toNat_four]⟩
  · exact ⟨13, by norm_num [kernelAt, kernel, toNat_two, toNat_three, toNat_four]⟩
  · exact ⟨3, by norm_num [kernelAt, kernel, toNat_two, toNat_three, toNat_four]⟩

theorem kernelOrder_range : ∀ ji ∈ kernelOrder,
    ji.1 ∈ Finset.Icc (-2 : Int) 2 ∧ ji.2 ∈ Finset.Icc (-2 : Int) 2 := by
  decide

/-- The terms the filter accumulates at a pixel of a buffer of bytes. -/
theorem terms_bounds (p : List Nat) (hb : ∀ b ∈ p, b < 256) (W x y c : Int) :
    ∀ t ∈ (neighbourhood p W x y c).zip kernelWeights,
      t.1 < 256 ∧ 0 ≤ t.2 ∧ t.2 ≤ 1 / 5 := by
  intro t ht
  obtain ⟨h1, h2⟩ := List.of_mem_zip ht
  unfold neighbourhood at h1
  unfold kernelWeights at h2
  rw [List.mem_map] at h1 h2
  obtain ⟨ji, _, e1⟩ := h1
  obtain ⟨ji', hji', e2⟩ := h2
  have hr := kernelOrder_range ji' hji'
  rw [← e1, ← e2]
  exact ⟨readAt_lt_of_bytes p hb _, kernelAt_nonneg _ _ hr.1 hr.2, kernelAt_le _ _ hr.1 hr.2⟩

theorem length_terms (p : List Nat) (W x y c : Int) :
    ((neighbourhood p W x y c).zip kernelWeights).length = 25 := by
  simp [neighbourhood, kernelWeights, kernelOrder]

/-- The exact accumulation of the terms is the weighted sum of the specification. -/
theorem exact_terms (p : List Nat) (W x y c : Int) :
    ((neighbourhood p W x y c).zip kernelWeights).foldl exactStep 0 = weightedSum p W x y c := by
  unfold neighbourhood kernelWeights kernelOrder weightedSum
  rw [Icc_kernel]
  simp only [List.foldl_cons, List.foldl_nil, List.map_cons, List.map_nil,
    List.zip_cons_cons, List.zip_nil_right, exactStep]
  simp
  ring

/-- The weighted sum of the specification is a whole number of thousandths. -/
theorem weightedSum_milli (p : List Nat) (W x y c : Int) :
    ∃ N : Int, weightedSum p W x y c = (N : ℚ) / 1000 := by
  unfold weightedSum
  have hadd : ∀ a b : ℚ, (∃ N : Int, a = (N : ℚ) / 1000) → (∃ N : Int, b = (N : ℚ) / 1000) →
      ∃ N : Int, a + b = (N : ℚ) / 1000 := by
    rintro a b ⟨n, rfl⟩ ⟨m, rfl⟩
    exact ⟨n + m, by push_cast; ring⟩
  refine Finset.sum_induction _ (fun q => ∃ N : Int, q = (N : ℚ) / 1000) hadd ⟨0, by simp⟩ ?_
  intro j hj
  refine Finset.sum_induction _ (fun q => ∃ N : Int, q = (N : ℚ) / 1000) hadd ⟨0, by simp⟩ ?_
  intro i hi
  obtain ⟨m, hm⟩ := kernelAt_milli j i hj hi
  exact ⟨m * (readAt p (((y + j) * W + (x + i)) * 3 + c) : Int), by rw [hm]; push_cast; ring⟩

theorem foldl_accumulateStep_nonneg (ts : List (Nat × ℚ)) (s : ℚ) (hs : 0 ≤ s)
    (hts : ∀ t ∈ ts, 0 ≤ t.2) : 0 ≤ ts.foldl accumulateStep s := by
  induction ts generalizing s with
  | nil => exact hs
  | cons t ts ih =>
    rw [List.foldl_cons]
    apply ih
    · unfold accumulateStep
      exact roundDouble_nonneg _ (add_nonneg hs (roundDouble_nonneg _
        (mul_nonneg (Nat.cast_nonneg _) (roundDouble_nonneg _
          (hts t (List.mem_cons_self _ _))))))
    · exact fun t' ht' => hts t' (List.mem_cons_of_mem _ ht')

theorem doubleSum_nonneg (p : List Nat) (W x y c : Int) : 0 ≤ doubleSum p W x y c := by
  unfold doubleSum
  apply foldl_accumulateStep_nonneg _ _ (le_refl 0)
  intro t ht
  obtain ⟨_, h2⟩ := List.of_mem_zip ht
  unfold kernelWeights at h2
  rw [List.mem_map] at h2
  obtain ⟨ji, hji, e⟩ := h2
  have hr := kernelOrder_range ji hji
  rw [← e]
  exact kernelAt_nonneg _ _ hr.1 hr.2

/-- On a buffer of bytes the binary64 sum is within `25 / 2^41` of the exact weighted
sum. -/
theorem doubleSum_near (p : List Nat) (hb : ∀ b ∈ p, b < 256) (W x y c : Int) :
    |doubleSum p W x y c - weightedSum p W x y c| ≤ 25 * (1 / 2 ^ 41) := by
  have h := accumulate_error ((neighbourhood p W x y c).zip kernelWeights) 0 0 0
    (terms_bounds p hb W x y c) (by rw [length_terms]) (le_refl 0)
    ⟨le_refl 0, by simp⟩ (by simp)
  rw [length_terms, exact_terms] at h
  have e : ((0 + 25 : Nat) : ℚ) = 25 := by norm_num
  rw [e] at h
  exact h.2

/-- The floor of the binary64 sum against the floor of the exact weighted sum `S`: the
same when `S` is not an integer, the same or one less when it is. -/
theorem floor_doubleSum (p : List Nat) (hb : ∀ b ∈ p, b < 256) (W x y c : Int) :
    (weightedSum p W x y c ≠ (⌊weightedSum p W x y c⌋ : ℚ) →
        ⌊doubleSum p W x y c⌋ = ⌊weightedSum p W x y c⌋)
      ∧ (weightedSum p W x y c = (⌊weightedSum p W x y c⌋ : ℚ) →
        ⌊doubleSum p W x y c⌋ = ⌊weightedSum p W x y c⌋
          ∨ ⌊doubleSum p W x y c⌋ = ⌊weightedSum p W x y c⌋ - 1)
      ∧ ⌊doubleSum p W x y c⌋ ≤ ⌊weightedSum p W x y c⌋
      ∧ 0 ≤ ⌊doubleSum p W x y c⌋ := by
  obtain ⟨N, hN⟩ := weightedSum_milli p W x y c
  have h := floor_near_milli _ _ N hN (doubleSum_near p hb W x y c)
  exact ⟨h.1, h.2.1, h.2.2, Int.floor_nonneg.mpr (doubleSum_nonneg p W x y c)⟩

/-- What the filtered buffer holds at an interior pixel: the floor of the binary64 sum,
modulo 256. -/
theorem readAt_gaussian_floor (p : List Nat) (W H x y c : Int)
    (hlen : 3 * W * H ≤ (p.length : Int))
    (hx : 2 ≤ x ∧ x < W - 2) (hy : 2 ≤ y ∧ y < H - 2) (hc : c = 0 ∨ c = 1 ∨ c = 2) :
    readAt (GaussianFilter p W H) (srcOffset W x y + c)
      = ⌊doubleSum p W x y c⌋.toNat % 256 := by
  rw [readAt_gaussian p W H x y c hlen hx hy hc, channel_convolve _ _ _ _ _ hc,
    toUChar_of_nonneg _ (doubleSum_nonneg p W x y c)]

theorem kernelWeights_eq :
    kernelWeights = [3 / 1000, 13 / 1000, 22 / 1000, 13 / 1000, 3 / 1000,
      13 / 1000, 59 / 1000, 97 / 1000, 59 / 1000, 13 / 1000,
      22 / 1000, 97 / 1000, 159 / 1000, 97 / 1000, 22 / 1000,
      13 / 1000, 59 / 1000, 97 / 1000, 59 / 1000, 13 / 1000,
      3 / 1000, 13 / 1000, 22 / 1000, 13 / 1000, 3 / 1000] := by
  unfold kernelWeights kernelOrder
  norm_num [kernelAt, kernel, toNat_two, toNat_three, toNat_four]

/-- A zero byte leaves a sum that is a binary64 value unchanged. -/
theorem accumulateStep_zero (s w : ℚ) (h : roundDouble s = s) :
    accumulateStep s ((0 : Nat), w) = s := by
  unfold accumulateStep
  simp only [Nat.cast_zero, zero_mul, roundDouble_zero, add_zero, h]

/-- One step of the accumulation over the zipped lists. -/
theorem foldl_zip_step (a : Nat) (l : List Nat) (w : ℚ) (ws : List ℚ) (s s2 : ℚ)
    (h : accumulateStep s (a, w) = s2) :
    ((a :: l).zip (w :: ws)).foldl accumulateStep s = (l.zip ws).foldl accumulateStep s2 := by
  rw [List.zip_cons_cons, List.foldl_cons, h]

/-- One step of the accumulation at a zero byte, the sum being a binary64 value. -/
theorem foldl_zip_zero (l : List Nat) (w : ℚ) (ws : List ℚ) (s : ℚ) (h : roundDouble s = s) :
    (((0 : Nat) :: l).zip (w :: ws)).foldl accumulateStep s
      = (l.zip ws).foldl accumulateStep s :=
  foldl_zip_step 0 l w ws s s (accumulateStep_zero s w h)

theorem foldl_zip_nil (s : ℚ) :
    (([] : List Nat).zip ([] : List ℚ)).foldl accumulateStep s = s := rfl

/-- The binary64 sum of `40 * 0.003 + 40 * 0.022`, exactly `1`, is `1 - 2^-53`. -/
theorem accumulate_40_40 :
    ([40, 0, 40, 0, 0, 0, 0, 0, 0, 0, 0, 0, 0, 0, 0, 0, 0, 0, 0, 0, 0, 0, 0, 0, 0].zip kernelWeights).foldl accumulateStep 0
      = 9007199254740991 / 2 ^ 53 := by
  have w3 : roundDouble (3 / 1000) = 6917529027641082 / 2 ^ 61 := by
    rw [roundDouble_eq _ 6917529027641082 61 (by norm_num) (by norm_num) (by norm_num [abs_lt])]
    norm_num
  have p1 : roundDouble (((40 : Nat) : ℚ) * (6917529027641082 / 2 ^ 61)) = 8646911284551352 / 2 ^ 56 := by
    rw [roundDouble_eq_tie _ 8646911284551352 56 (by norm_num) (by norm_num) (by norm_num) (by decide)]
    norm_num
  have a1 : roundDouble (0 + 8646911284551352 / 2 ^ 56) = 8646911284551352 / 2 ^ 56 := by
    rw [roundDouble_eq _ 8646911284551352 56 (by norm_num) (by norm_num) (by norm_num [abs_lt])]
    norm_num
  have s1 : accumulateStep (0) ((40 : Nat), (3 / 1000 : ℚ)) = 8646911284551352 / 2 ^ 56 := by
    show roundDouble (0 + roundDouble (((40 : Nat) : ℚ) * roundDouble (3 / 1000))) = 8646911284551352 / 2 ^ 56
    rw [w3, p1, a1]
  have f1 : roundDouble (8646911284551352 / 2 ^ 56) = 8646911284551352 / 2 ^ 56 := by
    rw [roundDouble_eq _ 8646911284551352 56 (by norm_num) (by norm_num) (by norm_num [abs_lt])]
    norm_num
  have w22 : roundDouble (22 / 1000) = 6341068275337658 / 2 ^ 58 := by
    rw [roundDouble_eq _ 6341068275337658 58 (by norm_num) (by norm_num) (by norm_num [abs_lt])]
    norm_num
  have p2 : roundDouble (((40 : Nat) : ℚ) * (6341068275337658 / 2 ^ 58)) = 7926335344172072 / 2 ^ 53 := by
    rw [roundDouble_eq_tie _ 7926335344172072 53 (by norm_num) (by norm_num) (by norm_num) (by decide)]
    norm_num
  have a2 : roundDouble (8646911284551352 / 2 ^ 56 + 7926335344172072 / 2 ^ 53) = 9007199254740991 / 2 ^ 53 := by
    rw [roundDouble_eq _ 9007199254740991 53 (by norm_num) (by norm_num) (by norm_num [abs_lt])]
    norm_num
  have s2 : accumulateStep (8646911284551352 / 2 ^ 56) ((40 : Nat), (22 / 1000 : ℚ)) = 9007199254740991 / 2 ^ 53 := by
    show roundDouble (8646911284551352 / 2 ^ 56 + roundDouble (((40 : Nat) : ℚ) * roundDouble (22 / 1000))) = 9007199254740991 / 2 ^ 53
    rw [w22, p2, a2]
  have f2 : roundDouble (9007199254740991 / 2 ^ 53) = 9007199254740991 / 2 ^ 53 := by
    rw [roundDouble_eq _ 9007199254740991 53 (by norm_num) (by norm_num) (by norm_num [abs_lt])]
    norm_num
  rw [kernelWeights_eq]
  rw [foldl_zip_step _ _ _ _ _ _ s1]
  repeat rw [foldl_zip_zero _ _ _ _ f1]
  rw [foldl_zip_step _ _ _ _ _ _ s2]
  repeat rw [foldl_zip_zero _ _ _ _ f2]
  exact foldl_zip_nil _

/-- The binary64 sum of `10 * 0.003 + 20 * 0.003 + 70 * 0.013`, exactly `1`, is `1 - 2^-53`. -/
theorem accumulate_10_20_70 :
    ([10, 0, 0, 0, 20, 0, 0, 0, 0, 70, 0, 0, 0, 0, 0, 0, 0, 0, 0, 0, 0, 0, 0, 0, 0].zip kernelWeights).foldl accumulateStep 0
      = 9007199254740991 / 2 ^ 53 := by
  have w3 : roundDouble (3 / 1000) = 6917529027641082 / 2 ^ 61 := by
    rw [roundDouble_eq _ 6917529027641082 61 (by norm_num) (by norm_num) (by norm_num [abs_lt])]
    norm_num
  have p1 : roundDouble (((10 : Nat) : ℚ) * (6917529027641082 / 2 ^ 61)) = 8646911284551352 / 2 ^ 58 := by
    rw [roundDouble_eq_tie _ 8646911284551352 58 (by norm_num) (by norm_num) (by norm_num) (by decide)]
    norm_num
  have a1 : roundDouble (0 + 8646911284551352 / 2 ^ 58) = 8646911284551352 / 2 ^ 58 := by
    rw [roundDouble_eq _ 8646911284551352 58 (by norm_num) (by norm_num) (by norm_num [abs_lt])]
    norm_num
  have s1 : accumulateStep (0) ((10 : Nat), (3 / 1000 : ℚ)) = 8646911284551352 / 2 ^ 58 := by
    show roundDouble (0 + roundDouble (((10 : Nat) : ℚ) * roundDouble (3 / 1000))) = 8646911284551352 / 2 ^ 58
    rw [w3, p1, a1]
  have f1 : roundDouble (8646911284551352 / 2 ^ 58) = 8646911284551352 / 2 ^ 58 := by
    rw [roundDouble_eq _ 8646911284551352 58 (by norm_num) (by norm_num) (by norm_num [abs_lt])]
    norm_num
  have p2 : roundDouble (((20 : Nat) : ℚ) * (6917529027641082 / 2 ^ 61)) = 8646911284551352 / 2 ^ 57 := by
    rw [roundDouble_eq_tie _ 8646911284551352 57 (by norm_num) (by norm_num) (by norm_num) (by decide)]
    norm_num
  have a2 : roundDouble (8646911284551352 / 2 ^ 58 + 8646911284551352 / 2 ^ 57) = 6485183463413514 / 2 ^ 56 := by
    rw [roundDouble_eq _ 6485183463413514 56 (by norm_num) (by norm_num) (by norm_num [abs_lt])]
    norm_num
  have s2 : accumulateStep (8646911284551352 / 2 ^ 58) ((20 : Nat), (3 / 1000 : ℚ)) = 6485183463413514 / 2 ^ 56 := by
    show roundDouble (8646911284551352 / 2 ^ 58 + roundDouble (((20 : Nat) : ℚ) * roundDouble (3 / 1000))) = 6485183463413514 / 2 ^ 56
    rw [w3, p2, a2]
  have f2 : roundDouble (6485183463413514 / 2 ^ 56) = 6485183463413514 / 2 ^ 56 := by
    rw [roundDouble_eq _ 6485183463413514 56 (by norm_num) (by norm_num) (by norm_num [abs_lt])]
    norm_num
  have w13 : roundDouble (13 / 1000) = 7493989779944505 / 2 ^ 59 := by
    rw [roundDouble_eq _ 7493989779944505 59 (by norm_num) (by norm_num) (by norm_num [abs_lt])]
    norm_num
  have p3 : roundDouble (((70 : Nat) : ℚ) * (7493989779944505 / 2 ^ 59)) = 8196551321814302 / 2 ^ 53 := by
    rw [roundDouble_eq _ 8196551321814302 53 (by norm_num) (by norm_num) (by norm_num [abs_lt])]
    norm_num
  have a3 : roundDouble (6485183463413514 / 2 ^ 56 + 8196551321814302 / 2 ^ 53) = 9007199254740991 / 2 ^ 53 := by
    rw [roundDouble_eq _ 9007199254740991 53 (by norm_num) (by norm_num) (by norm_num [abs_lt])]
    norm_num
  have s3 : accumulateStep (6485183463413514 / 2 ^ 56) ((70 : Nat), (13 / 1000 : ℚ)) = 9007199254740991 / 2 ^ 53 := by
    show roundDouble (6485183463413514 / 2 ^ 56 + roundDouble (((70 : Nat) : ℚ) * roundDouble (13 / 1000))) = 9007199254740991 / 2 ^ 53
    rw [w13, p3, a3]
  have f3 : roundDouble (9007199254740991 / 2 ^ 53) = 9007199254740991 / 2 ^ 53 := by
    rw [roundDouble_eq _ 9007199254740991 53 (by norm_num) (by norm_num) (by norm_num [abs_lt])]
    norm_num
  rw [kernelWeights_eq]
  rw [foldl_zip_step _ _ _ _ _ _ s1]
  repeat rw [foldl_zip_zero _ _ _ _ f1]
  rw [foldl_zip_step _ _ _ _ _ _ s2]
  repeat rw [foldl_zip_zero _ _ _ _ f2]
  rw [foldl_zip_step _ _ _ _ _ _ s3]
  repeat rw [foldl_zip_zero _ _ _ _ f3]
  exact foldl_zip_nil _

/-- The binary64 sum of `10 * 0.003 + 50 * 0.013 + 60 * 0.022`, exactly `2`, in this order. -/
theorem accumulate_10_50_60 :
    ([10, 50, 60, 0, 0, 0, 0, 0, 0, 0, 0, 0, 0, 0, 0, 0, 0, 0, 0, 0, 0, 0, 0, 0, 0].zip kernelWeights).foldl accumulateStep 0
      = 4503599627370496 / 2 ^ 51 := by
  have w3 : roundDouble (3 / 1000) = 6917529027641082 / 2 ^ 61 := by
    rw [roundDouble_eq _ 6917529027641082 61 (by norm_num) (by norm_num) (by norm_num [abs_lt])]
    norm_num
  have p1 : roundDouble (((10 : Nat) : ℚ) * (6917529027641082 / 2 ^ 61)) = 8646911284551352 / 2 ^ 58 := by
    rw [roundDouble_eq_tie _ 8646911284551352 58 (by norm_num) (by norm_num) (by norm_num) (by decide)]
    norm_num
  have a1 : roundDouble (0 + 8646911284551352 / 2 ^ 58) = 8646911284551352 / 2 ^ 58 := by
    rw [roundDouble_eq _ 8646911284551352 58 (by norm_num) (by norm_num) (by norm_num [abs_lt])]
    norm_num
  have s1 : accumulateStep (0) ((10 : Nat), (3 / 1000 : ℚ)) = 8646911284551352 / 2 ^ 58 := by
    show roundDouble (0 + roundDouble (((10 : Nat) : ℚ) * roundDouble (3 / 1000))) = 8646911284551352 / 2 ^ 58
    rw [w3, p1, a1]
  have f1 : roundDouble (8646911284551352 / 2 ^ 58) = 8646911284551352 / 2 ^ 58 := by
    rw [roundDouble_eq _ 8646911284551352 58 (by norm_num) (by norm_num) (by norm_num [abs_lt])]
    norm_num
  have w13 : roundDouble (13 / 1000) = 7493989779944505 / 2 ^ 59 := by
    rw [roundDouble_eq _ 7493989779944505 59 (by norm_num) (by norm_num) (by norm_num [abs_lt])]
    norm_num
  have p2 : roundDouble (((50 : Nat) : ℚ) * (7493989779944505 / 2 ^ 59)) = 5854679515581645 / 2 ^ 53 := by
    rw [roundDouble_eq _ 5854679515581645 53 (by norm_num) (by norm_num) (by norm_num [abs_lt])]
    norm_num
  have a2 : roundDouble (8646911284551352 / 2 ^ 58 + 5854679515581645 / 2 ^ 53) = 6124895493223875 / 2 ^ 53 := by
    rw [roundDouble_eq _ 6124895493223875 53 (by norm_num) (by norm_num) (by norm_num [abs_lt])]
    norm_num
  have s2 : accumulateStep (8646911284551352 / 2 ^ 58) ((50 : Nat), (13 / 1000 : ℚ)) = 6124895493223875 / 2 ^ 53 := by
    show roundDouble (8646911284551352 / 2 ^ 58 + roundDouble (((50 : Nat) : ℚ) * roundDouble (13 / 1000))) = 6124895493223875 / 2 ^ 53
    rw [w13, p2, a2]
  have f2 : roundDouble (6124895493223875 / 2 ^ 53) = 6124895493223875 / 2 ^ 53 := by
    rw [roundDouble_eq _ 6124895493223875 53 (by norm_num) (by norm_num) (by norm_num [abs_lt])]
    norm_num
  have w22 : roundDouble (22 / 1000) = 6341068275337658 / 2 ^ 58 := by
    rw [roundDouble_eq _ 6341068275337658 58 (by norm_num) (by norm_num) (by norm_num [abs_lt])]
    norm_num
  have p3 : roundDouble (((60 : Nat) : ℚ) * (6341068275337658 / 2 ^ 58)) = 5944751508129054 / 2 ^ 52 := by
    rw [roundDouble_eq _ 5944751508129054 52 (by norm_num) (by norm_num) (by norm_num [abs_lt])]
    norm_num
  have a3 : roundDouble (6124895493223875 / 2 ^ 53 + 5944751508129054 / 2 ^ 52) = 4503599627370496 / 2 ^ 51 := by
    rw [roundDouble_eq_tie _ 9007199254740992 52 (by norm_num) (by norm_num) (by norm_num) (by decide)]
    norm_num
  have s3 : accumulateStep (6124895493223875 / 2 ^ 53) ((60 : Nat), (22 / 1000 : ℚ)) = 4503599627370496 / 2 ^ 51 := by
    show roundDouble (6124895493223875 / 2 ^ 53 + roundDouble (((60 : Nat) : ℚ) * roundDouble (22 / 1000))) = 4503599627370496 / 2 ^ 51
    rw [w22, p3, a3]
  have f3 : roundDouble (4503599627370496 / 2 ^ 51) = 4503599627370496 / 2 ^ 51 := by
    rw [roundDouble_eq _ 4503599627370496 51 (by norm_num) (by norm_num) (by norm_num [abs_lt])]
    norm_num
  rw [kernelWeights_eq]
  rw [foldl_zip_step _ _ _ _ _ _ s1]
  rw [foldl_zip_step _ _ _ _ _ _ s2]
  rw [foldl_zip_step _ _ _ _ _ _ s3]
  repeat rw [foldl_zip_zero _ _ _ _ f3]
  exact foldl_zip_nil _

/-- The binary64 sum of `60 * 0.022 + 50 * 0.013 + 10 * 0.003`, exactly `2`, in this order. -/
theorem accumulate_60_50_10 :
    ([0, 0, 0, 0, 0, 0, 0, 0, 0, 0, 60, 0, 0, 0, 0, 50, 0, 0, 0, 0, 10, 0, 0, 0, 0].zip kernelWeights).foldl accumulateStep 0
      = 9007199254740991 / 2 ^ 52 := by
  have w22 : roundDouble (22 / 1000) = 6341068275337658 / 2 ^ 58 := by
    rw [roundDouble_eq _ 6341068275337658 58 (by norm_num) (by norm_num) (by norm_num [abs_lt])]
    norm_num
  have p1 : roundDouble (((60 : Nat) : ℚ) * (6341068275337658 / 2 ^ 58)) = 5944751508129054 / 2 ^ 52 := by
    rw [roundDouble_eq _ 5944751508129054 52 (by norm_num) (by norm_num) (by norm_num [abs_lt])]
    norm_num
  have a1 : roundDouble (0 + 5944751508129054 / 2 ^ 52) = 5944751508129054 / 2 ^ 52 := by
    rw [roundDouble_eq _ 5944751508129054 52 (by norm_num) (by norm_num) (by norm_num [abs_lt])]
    norm_num
  have s1 : accumulateStep (0) ((60 : Nat), (22 / 1000 : ℚ)) = 5944751508129054 / 2 ^ 52 := by
    show roundDouble (0 + roundDouble (((60 : Nat) : ℚ) * roundDouble (22 / 1000))) = 5944751508129054 / 2 ^ 52
    rw [w22, p1, a1]
  have f1 : roundDouble (5944751508129054 / 2 ^ 52) = 5944751508129054 / 2 ^ 52 := by
    rw [roundDouble_eq _ 5944751508129054 52 (by norm_num) (by norm_num) (by norm_num [abs_lt])]
    norm_num
  have w13 : roundDouble (13 / 1000) = 7493989779944505 / 2 ^ 59 := by
    rw [roundDouble_eq _ 7493989779944505 59 (by norm_num) (by norm_num) (by norm_num [abs_lt])]
    norm_num
  have p2 : roundDouble (((50 : Nat) : ℚ) * (7493989779944505 / 2 ^ 59)) = 5854679515581645 / 2 ^ 53 := by
    rw [roundDouble_eq _ 5854679515581645 53 (by norm_num) (by norm_num) (by norm_num [abs_lt])]
    norm_num
  have a2 : roundDouble (5944751508129054 / 2 ^ 52 + 5854679515581645 / 2 ^ 53) = 8872091265919876 / 2 ^ 52 := by
    rw [roundDouble_eq_tie _ 8872091265919876 52 (by norm_num) (by norm_num) (by norm_num) (by decide)]
    norm_num
  have s2 : accumulateStep (5944751508129054 / 2 ^ 52) ((50 : Nat), (13 / 1000 : ℚ)) = 8872091265919876 / 2 ^ 52 := by
    show roundDouble (5944751508129054 / 2 ^ 52 + roundDouble (((50 : Nat) : ℚ) * roundDouble (13 / 1000))) = 8872091265919876 / 2 ^ 52
    rw [w13, p2, a2]
  have f2 : roundDouble (8872091265919876 / 2 ^ 52) = 8872091265919876 / 2 ^ 52 := by
    rw [roundDouble_eq _ 8872091265919876 52 (by norm_num) (by norm_num) (by norm_num [abs_lt])]
    norm_num
  have w3 : roundDouble (3 / 1000) = 6917529027641082 / 2 ^ 61 := by
    rw [roundDouble_eq _ 6917529027641082 61 (by norm_num) (by norm_num) (by norm_num [abs_lt])]
    norm_num
  have p3 : roundDouble (((10 : Nat) : ℚ) * (6917529027641082 / 2 ^ 61)) = 8646911284551352 / 2 ^ 58 := by
    rw [roundDouble_eq_tie _ 8646911284551352 58 (by norm_num) (by norm_num) (by norm_num) (by decide)]
    norm_num
  have a3 : roundDouble (8872091265919876 / 2 ^ 52 + 8646911284551352 / 2 ^ 58) = 9007199254740991 / 2 ^ 52 := by
    rw [roundDouble_eq _ 9007199254740991 52 (by norm_num) (by norm_num) (by norm_num [abs_lt])]
    norm_num
  have s3 : accumulateStep (8872091265919876 / 2 ^ 52) ((10 : Nat), (3 / 1000 : ℚ)) = 9007199254740991 / 2 ^ 52 := by
    show roundDouble (8872091265919876 / 2 ^ 52 + roundDouble (((10 : Nat) : ℚ) * roundDouble (3 / 1000))) = 9007199254740991 / 2 ^ 52
    rw [w3, p3, a3]
  have f3 : roundDouble (9007199254740991 / 2 ^ 52) = 9007199254740991 / 2 ^ 52 := by
    rw [roundDouble_eq _ 9007199254740991 52 (by norm_num) (by norm_num) (by norm_num [abs_lt])]
    norm_num
  rw [kernelWeights_eq]
  repeat rw [foldl_zip_zero _ _ _ _ roundDouble_zero]
  rw [foldl_zip_step _ _ _ _ _ _ s1]
  repeat rw [foldl_zip_zero _ _ _ _ f1]
  rw [foldl_zip_step _ _ _ _ _ _ s2]
  repeat rw [foldl_zip_zero _ _ _ _ f2]
  rw [foldl_zip_step _ _ _ _ _ _ s3]
  repeat rw [foldl_zip_zero _ _ _ _ f3]
  exact foldl_zip_nil _

/-! ## Range of the exact weighted sum -/

theorem readAt_le_neighbourhoodMax (p : List Nat) (W x y c j i : Int)
    (hj : j ∈ Finset.Icc (-2 : Int) 2) (hi : i ∈ Finset.Icc (-2 : Int) 2) :
    readAt p (((y + j) * W + (x + i)) * 3 + c) ≤ neighbourhoodMax p W x y c := by
  unfold neighbourhoodMax
  exact le_trans
    (Finset.le_sup (f := fun i => readAt p (((y + j) * W + (x + i)) * 3 + c)) hi)
    (Finset.le_sup (f := fun j => (Finset.Icc (-2 : Int) 2).sup (fun i =>
      readAt p (((y + j) * W + (x + i)) * 3 + c))) hj)

theorem neighbourhoodMax_le (p : List Nat) (hb : ∀ b ∈ p, b < 256) (W x y c : Int) :
    neighbourhoodMax p W x y c ≤ 255 := by
  unfold neighbourhoodMax
  refine Finset.sup_le (fun j _ => Finset.sup_le (fun i _ => ?_))
  have := readAt_lt_of_bytes p hb (((y + j) * W + (x + i)) * 3 + c)
  omega

/-- The 25 weights add up to `0.987`. -/
theorem sum_kernelAt :
    ∑ j in Finset.Icc (-2 : Int) 2, ∑ i in Finset.Icc (-2 : Int) 2,
      kernelAt (j + 2) (i + 2) = 987 / 1000 := by
  rw [Icc_kernel]
  simp
  norm_num [kernelAt, kernel, toNat_two, toNat_three, toNat_four]

/-- The weighted sum is at most `0.987` times the largest byte of the neighbourhood. -/
theorem weightedSum_le (p : List Nat) (W x y c : Int) :
    weightedSum p W x y c ≤ 987 / 1000 * (neighbourhoodMax p W x y c : ℚ) := by
  have h : weightedSum p W x y c
      ≤ ∑ j in Finset.Icc (-2 : Int) 2, ∑ i in Finset.Icc (-2 : Int) 2,
          kernelAt (j + 2) (i + 2) * (neighbourhoodMax p W x y c : ℚ) := by
    unfold weightedSum
    refine Finset.sum_le_sum (fun j hj => Finset.sum_le_sum (fun i hi => ?_))
    exact mul_le_mul_of_nonneg_left
      (by exact_mod_cast readAt_le_neighbourhoodMax p W x y c j i hj hi)
      (kernelAt_nonneg j i hj hi)
  calc weightedSum p W x y c
      ≤ ∑ j in Finset.Icc (-2 : Int) 2, ∑ i in Finset.Icc (-2 : Int) 2,
          kernelAt (j + 2) (i + 2) * (neighbourhoodMax p W x y c : ℚ) := h
    _ = (∑ j in Finset.Icc (-2 : Int) 2, ∑ i in Finset.Icc (-2 : Int) 2,
          kernelAt (j + 2) (i + 2)) * (neighbourhoodMax p W x y c : ℚ) := by
        rw [Finset.sum_mul]
        exact Finset.sum_congr rfl (fun j _ => (Finset.sum_mul _ _ _).symm)
    _ = 987 / 1000 * (neighbourhoodMax p W x y c : ℚ) := by rw [sum_kernelAt]

/-- The floor of the exact weighted sum is at most the largest byte of the
neighbourhood. -/
theorem floor_weightedSum_le (p : List Nat) (W x y c : Int) :
    ⌊weightedSum p W x y c⌋ ≤ (neighbourhoodMax p W x y c : Int) := by
  have h1 := weightedSum_le p W x y c
  have hM0 : (0 : ℚ) ≤ (neighbourhoodMax p W x y c : ℚ) := Nat.cast_nonneg _
  have : ((⌊weightedSum p W x y c⌋ : Int) : ℚ) ≤ ((neighbourhoodMax p W x y c : Int) : ℚ) := by
    have := Int.floor_le (weightedSum p W x y c)
    push_cast
    linarith
  exact_mod_cast this

/-- A byte `r = D mod 256` with `0 ≤ D ≤ S ≤ M ≤ 255`. -/
theorem byte_of_floors (r : Nat) (D S : Int) (M : Nat) (hr : r = D.toNat % 256)
    (h0 : 0 ≤ D) (hle : D ≤ S) (hM : S ≤ (M : Int)) (hm : M ≤ 255) :
    r = D.toNat ∧ (D = S → r = S.toNat) ∧ (D = S ∨ D = S - 1 → r = S.toNat ∨ r + 1 = S.toNat)
      ∧ r ≤ M := by
  refine ⟨by omega, fun h => by omega, fun h => by omega, by omega⟩

/-- Two bytes that are each `s` or `s - 1` differ by at most one. -/
theorem bytes_near (a b s : Nat) (ha : a = s ∨ a + 1 = s) (hb : b = s ∨ b + 1 = s) :
    a = b ∨ a + 1 = b ∨ b + 1 = a := by
  omega

/-- On a buffer of bytes the floor of the exact weighted sum is a byte. -/
theorem floor_weightedSum_lt (p : List Nat) (hb : ∀ b ∈ p, b < 256) (W x y c : Int) :
    ⌊weightedSum p W x y c⌋.toNat < 256 := by
  have h1 := floor_weightedSum_le p W x y c
  have h2 := neighbourhoodMax_le p hb W x y c
  generalize ⌊weightedSum p W x y c⌋ = S at h1
  generalize neighbourhoodMax p W x y c = M at h1 h2
  omega

/-- The stored byte of an interior pixel of a buffer of bytes against the exact weighted
sum `S`: it is the floor of the binary64 sum, without reduction modulo 256; it is
`floor(S)` when `S` is not an integer, `S` or `S - 1` when it is; it is at most the
largest byte of the neighbourhood. -/
theorem readAt_gaussian_exact (p : List Nat) (W H x y c : Int)
    (hb : ∀ b ∈ p, b < 256) (hlen : 3 * W * H ≤ (p.length : Int))
    (hx : 2 ≤ x ∧ x < W - 2) (hy : 2 ≤ y ∧ y < H - 2) (hc : c = 0 ∨ c = 1 ∨ c = 2) :
    readAt (GaussianFilter p W H) (srcOffset W x y + c) = ⌊doubleSum p W x y c⌋.toNat
      ∧ (weightedSum p W x y c ≠ (⌊weightedSum p W x y c⌋ : ℚ) →
          readAt (GaussianFilter p W H) (srcOffset W x y + c)
            = ⌊weightedSum p W x y c⌋.toNat)
      ∧ (weightedSum p W x y c = (⌊weightedSum p W x y c⌋ : ℚ) →
          readAt (GaussianFilter p W H) (srcOffset W x y + c)
              = ⌊weightedSum p W x y c⌋.toNat
            ∨ readAt (GaussianFilter p W H) (srcOffset W x y + c) + 1
              = ⌊weightedSum p W x y c⌋.toNat)
      ∧ readAt (GaussianFilter p W H) (srcOffset W x y + c) ≤ neighbourhoodMax p W x y c := by
  have hf := floor_doubleSum p hb W x y c
  have hr := readAt_gaussian_floor p W H x y c hlen hx hy hc
  have ha := byte_of_floors _ _ _ _ hr hf.2.2.2 hf.2.2.1 (floor_weightedSum_le p W x y c)
    (neighbourhoodMax_le p hb W x y c)
  exact ⟨ha.1, fun h => ha.2.1 (hf.1 h), fun h => ha.2.2.1 (hf.2.1 h), ha.2.2.2⟩

/-- Where the exact weighted sum is `0` the filtered byte is `0`. -/
theorem readAt_gaussian_zero (p : List Nat) (W H x y c : Int)
    (hb : ∀ b ∈ p, b < 256) (hlen : 3 * W * H ≤ (p.length : Int))
    (hx : 2 ≤ x ∧ x < W - 2) (hy : 2 ≤ y ∧ y < H - 2) (hc : c = 0 ∨ c = 1 ∨ c = 2)
    (hw : weightedSum p W x y c = 0) :
    readAt (GaussianFilter p W H) (srcOffset W x y + c) = 0 := by
  have hf := floor_doubleSum p hb W x y c
  have h1 := hf.2.2.1
  rw [hw, Int.floor_zero] at h1
  rw [(readAt_gaussian_exact p W H x y c hb hlen hx hy hc).1, le_antisymm h1 hf.2.2.2]
  rfl

/-- The filtered value of an interior pixel of the uniform image of bytes `128`. -/
theorem readAt_gaussian_gray (n : Nat) (W H x y c : Int)
    (hlen : 3 * W * H ≤ (n : Int))
    (hx : 2 ≤ x ∧ x < W - 2) (hy : 2 ≤ y ∧ y < H - 2) (hc : c = 0 ∨ c = 1 ∨ c = 2) :
    readAt (GaussianFilter (List.replicate n 128) W H) (srcOffset W x y + c) = 126 := by
  have hb : ∀ b ∈ List.replicate n 128, b < 256 := fun b hb => by
    rw [(List.mem_replicate.mp hb).2]; decide
  have hS := weightedSum_uniform n 128 W H x y c hlen hx hy hc
  have hf : ⌊weightedSum (List.replicate n 128) W x y c⌋ = 126 := by
    rw [hS, kernelSum_eq, Int.floor_eq_iff]
    norm_num
  have hne : weightedSum (List.replicate n 128) W x y c
      ≠ (⌊weightedSum (List.replicate n 128) W x y c⌋ : ℚ) := by
    rw [hf, hS, kernelSum_eq]
    norm_num
  have h := (readAt_gaussian_exact _ W H x y c hb
    (by rw [List.length_replicate]; exact hlen) hx hy hc).2.1 hne
  rw [h, hf]
  rfl

theorem floor_gray : ⌊((128 : Nat) : ℚ) * kernelSum⌋ = 126 := by
  rw [kernelSum_eq, Int.floor_eq_iff]
  norm_num

/-! ## Blur and rotation: the exact sums -/

/-- The kernel is unchanged by a quarter turn: summing `F` over the neighbourhood turned
by 90 degrees is summing it over the neighbourhood. -/
theorem kernel_sum_rotate (F : Int → Int → ℚ) :
    ∑ j in Finset.Icc (-2 : Int) 2, ∑ i in Finset.Icc (-2 : Int) 2,
        kernelAt (j + 2) (i + 2) * F (-j) i
      = ∑ j in Finset.Icc (-2 : Int) 2, ∑ i in Finset.Icc (-2 : Int) 2,
        kernelAt (j + 2) (i + 2) * F i j := by
  rw [Icc_kernel]
  simp
  norm_num [kernelAt, kernel, toNat_two, toNat_three, toNat_four]
  ring

/-- The weighted sum at a pixel of the rotated image is the weighted sum at the pixel it
comes from. -/
theorem weightedSum_rotate (p : List Nat) (W H x y c : Int)
    (hlen : 3 * W * H ≤ (p.length : Int))
    (hx : 2 ≤ x ∧ x < W - 2) (hy : 2 ≤ y ∧ y < H - 2) (hc : c = 0 ∨ c = 1 ∨ c = 2) :
    weightedSum (rotateImage90Degrees p W H) H y (W - 1 - x) c = weightedSum p W x y c := by
  have hl : weightedSum (rotateImage90Degrees p W H) H y (W - 1 - x) c
      = ∑ j in Finset.Icc (-2 : Int) 2, ∑ i in Finset.Icc (-2 : Int) 2,
          kernelAt (j + 2) (i + 2)
            * (fun a b : Int => (readAt p (srcOffset W (x + a) (y + b) + c) : ℚ)) (-j) i := by
    unfold weightedSum
    refine Finset.sum_congr rfl (fun j hj => Finset.sum_congr rfl (fun i hi => ?_))
    rw [Finset.mem_Icc] at hj hi
    have h := readAt_rotate_src p W H (x + -j) (y + i) c hlen (by omega) (by omega) hc
    have e : ((W - 1 - x + j) * H + (y + i)) * 3 + c
        = srcOffset H (y + i) (W - 1 - (x + -j)) + c := by
      unfold srcOffset; ring
    rw [e, h]
  have hr : weightedSum p W x y c
      = ∑ j in Finset.Icc (-2 : Int) 2, ∑ i in Finset.Icc (-2 : Int) 2,
          kernelAt (j + 2) (i + 2)
            * (fun a b : Int => (readAt p (srcOffset W (x + a) (y + b) + c) : ℚ)) i j := rfl
  exact hl.trans ((kernel_sum_rotate
    (fun a b : Int => (readAt p (srcOffset W (x + a) (y + b) + c) : ℚ))).trans hr.symm)

/-- Every offset below `3 * width * height` is the destination of a channel of a pixel. -/
theorem exists_destOffset (W H k : Int) (hk : 0 ≤ k ∧ k < 3 * W * H) (hH : 0 ≤ H) :
    ∃ x y c : Int, (0 ≤ x ∧ x < W) ∧ (0 ≤ y ∧ y < H) ∧ (c = 0 ∨ c = 1 ∨ c = 2) ∧
      k = destOffset W H x y + c := by
  have e : 3 * H * W = 3 * W * H := by ring
  obtain ⟨a, b, c, ha, hb, hc, hk'⟩ := exists_srcOffset H W k ⟨hk.1, by omega⟩ hH
  refine ⟨W - 1 - b, a, c, by omega, ha, hc, ?_⟩
  rw [hk', destOffset_eq_srcOffset]
  have : W - 1 - (W - 1 - b) = b := by ring
  rw [this]

/-- Rotating a buffer of bytes gives a buffer of bytes. -/
theorem rotate_bytes (p : List Nat) (hb : ∀ b ∈ p, b < 256) (W H : Int) (hH : 0 ≤ H)
    (hlen : 3 * W * H ≤ (p.length : Int)) :
    ∀ b ∈ rotateImage90Degrees p W H, b < 256 := by
  intro b hm
  obtain ⟨n, hn⟩ := List.mem_iff_getElem?.mp hm
  have hlt : n < (rotateImage90Degrees p W H).length := by
    by_contra h
    rw [List.getElem?_eq_none (by omega)] at hn
    cases hn
  rw [getElem?_eq_readAt _ n hlt] at hn
  injection hn with hn
  rw [← hn]
  by_cases hk : (n : Int) < 3 * W * H
  · obtain ⟨x, y, c, hx, hy, hc, e⟩ := exists_destOffset W H n ⟨by omega, hk⟩ hH
    rw [e, readAt_rotate p W H x y c hlen hx hy hc]
    exact readAt_lt_of_bytes p hb _
  · rw [readAt_rotate_outside p W H n (by omega)]
    decide

/-- Blur then rotation against rotation then blur at the destination of an interior
pixel `(x, y)` of a buffer of bytes: the two bytes differ by at most one, and are equal
when the exact weighted sum is not an integer. -/
theorem readAt_blur_rotate_near (p : List Nat) (W H x y c : Int)
    (hb : ∀ b ∈ p, b < 256) (hH : 0 ≤ H) (hlen : 3 * W * H ≤ (p.length : Int))
    (hx : 2 ≤ x ∧ x < W - 2) (hy : 2 ≤ y ∧ y < H - 2) (hc : c = 0 ∨ c = 1 ∨ c = 2) :
    (readAt (GaussianFilter (rotateImage90Degrees p W H) H W) (destOffset W H x y + c)
          = readAt (rotateImage90Degrees (GaussianFilter p W H) W H) (destOffset W H x y + c)
        ∨ readAt (GaussianFilter (rotateImage90Degrees p W H) H W) (destOffset W H x y + c) + 1
          = readAt (rotateImage90Degrees (GaussianFilter p W H) W H) (destOffset W H x y + c)
        ∨ readAt (rotateImage90Degrees (GaussianFilter p W H) W H) (destOffset W H x y + c) + 1
          = readAt (GaussianFilter (rotateImage90Degrees p W H) H W)
              (destOffset W H x y + c))
      ∧ (weightedSum p W x y c ≠ (⌊weightedSum p W x y c⌋ : ℚ) →
          readAt (GaussianFilter (rotateImage90Degrees p W H) H W) (destOffset W H x y + c)
            = readAt (rotateImage90Degrees (GaussianFilter p W H) W H)
                (destOffset W H x y + c)) := by
  have e : 3 * H * W = 3 * W * H := by ring
  have lq : 3 * H * W ≤ ((rotateImage90Degrees p W H).length : Int) := by
    rw [length_rotateImage90Degrees]; omega
  have lg : 3 * W * H ≤ ((GaussianFilter p W H).length : Int) := by
    rw [length_GaussianFilter]; exact hlen
  have hq := readAt_gaussian_exact (rotateImage90Degrees p W H) H W y (W - 1 - x) c
    (rotate_bytes p hb W H hH hlen) lq hy (by omega) hc
  have hp := readAt_gaussian_exact p W H x y c hb hlen hx hy hc
  rw [weightedSum_rotate p W H x y c hlen hx hy hc] at hq
  rw [readAt_rotate (GaussianFilter p W H) W H x y c lg (by omega) (by omega) hc,
    destOffset_eq_srcOffset]
  by_cases hS : weightedSum p W x y c = (⌊weightedSum p W x y c⌋ : ℚ)
  · exact ⟨bytes_near _ _ _ (hq.2.2.1 hS) (hp.2.2.1 hS), fun h => absurd hS h⟩
  · have h1 := hq.2.1 hS
    have h2 := hp.2.1 hS
    exact ⟨Or.inl (h1.trans h2.symm), fun _ => h1.trans h2.symm⟩

/-! ## Images on which binary64 rounding shows -/

theorem neighbourhood_image40 :
    neighbourhood image40 5 2 2 0
      = [40, 0, 40, 0, 0, 0, 0, 0, 0, 0, 0, 0, 0, 0, 0, 0, 0, 0, 0, 0, 0, 0, 0, 0, 0] := by
  decide

theorem neighbourhood_image102070 :
    neighbourhood image102070 5 2 2 0
      = [10, 0, 0, 0, 20, 0, 0, 0, 0, 70, 0, 0, 0, 0, 0, 0, 0, 0, 0, 0, 0, 0, 0, 0, 0] := by
  decide

theorem neighbourhood_image105060 :
    neighbourhood image105060 5 2 2 0
      = [10, 50, 60, 0, 0, 0, 0, 0, 0, 0, 0, 0, 0, 0, 0, 0, 0, 0, 0, 0, 0, 0, 0, 0, 0] := by
  decide

set_option maxRecDepth 100000 in
theorem neighbourhood_rotate_image105060 :
    neighbourhood (rotateImage90Degrees image105060 5 5) 5 2 2 0
      = [0, 0, 0, 0, 0, 0, 0, 0, 0, 0, 60, 0, 0, 0, 0, 50, 0, 0, 0, 0, 10, 0, 0, 0, 0] := by
  decide

theorem image40_bytes : ∀ b ∈ image40, b < 256 := by decide

theorem image102070_bytes : ∀ b ∈ image102070, b < 256 := by decide

theorem image105060_bytes : ∀ b ∈ image105060, b < 256 := by decide

/-- The exact accumulation of a list of terms, evaluated. -/
theorem weightedSum_image40 : weightedSum image40 5 2 2 0 = 1 := by
  rw [← exact_terms, neighbourhood_image40, kernelWeights_eq]
  simp only [List.zip_cons_cons, List.zip_nil_right, List.foldl_cons, List.foldl_nil, exactStep]
  norm_num

theorem weightedSum_image102070 : weightedSum image102070 5 2 2 0 = 1 := by
  rw [← exact_terms, neighbourhood_image102070, kernelWeights_eq]
  simp only [List.zip_cons_cons, List.zip_nil_right, List.foldl_cons, List.foldl_nil, exactStep]
  norm_num

theorem weightedSum_image105060 : weightedSum image105060 5 2 2 0 = 2 := by
  rw [← exact_terms, neighbourhood_image105060, kernelWeights_eq]
  simp only [List.zip_cons_cons, List.zip_nil_right, List.foldl_cons, List.foldl_nil, exactStep]
  norm_num

theorem doubleSum_image40 : doubleSum image40 5 2 2 0 = 9007199254740991 / 2 ^ 53 := by
  unfold doubleSum
  rw [neighbourhood_image40]
  exact accumulate_40_40

theorem doubleSum_image102070 :
    doubleSum image102070 5 2 2 0 = 9007199254740991 / 2 ^ 53 := by
  unfold doubleSum
  rw [neighbourhood_image102070]
  exact accumulate_10_20_70

theorem doubleSum_image105060 : doubleSum image105060 5 2 2 0 = 4503599627370496 / 2 ^ 51 := by
  unfold doubleSum
  rw [neighbourhood_image105060]
  exact accumulate_10_50_60

theorem doubleSum_rotate_image105060 :
    doubleSum (rotateImage90Degrees image105060 5 5) 5 2 2 0
      = 9007199254740991 / 2 ^ 52 := by
  unfold doubleSum
  rw [neighbourhood_rotate_image105060]
  exact accumulate_60_50_10

/-! ## Blur: the claims -/

/-- C5, as stated, fails: in the 5x5 image `image40`, black except for channel 0 of pixels
`(0, 0)` and `(2, 0)`, which is `40`, the exact sum at pixel `(2, 2)`, channel 0, is
`S = 40 * 0.003 + 40 * 0.022 = 1`, so `trunc(S) mod 256 = 1`; the sum the filter
accumulates in binary64 is `1 - 2^-53`, and the stored byte is `0`. -/
theorem interior_exact_sum_as_stated_fails :
    (∀ b ∈ image40, b < 256)
      ∧ 3 * 5 * 5 ≤ (image40.length : Int)
      ∧ weightedSum image40 5 2 2 0 = 1
      ∧ ⌊weightedSum image40 5 2 2 0⌋.toNat % 256 = 1
      ∧ channel 0 (convolve image40 5 2 2) = 9007199254740991 / 2 ^ 53
      ∧ readAt (GaussianFilter image40 5 5) ((2 * 5 + 2) * 3 + 0) = 0
      ∧ readAt (GaussianFilter image40 5 5) ((2 * 5 + 2) * 3 + 0)
          ≠ ⌊weightedSum image40 5 2 2 0⌋.toNat % 256 := by
  have hf : ⌊(9007199254740991 / 2 ^ 53 : ℚ)⌋ = 0 := by
    rw [Int.floor_eq_iff]
    norm_num
  have hr : readAt (GaussianFilter image40 5 5) ((2 * 5 + 2) * 3 + 0) = 0 := by
    have h := readAt_gaussian_floor image40 5 5 2 2 0 (by decide) (by decide) (by decide)
      (by decide)
    rw [doubleSum_image40, hf] at h
    exact h
  have hs : ⌊weightedSum image40 5 2 2 0⌋.toNat % 256 = 1 := by
    rw [weightedSum_image40, Int.floor_one]
    rfl
  refine ⟨image40_bytes, by decide, weightedSum_image40, hs, ?_, hr, ?_⟩
  · rw [channel_convolve _ _ _ _ _ (Or.inl rfl), doubleSum_image40]
  · rw [hr, hs]
    decide

/-- C5, amended: for a buffer `p` of bytes of length at least `3*W*H`, an interior pixel
`2 ≤ x < W-2`, `2 ≤ y < H-2` and a channel `c`, the output `f` of `GaussianFilter p W H`
satisfies `f[(y*W + x)*3 + c] = trunc(D) mod 256`, where `D ≥ 0` is the sum of the 25
products `p[((y+j)*W + (x+i))*3 + c] * kernel[j+2][i+2]` accumulated in binary64 in loop
order (each weight, each product and each addition rounded to nearest). `D` is within
`25 / 2^41` of the exact sum `S` of the products with exact weights. The byte is
`trunc(S) mod 256` when `S` is not an integer, and `S` or `S - 1` when it is. Every term
is read from `p`, inside `p`. -/
theorem gaussian_interior_computation (p : List Nat) (W H x y c : Int)
    (hbytes : ∀ b ∈ p, b < 256) (hlen : 3 * W * H ≤ (p.length : Int))
    (hx : 2 ≤ x ∧ x < W - 2) (hy : 2 ≤ y ∧ y < H - 2) (hc : c = 0 ∨ c = 1 ∨ c = 2) :
    readAt (GaussianFilter p W H) ((y * W + x) * 3 + c)
        = ⌊channel c (convolve p W x y)⌋.toNat % 256
      ∧ channel c (convolve p W x y)
          = ((neighbourhood p W x y c).zip kernelWeights).foldl accumulateStep 0
      ∧ 0 ≤ channel c (convolve p W x y)
      ∧ |channel c (convolve p W x y) - weightedSum p W x y c| ≤ 25 * (1 / 2 ^ 41)
      ∧ weightedSum p W x y c
          = ∑ j in Finset.Icc (-2 : Int) 2, ∑ i in Finset.Icc (-2 : Int) 2,
              kernelAt (j + 2) (i + 2) * (readAt p (((y + j) * W + (x + i)) * 3 + c) : ℚ)
      ∧ (weightedSum p W x y c ≠ (⌊weightedSum p W x y c⌋ : ℚ) →
          readAt (GaussianFilter p W H) ((y * W + x) * 3 + c)
            = ⌊weightedSum p W x y c⌋.toNat % 256)
      ∧ (weightedSum p W x y c = (⌊weightedSum p W x y c⌋ : ℚ) →
          readAt (GaussianFilter p W H) ((y * W + x) * 3 + c)
              = ⌊weightedSum p W x y c⌋.toNat % 256
            ∨ readAt (GaussianFilter p W H) ((y * W + x) * 3 + c) + 1
              = ⌊weightedSum p W x y c⌋.toNat % 256)
      ∧ (∀ j i : Int, -2 ≤ j ∧ j ≤ 2 → -2 ≤ i ∧ i ≤ 2 →
          0 ≤ ((y + j) * W + (x + i)) * 3 + c
            ∧ ((y + j) * W + (x + i)) * 3 + c < (p.length : Int)) := by
  have e : (y * W + x) * 3 + c = srcOffset W x y + c := rfl
  have hD := channel_convolve p W x y c hc
  have h := readAt_gaussian_exact p W H x y c hbytes hlen hx hy hc
  rw [e, hD, Nat.mod_eq_of_lt (floor_weightedSum_lt p hbytes W x y c)]
  refine ⟨readAt_gaussian_floor p W H x y c hlen hx hy hc, rfl, doubleSum_nonneg p W x y c,
    doubleSum_near p hbytes W x y c, rfl, fun hS => ?_, fun hS => ?_, fun j i hj hi => ?_⟩
  · exact h.2.1 hS
  · exact h.2.2.1 hS
  · have hb := neighbour_bounds (c := c) hx hy hc hj hi
    exact ⟨hb.1, by omega⟩

/-- C5 (amended) at the 6x6 image of bytes `0, ..., 107`, pixel `(3, 2)`, channel `1`. -/
theorem gaussian_interior_computation_witness :
    (readAt (GaussianFilter (List.range 108) 6 6) ((2 * 6 + 3) * 3 + 1)
        = ⌊channel 1 (convolve (List.range 108) 6 3 2)⌋.toNat % 256)
      ∧ |channel 1 (convolve (List.range 108) 6 3 2) - weightedSum (List.range 108) 6 3 2 1|
          ≤ 25 * (1 / 2 ^ 41) :=
  ⟨(gaussian_interior_computation (List.range 108) 6 6 3 2 1
      (fun b hb => by have := List.mem_range.mp hb; omega)
      (by decide) (by decide) (by decide) (by decide)).1,
   (gaussian_interior_computation (List.range 108) 6 6 3 2 1
      (fun b hb => by have := List.mem_range.mp hb; omega)
      (by decide) (by decide) (by decide) (by decide)).2.2.2.1⟩

/-- C6. Blur border is zero: for `W, H ≥ 0`, a buffer of length at least `3*W*H` and a
pixel `(x, y)` of the grid with `x < 2` or `x ≥ W-2` or `y < 2` or `y ≥ H-2`, the three
channel bytes of that pixel in the output of `GaussianFilter` are `0`, whatever the
source holds there. -/
theorem gaussian_border_zero (p : List Nat) (W H x y c : Int)
    (_hW : 0 ≤ W) (_hH : 0 ≤ H) (hlen : 3 * W * H ≤ (p.length : Int))
    (hx : 0 ≤ x ∧ x < W) (hy : 0 ≤ y ∧ y < H)
    (hb : x < 2 ∨ x ≥ W - 2 ∨ y < 2 ∨ y ≥ H - 2) (hc : c = 0 ∨ c = 1 ∨ c = 2) :
    readAt (GaussianFilter p W H) ((y * W + x) * 3 + c) = 0
      ∧ (0 ≤ (y * W + x) * 3 + c
          ∧ (y * W + x) * 3 + c < ((GaussianFilter p W H).length : Int)) := by
  have hs := srcOffset_bounds (W := W) (H := H) hx hy hc
  unfold srcOffset at hs
  rw [length_GaussianFilter]
  exact ⟨readAt_gaussian_border p W H x y c hx hc hb, hs.1, by omega⟩

/-- C6 at the 10x10 image whose bytes are all `255`, border pixel `(8, 5)`, channel `1`:
the source byte is `255`, the output byte is `0`. -/
theorem gaussian_border_zero_witness :
    (readAt (GaussianFilter (List.replicate 300 255) 10 10) ((5 * 10 + 8) * 3 + 1) = 0
      ∧ ((0 : Int) ≤ (5 * 10 + 8) * 3 + 1
          ∧ (5 * 10 + 8) * 3 + 1
              < ((GaussianFilter (List.replicate 300 255) 10 10).length : Int)))
      ∧ readAt (List.replicate 300 255) ((5 * 10 + 8) * 3 + 1) = 255 :=
  ⟨gaussian_border_zero (List.replicate 300 255) 10 10 8 5 1 (by decide) (by decide)
    (by rw [List.length_replicate]; decide) (by decide) (by decide) (by decide) (by decide),
   readAt_replicate 300 255 _ (by decide)⟩

/-- C7. Blur of an image smaller than the kernel is all zero: when `W < 5` or `H < 5`,
`GaussianFilter p W H` has the length of `p` and every byte of it is `0`, for every
buffer `p`. -/
theorem gaussian_small_image_zero (p : List Nat) (W H : Int) (h : W < 5 ∨ H < 5) :
    (GaussianFilter p W H).length = p.length
      ∧ (∀ b ∈ GaussianFilter p W H, b = 0)
      ∧ GaussianFilter p W H = List.replicate p.length 0 := by
  have e : GaussianFilter p W H = List.replicate p.length 0 := by
    rw [GaussianFilter_eq, gaussianAllWrites_small p W H h]
    rfl
  refine ⟨length_GaussianFilter p W H, ?_, e⟩
  intro b hb
  rw [e] at hb
  exact (List.mem_replicate.mp hb).2

/-- C7 at the 4x4 all-red image (pixel bytes `255, 0, 0`, 48 bytes) after rotation. -/
theorem gaussian_small_image_zero_witness :
    (GaussianFilter (rotateImage90Degrees
        ((List.replicate 16 [255, 0, 0]).flatten) 4 4) 4 4).length
        = (rotateImage90Degrees ((List.replicate 16 [255, 0, 0]).flatten) 4 4).length
      ∧ (∀ b ∈ GaussianFilter (rotateImage90Degrees
            ((List.replicate 16 [255, 0, 0]).flatten) 4 4) 4 4, b = 0)
      ∧ GaussianFilter (rotateImage90Degrees
            ((List.replicate 16 [255, 0, 0]).flatten) 4 4) 4 4
          = List.replicate
              (rotateImage90Degrees ((List.replicate 16 [255, 0, 0]).flatten) 4 4).length 0 :=
  gaussian_small_image_zero _ 4 4 (by decide)

/-- C8, as stated, fails: in the 5x5 image whose bytes are all `128`, the interior pixel
`(2, 2)` has output channel `126 = floor(128 * kernel_sum)`, which is not one of `127`,
`128`, `129`. -/
theorem uniform_gray_as_stated_fails :
    readAt (GaussianFilter (List.replicate 75 128) 5 5) ((2 * 5 + 2) * 3 + 0) = 126
      ∧ ⌊(128 : ℚ) * kernelSum⌋ = 126
      ∧ ¬ (readAt (GaussianFilter (List.replicate 75 128) 5 5) ((2 * 5 + 2) * 3 + 0) = 127
          ∨ readAt (GaussianFilter (List.replicate 75 128) 5 5) ((2 * 5 + 2) * 3 + 0) = 128
          ∨ readAt (GaussianFilter (List.replicate 75 128) 5 5) ((2 * 5 + 2) * 3 + 0)
              = 129) := by
  have h : readAt (GaussianFilter (List.replicate 75 128) 5 5) ((2 * 5 + 2) * 3 + 0)
      = 126 :=
    readAt_gaussian_gray 75 5 5 2 2 0 (by decide) (by decide) (by decide) (by decide)
  have hf : ⌊(128 : ℚ) * kernelSum⌋ = 126 := by
    have := floor_gray
    push_cast at this
    exact this
  refine ⟨h, hf, ?_⟩
  rw [h]
  decide

/-- C8, amended: for `W, H ≥ 5` and the buffer of length `3*W*H` whose bytes are all
`128`, every interior pixel of the output of `GaussianFilter` has each channel equal to
`floor(128 * kernel_sum)`, where `kernel_sum = 0.987` is the sum of the 25 weights; this
value is `126`. -/
theorem gaussian_uniform_gray (W H x y c : Int) (_hW : 5 ≤ W) (_hH : 5 ≤ H)
    (hx : 2 ≤ x ∧ x < W - 2) (hy : 2 ≤ y ∧ y < H - 2) (hc : c = 0 ∨ c = 1 ∨ c = 2) :
    readAt (GaussianFilter (List.replicate (3 * W * H).toNat 128) W H)
        ((y * W + x) * 3 + c) = ⌊(128 : ℚ) * kernelSum⌋.toNat
      ∧ kernelSum = 987 / 1000
      ∧ ⌊(128 : ℚ) * kernelSum⌋ = 126 := by
  have hf : ⌊(128 : ℚ) * kernelSum⌋ = 126 := by
    have := floor_gray
    push_cast at this
    exact this
  have h := readAt_gaussian_gray (3 * W * H).toNat W H x y c (by omega) hx hy hc
  rw [hf]
  exact ⟨h, kernelSum_eq, rfl⟩

/-- C8 (amended) at the 7x6 image, pixel `(4, 3)`, channel `2`. -/
theorem gaussian_uniform_gray_witness :
    readAt (GaussianFilter (List.replicate ((3 : Int) * 7 * 6).toNat 128) 7 6)
        ((3 * 7 + 4) * 3 + 2) = ⌊(128 : ℚ) * kernelSum⌋.toNat :=
  (gaussian_uniform_gray 7 6 4 3 2 (by decide) (by decide) (by decide) (by decide)
    (by decide)).1

/-! ## Row size -/

/-- Masking a natural number with `~3` clears its two low bits. -/
theorem ldiff_three (m : Nat) : Nat.ldiff m 3 = 4 * (m / 4) := by
  apply Nat.eq_of_testBit_eq
  intro k
  have h3 : (3 : Nat) = 2 ^ 2 - 1 := by norm_num
  have h4 : (4 : Nat) = 2 ^ 2 := by norm_num
  rw [Nat.testBit_ldiff, h3, Nat.testBit_two_pow_sub_one, h4, Nat.testBit_mul_pow_two,
    ← Nat.shiftRight_eq_div_pow, Nat.testBit_shiftRight]
  by_cases hk : k < 2
  · simp [hk]
  · have : 2 + (k - 2) = k := by omega
    simp [hk, this]
    omega

theorem land_not_three (n : Int) (h : 0 ≤ n) : Int.land n (Int.not 3) = n - n % 4 := by
  obtain ⟨m, rfl⟩ := Int.eq_ofNat_of_zero_le h
  have e : Int.land (m : Int) (Int.not 3) = ((Nat.ldiff m 3 : Nat) : Int) := rfl
  rw [e, ldiff_three]
  omega

theorem wrapInt32_of_range (z : Int) (h : -2 ^ 31 ≤ z ∧ z < 2 ^ 31) : wrapInt32 z = z := by
  unfold wrapInt32
  norm_num at h ⊢
  omega

/-- Without overflow the row size of a 24-bit image is `3 * width + 3` with its two low
bits cleared. -/
theorem rowSize_eq (width : Int) (h0 : 0 ≤ width) (h1 : 24 * width + 3 < 2 ^ 31) :
    rowSize width 24 = (3 * width + 3) - (3 * width + 3) % 4 := by
  unfold rowSize
  norm_num at h1
  rw [wrapInt32_of_range (width * 24) (by norm_num; omega),
    Int.tdiv_eq_ediv (by omega) (by omega)]
  have e : width * 24 / 8 = 3 * width := by omega
  rw [e, wrapInt32_of_range (3 * width + 3) (by norm_num; omega),
    land_not_three _ (by omega)]

/-- C9. Row padding invariant: for `0 ≤ width` with `24*width + 3 < 2^31` and
`bitsPerPixel = 24`, `rowSize = (width * bitsPerPixel / 8 + 3) & ~3` is a multiple of 4,
is at least `width*3`, and is less than `width*3 + 4`. -/
theorem rowSize_padding (width : Int) (h0 : 0 ≤ width) (h1 : 24 * width + 3 < 2 ^ 31) :
    rowSize width 24 % 4 = 0
      ∧ rowSize width 24 ≥ width * 3
      ∧ rowSize width 24 < width * 3 + 4 := by
  rw [rowSize_eq width h0 h1]
  omega

/-- C9 at `width = 5`. -/
theorem rowSize_padding_witness :
    rowSize 5 24 % 4 = 0 ∧ rowSize 5 24 ≥ 5 * 3 ∧ rowSize 5 24 < 5 * 3 + 4 :=
  rowSize_padding 5 (by decide) (by decide)

/-- C10 fails on the code: for the 24-bit image of width 4 and height 1 the driver loads
`rowSize(4) * 1 = 12` bytes; after the rotate step the header has width 1 and height 4,
the buffer still has 12 bytes, and `rowSize(1) * 4 = 16`. -/
theorem rotateStep_padding_broken :
    loadedSize header4x1 = 12
      ∧ (rotateStep header4x1 (List.replicate 12 0)).1.width = 1
      ∧ (rotateStep header4x1 (List.replicate 12 0)).1.height = 4
      ∧ (rotateStep header4x1 (List.replicate 12 0)).2.length = 12
      ∧ loadedSize (rotateStep header4x1 (List.replicate 12 0)).1 = 16 := by
  have r4 : rowSize 4 24 = 12 := by
    rw [rowSize_eq 4 (by decide) (by decide)]; decide
  have r1 : rowSize 1 24 = 4 := by
    rw [rowSize_eq 1 (by decide) (by decide)]; decide
  refine ⟨?_, rfl, rfl, ?_, ?_⟩
  · show wrapInt32 (rowSize 4 24 * 1) = 12
    rw [r4]; decide
  · show (rotateImage90Degrees (List.replicate 12 0) 4 1).length = 12
    rw [length_rotateImage90Degrees]; rfl
  · show wrapInt32 (rowSize 1 24 * 4) = 16
    rw [r1]; decide

/-! ## The rotate step of the driver: the claims -/

/-- C12. Rotation dimension swap: the rotate step of the driver turns a header of width
`W` and height `H` into a header of width `H` and height `W`, and leaves every field
other than `width`, `height` and `fileSize` unchanged. -/
theorem rotateStep_swaps_dimensions (header : BMPHeader) (pixels : List Nat) :
    (rotateStep header pixels).1.width = header.height
      ∧ (rotateStep header pixels).1.height = header.width
      ∧ (rotateStep header pixels).1.signature = header.signature
      ∧ (rotateStep header pixels).1.reserved1 = header.reserved1
      ∧ (rotateStep header pixels).1.reserved2 = header.reserved2
      ∧ (rotateStep header pixels).1.dataOffset = header.dataOffset
      ∧ (rotateStep header pixels).1.headerSize = header.headerSize
      ∧ (rotateStep header pixels).1.planes = header.planes
      ∧ (rotateStep header pixels).1.bitsPerPixel = header.bitsPerPixel
      ∧ (rotateStep header pixels).1.compression = header.compression
      ∧ (rotateStep header pixels).1.dataSize = header.dataSize
      ∧ (rotateStep header pixels).1.horizontalRes = header.horizontalRes
      ∧ (rotateStep header pixels).1.verticalRes = header.verticalRes
      ∧ (rotateStep header pixels).1.colors = header.colors
      ∧ (rotateStep header pixels).1.importantColors = header.importantColors :=
  ⟨rfl, rfl, rfl, rfl, rfl, rfl, rfl, rfl, rfl, rfl, rfl, rfl, rfl, rfl, rfl⟩

/-- C13, as stated, fails: for the 4x1 header, whose `headerSize` field is 40, and its
12-byte buffer, the rotate step stores `fileSize = 66 = 54 + 12`, while the `headerSize`
field plus the buffer length is `52`. -/
theorem fileSize_is_not_headerSize_field :
    (rotateStep header4x1 (List.replicate 12 0)).1.fileSize = 66
      ∧ ((rotateStep header4x1 (List.replicate 12 0)).1.headerSize
          + (rotateStep header4x1 (List.replicate 12 0)).2.length) % 2 ^ 32 = 52
      ∧ (rotateStep header4x1 (List.replicate 12 0)).1.fileSize
          ≠ ((rotateStep header4x1 (List.replicate 12 0)).1.headerSize
              + (rotateStep header4x1 (List.replicate 12 0)).2.length) % 2 ^ 32 := by
  have hl : (rotateStep header4x1 (List.replicate 12 0)).2.length = 12 := by
    show (rotateImage90Degrees (List.replicate 12 0) 4 1).length = 12
    rw [length_rotateImage90Degrees]; rfl
  have hf : (rotateStep header4x1 (List.replicate 12 0)).1.fileSize = 66 := by
    show (sizeofHeader + (rotateImage90Degrees (List.replicate 12 0) 4 1).length) % 2 ^ 32
      = 66
    rw [length_rotateImage90Degrees]; rfl
  have hh : (rotateStep header4x1 (List.replicate 12 0)).1.headerSize = 40 := rfl
  rw [hf, hh, hl]
  decide

/-- C13, amended: after the rotate step of the driver, `header.fileSize` equals
`sizeof(BMPHeader) + pixelBufferSize` modulo `2^32`, where `sizeof(BMPHeader) = 54` is the
size of the packed record and `pixelBufferSize` is the length of the rotated buffer,
which is the length of the buffer before the step. -/
theorem rotateStep_fileSize (header : BMPHeader) (pixels : List Nat) :
    (rotateStep header pixels).1.fileSize
        = (sizeofHeader + (rotateStep header pixels).2.length) % 2 ^ 32
      ∧ sizeofHeader = 54
      ∧ (rotateStep header pixels).2.length = pixels.length :=
  ⟨rfl, rfl, length_rotateImage90Degrees pixels header.width header.height⟩

/-! ## Buffer length and trailing bytes -/

/-- Offsets at or beyond `3 * width * height` are never assigned by the filter. -/
theorem readAt_gaussian_outside (p : List Nat) (W H k : Int) (hk : 3 * W * H ≤ k) :
    readAt (GaussianFilter p W H) k = 0 := by
  rw [GaussianFilter_eq, readAt_applyWrites_of_not_mem, readAt_replicate_zero]
  rintro w hw rfl
  obtain ⟨x, y, c, hx, hy, hc, rfl⟩ := mem_gaussianAllWrites.mp hw
  have := srcOffset_bounds (W := W) (H := H) (x := x) (y := y) (by omega) (by omega) hc
  simp only at hk
  omega

/-- C15. Both transforms keep the buffer length and zero everything outside the packed
pixel grid: for `W, H ≥ 0` and a buffer `p` of length `n ≥ 3*W*H`, the results of
`rotateImage90Degrees p W H` and `GaussianFilter p W H` have length `n`, and their byte at
every index `k` with `3*W*H ≤ k < n` is `0`, whatever `p[k]` is. -/
theorem transforms_keep_length_zero_tail (p : List Nat) (W H : Int)
    (_hW : 0 ≤ W) (_hH : 0 ≤ H) (_hlen : 3 * W * H ≤ (p.length : Int)) :
    (rotateImage90Degrees p W H).length = p.length
      ∧ (GaussianFilter p W H).length = p.length
      ∧ ∀ k : Nat, 3 * W * H ≤ (k : Int) → k < p.length →
          (rotateImage90Degrees p W H)[k]? = some 0
            ∧ (GaussianFilter p W H)[k]? = some 0 := by
  refine ⟨length_rotateImage90Degrees p W H, length_GaussianFilter p W H, ?_⟩
  intro k hk hlt
  rw [getElem?_eq_readAt _ k (by rw [length_rotateImage90Degrees]; exact hlt),
    getElem?_eq_readAt _ k (by rw [length_GaussianFilter]; exact hlt),
    readAt_rotate_outside p W H k hk, readAt_gaussian_outside p W H k hk]
  exact ⟨rfl, rfl⟩

/-- C15 at the 2x2 image with two trailing rows of padding-like bytes `9`. -/
theorem transforms_keep_length_zero_tail_witness :
    (rotateImage90Degrees (List.replicate 16 9) 2 2).length = (List.replicate 16 9).length
      ∧ (GaussianFilter (List.replicate 16 9) 2 2).length = (List.replicate 16 9).length
      ∧ ∀ k : Nat, (3 : Int) * 2 * 2 ≤ (k : Int) → k < (List.replicate 16 9).length →
          (rotateImage90Degrees (List.replicate 16 9) 2 2)[k]? = some 0
            ∧ (GaussianFilter (List.replicate 16 9) 2 2)[k]? = some 0 :=
  transforms_keep_length_zero_tail (List.replicate 16 9) 2 2 (by decide) (by decide)
    (by decide)

/-! ## Two rotations -/

/-- Two rotations, pixel by pixel. -/
theorem readAt_rotate_two (p : List Nat) (W H x y c : Int)
    (hlen : 3 * W * H ≤ (p.length : Int))
    (hx : 0 ≤ x ∧ x < W) (hy : 0 ≤ y ∧ y < H) (hc : c = 0 ∨ c = 1 ∨ c = 2) :
    readAt (rotateImage90Degrees (rotateImage90Degrees p W H) H W)
        (srcOffset W (W - 1 - x) (H - 1 - y) + c)
      = readAt p (srcOffset W x y + c) := by
  have e : 3 * H * W = 3 * W * H := by ring
  have l1 : 3 * H * W ≤ ((rotateImage90Degrees p W H).length : Int) := by
    rw [length_rotateImage90Degrees]; omega
  have s1 := readAt_rotate_src p W H x y c hlen hx hy hc
  have s2 := readAt_rotate_src (rotateImage90Degrees p W H) H W y (W - 1 - x) c l1 hy
    (by omega) hc
  rw [s2, s1]

/-- C18. Two rotations reverse the pixel order: for `W, H ≥ 0` and a buffer `p` of
length at least `3*W*H`, `r = rotateImage90Degrees (rotateImage90Degrees p W H) H W`
satisfies `r[3*(W*H - 1 - k) + c] = p[3*k + c]` for every pixel index `0 ≤ k < W*H` and
channel `c`; equivalently the pixel at `(x, y)` moves to `(W-1-x, H-1-y)` in an image of
width `W` and height `H`. -/
theorem two_rotations_reverse (p : List Nat) (W H : Int) (hW : 0 ≤ W) (_hH : 0 ≤ H)
    (hlen : 3 * W * H ≤ (p.length : Int)) :
    (∀ k c : Int, 0 ≤ k ∧ k < W * H → c = 0 ∨ c = 1 ∨ c = 2 →
        readAt (rotateImage90Degrees (rotateImage90Degrees p W H) H W)
            (3 * (W * H - 1 - k) + c) = readAt p (3 * k + c))
      ∧ (∀ x y c : Int, 0 ≤ x ∧ x < W → 0 ≤ y ∧ y < H → c = 0 ∨ c = 1 ∨ c = 2 →
        readAt (rotateImage90Degrees (rotateImage90Degrees p W H) H W)
            (((H - 1 - y) * W + (W - 1 - x)) * 3 + c) = readAt p ((y * W + x) * 3 + c)) := by
  have hxy : ∀ x y c : Int, 0 ≤ x ∧ x < W → 0 ≤ y ∧ y < H → c = 0 ∨ c = 1 ∨ c = 2 →
      readAt (rotateImage90Degrees (rotateImage90Degrees p W H) H W)
          (((H - 1 - y) * W + (W - 1 - x)) * 3 + c) = readAt p ((y * W + x) * 3 + c) :=
    fun x y c hx hy hc => readAt_rotate_two p W H x y c hlen hx hy hc
  refine ⟨?_, hxy⟩
  intro k c hk hc
  have h3 : 3 * W * H = 3 * (W * H) := by ring
  obtain ⟨x, y, c0, hx, hy, hc0, e⟩ :=
    exists_srcOffset W H (3 * k) ⟨by omega, by omega⟩ hW
  unfold srcOffset at e
  have hc00 : c0 = 0 := by omega
  subst hc00
  have ek : k = y * W + x := by omega
  have h := hxy x y c hx hy hc
  have e1 : ((H - 1 - y) * W + (W - 1 - x)) * 3 = 3 * (W * H - 1 - k) := by
    rw [ek]; ring
  have e2 : (y * W + x) * 3 = 3 * k := by rw [ek]; ring
  rw [e1, e2] at h
  exact h

/-- C18 at the 2x3 image of bytes `0, ..., 17`. -/
theorem two_rotations_reverse_witness :
    (∀ k c : Int, 0 ≤ k ∧ k < 2 * 3 → c = 0 ∨ c = 1 ∨ c = 2 →
        readAt (rotateImage90Degrees (rotateImage90Degrees (List.range 18) 2 3) 3 2)
            (3 * (2 * 3 - 1 - k) + c) = readAt (List.range 18) (3 * k + c))
      ∧ (∀ x y c : Int, 0 ≤ x ∧ x < 2 → 0 ≤ y ∧ y < 3 → c = 0 ∨ c = 1 ∨ c = 2 →
        readAt (rotateImage90Degrees (rotateImage90Degrees (List.range 18) 2 3) 3 2)
            (((3 - 1 - y) * 2 + (2 - 1 - x)) * 3 + c)
          = readAt (List.range 18) ((y * 2 + x) * 3 + c)) :=
  two_rotations_reverse (List.range 18) 2 3 (by decide) (by decide) (by decide)

/-! ## Row stride -/

theorem readAt_padded5x5 (k : Int) (hk : 0 ≤ k ∧ k < 80) :
    readAt padded5x5 k = if k = 38 then 200 else 0 := by
  obtain ⟨n, rfl⟩ := Int.eq_ofNat_of_zero_le hk.1
  have hn : n < 80 := by omega
  unfold readAt padded5x5
  rw [if_pos hk.1, List.getD_eq_getElem?_getD, Int.toNat_ofNat, List.getElem?_map,
    List.getElem?_range hn]
  by_cases h : n = 38
  · subst h; rfl
  · have h' : ¬ ((n : Int) = 38) := by omega
    simp [h, h']

/-- C11 fails on the code. The driver loads scanlines of `rowSize(W)` bytes, and both
transforms address pixel `(x, y)` at `(y*W + x)*3`. For `W = 2` (`rowSize = 8`) pixel
`(0, 1)` is stored at offset 8 but read at offset 6, so `rotateImage90Degrees` copies the
padding bytes `0, 0` and the byte `7` instead of the pixel `7, 8, 9`; for `W = 5`
(`rowSize = 16`) channel 0 of pixel `(2, 2)` is stored at offset 38, where the byte is
200, but `GaussianFilter` reads it at offset 36, where the byte is 0. -/
theorem transforms_ignore_row_stride :
    (rowSize 2 24 = 8 ∧ storedOffset 2 0 1 0 = 8 ∧ srcOffset 2 0 1 + 0 = 6
        ∧ readAt padded2x2 (storedOffset 2 0 1 0) = 7
        ∧ readAt (rotateImage90Degrees padded2x2 2 2) (destOffset 2 2 0 1 + 0) = 0
        ∧ readAt (rotateImage90Degrees padded2x2 2 2) (destOffset 2 2 0 1 + 1) = 0
        ∧ readAt (rotateImage90Degrees padded2x2 2 2) (destOffset 2 2 0 1 + 2) = 7)
      ∧ (rowSize 5 24 = 16 ∧ storedOffset 5 2 2 0 = 38
        ∧ ((2 + 0) * 5 + (2 + 0)) * 3 + 0 = (36 : Int)
        ∧ readAt padded5x5 (storedOffset 5 2 2 0) = 200
        ∧ readAt padded5x5 (((2 + 0) * 5 + (2 + 0)) * 3 + 0) = 0
        ∧ weightedSum padded5x5 5 2 2 0 = 0
        ∧ readAt (GaussianFilter padded5x5 5 5) ((2 * 5 + 2) * 3 + 0) = 0) := by
  have r2 : rowSize 2 24 = 8 := by
    rw [rowSize_eq 2 (by decide) (by decide)]; decide
  have r5 : rowSize 5 24 = 16 := by
    rw [rowSize_eq 5 (by decide) (by decide)]; decide
  have s2 : storedOffset 2 0 1 0 = 8 := by
    unfold storedOffset; rw [r2]; decide
  have s5 : storedOffset 5 2 2 0 = 38 := by
    unfold storedOffset; rw [r5]; decide
  have hw : weightedSum padded5x5 5 2 2 0 = 0 := by
    unfold weightedSum
    refine Finset.sum_eq_zero (fun j hj => Finset.sum_eq_zero (fun i hi => ?_))
    rw [Finset.mem_Icc] at hj hi
    rw [readAt_padded5x5 _ ⟨by omega, by omega⟩, if_neg (by omega)]
    simp
  have hg : readAt (GaussianFilter padded5x5 5 5) ((2 * 5 + 2) * 3 + 0) = 0 := by
    have hb : ∀ b ∈ padded5x5, b < 256 := by decide
    exact readAt_gaussian_zero padded5x5 5 5 2 2 0 hb (by decide) (by decide) (by decide)
      (by decide) hw
  refine ⟨⟨r2, s2, by decide, ?_, by decide, by decide, by decide⟩,
    ⟨r5, s5, by decide, ?_, by decide, hw, hg⟩⟩
  · rw [s2]; decide
  · rw [s5]; decide

/-! ## Index safety -/

theorem int32_of_range (z : Int) (h : -2 ^ 31 ≤ z ∧ z < 2 ^ 31) : int32 z = some z := by
  unfold int32
  rw [if_pos h]

theorem readChecked_of_range (buf : List Nat) (off : Int)
    (h : 0 ≤ off ∧ off < (buf.length : Int)) : readChecked buf off = some (readAt buf off) := by
  unfold readChecked
  rw [if_pos h]

theorem writeChecked_of_range (buf : List Nat) (off : Int) (v : Nat)
    (h : 0 ≤ off ∧ off < (buf.length : Int)) :
    writeChecked buf off v = some (writeAt buf off v) := by
  unfold writeChecked
  rw [if_pos h]

/-- A checked loop whose body succeeds on every iteration succeeds, with the result of
the unchecked loop. -/
theorem foldlM_eq_some_foldl {α β : Type} (P : β → Prop) (f : β → α → Option β)
    (g : β → α → β) (l : List α) (b : β) (hb : P b)
    (h : ∀ a ∈ l, ∀ b, P b → f b a = some (g b a) ∧ P (g b a)) :
    l.foldlM f b = some (l.foldl g b) ∧ P (l.foldl g b) := by
  induction l generalizing b with
  | nil => exact ⟨rfl, hb⟩
  | cons a l ih =>
    have ha := h a (List.mem_cons_self _ _) b hb
    rw [List.foldlM_cons, ha.1, List.foldl_cons]
    exact ih (g b a) ha.2 (fun a' ha' => h a' (List.mem_cons_of_mem _ ha'))

/-- Without overflow below `2^31` the checked source offset is the offset. -/
theorem srcOffsetChecked_eq {W H x y : Int} (hx : 0 ≤ x ∧ x < W) (hy : 0 ≤ y ∧ y < H)
    (hs : 3 * W * H < 2 ^ 31) : srcOffsetChecked W x y = some (srcOffset W x y) := by
  have hb := srcOffset_bounds (W := W) (H := H) hx hy (Or.inl rfl)
  unfold srcOffset at hb
  have h1 : 0 ≤ y * W := Int.mul_nonneg (by omega) (by omega)
  unfold srcOffsetChecked srcOffset
  rw [int32_of_range (y * W) (by omega)]
  simp only [Option.bind_eq_bind, Option.some_bind]
  rw [int32_of_range (y * W + x) (by omega)]
  simp only [Option.some_bind]
  rw [int32_of_range _ (by omega)]

/-- Without overflow below `2^31` the checked destination offset is the offset. -/
theorem destOffsetChecked_eq {W H x y : Int} (hx : 0 ≤ x ∧ x < W) (hy : 0 ≤ y ∧ y < H)
    (hs : 3 * W * H < 2 ^ 31) : destOffsetChecked W H x y = some (destOffset W H x y) := by
  have hb := destOffset_bounds (W := W) (H := H) hx hy (Or.inl rfl)
  unfold destOffset at hb
  have h1 : 0 ≤ (W - x - 1) * H := Int.mul_nonneg (by omega) (by omega)
  have h2 : W * 1 ≤ W * H := Int.mul_le_mul_of_nonneg_left (by omega) (by omega)
  have h3 : 3 * W * H = 3 * (W * H) := by ring
  unfold destOffsetChecked destOffset
  rw [int32_of_range (W - x) (by omega)]
  simp only [Option.bind_eq_bind, Option.some_bind]
  rw [int32_of_range (W - x - 1) (by omega)]
  simp only [Option.some_bind]
  rw [int32_of_range ((W - x - 1) * H) (by omega)]
  simp only [Option.some_bind]
  rw [int32_of_range ((W - x - 1) * H + y) (by omega)]
  simp only [Option.some_bind]
  rw [int32_of_range _ (by omega)]

/-- One iteration of the rotation makes no out-of-range access. -/
theorem rotateBodyChecked_eq (p : List Nat) {W H x y : Int} (acc : List Nat)
    (hx : 0 ≤ x ∧ x < W) (hy : 0 ≤ y ∧ y < H) (hs : 3 * W * H < 2 ^ 31)
    (hlen : 3 * W * H ≤ (p.length : Int)) (hacc : acc.length = p.length) :
    rotateBodyChecked p W H x y acc = some (rotateBody p W H x y acc)
      ∧ (rotateBody p W H x y acc).length = p.length := by
  have d0 := destOffset_bounds (W := W) (H := H) hx hy (Or.inl rfl)
  have d2 := destOffset_bounds (W := W) (H := H) hx hy (Or.inr (Or.inr rfl))
  have s0 := srcOffset_bounds (W := W) (H := H) hx hy (Or.inl rfl)
  have s2 := srcOffset_bounds (W := W) (H := H) hx hy (Or.inr (Or.inr rfl))
  constructor
  · unfold rotateBodyChecked
    rw [srcOffsetChecked_eq hx hy hs, destOffsetChecked_eq hx hy hs]
    simp only [Option.bind_eq_bind, Option.some_bind]
    rw [readChecked_of_range p _ (by omega)]
    simp only [Option.some_bind]
    rw [writeChecked_of_range acc _ _ (by omega)]
    simp only [Option.some_bind]
    rw [int32_of_range (destOffset W H x y + 1) (by omega)]
    simp only [Option.some_bind]
    rw [int32_of_range (srcOffset W x y + 1) (by omega)]
    simp only [Option.some_bind]
    rw [readChecked_of_range p _ (by omega)]
    simp only [Option.some_bind]
    rw [writeChecked_of_range _ _ _ (by rw [length_writeAt]; omega)]
    simp only [Option.some_bind]
    rw [int32_of_range (destOffset W H x y + 2) (by omega)]
    simp only [Option.some_bind]
    rw [int32_of_range (srcOffset W x y + 2) (by omega)]
    simp only [Option.some_bind]
    rw [readChecked_of_range p _ (by omega)]
    simp only [Option.some_bind]
    rw [writeChecked_of_range _ _ _ (by rw [length_writeAt, length_writeAt]; omega)]
    rfl
  · unfold rotateBody
    simp only [length_writeAt]
    exact hacc

/-- The rotation makes no out-of-range access and no overflowing operation. -/
theorem rotateChecked_eq (p : List Nat) (W H : Int) (hs : 3 * W * H < 2 ^ 31)
    (hlen : 3 * W * H ≤ (p.length : Int)) :
    rotateChecked p W H = some (rotateImage90Degrees p W H) := by
  unfold rotateChecked rotateImage90Degrees
  refine (foldlM_eq_some_foldl (fun acc : List Nat => acc.length = p.length) _ _ _ _
    (List.length_replicate _ _) ?_).1
  intro x hx acc hacc
  rw [mem_intRange] at hx
  refine foldlM_eq_some_foldl (fun acc : List Nat => acc.length = p.length) _ _ _ _ hacc ?_
  intro y hy acc' hacc'
  rw [mem_intRange] at hy
  exact rotateBodyChecked_eq p acc' hx hy hs hlen hacc'

/-- Without overflow below `2^31` the checked offset of a neighbour is the offset. -/
theorem pixelOffsetChecked_eq {W H x y j i : Int}
    (hx : 2 ≤ x ∧ x < W - 2) (hy : 2 ≤ y ∧ y < H - 2)
    (hj : -2 ≤ j ∧ j ≤ 2) (hi : -2 ≤ i ∧ i ≤ 2) (hs : 3 * W * H < 2 ^ 31) :
    pixelOffsetChecked W x y j i = some (((y + j) * W + (x + i)) * 3) := by
  have hb := neighbour_bounds (c := 0) hx hy (Or.inl rfl) hj hi
  have h1 : 0 ≤ (y + j) * W := Int.mul_nonneg (by omega) (by omega)
  have h2 : H * 1 ≤ H * W := Int.mul_le_mul_of_nonneg_left (by omega) (by omega)
  have h3 : 3 * W * H = 3 * (H * W) := by ring
  unfold pixelOffsetChecked
  rw [int32_of_range (y + j) (by omega)]
  simp only [Option.bind_eq_bind, Option.some_bind]
  rw [int32_of_range ((y + j) * W) (by omega)]
  simp only [Option.some_bind]
  rw [int32_of_range (x + i) (by omega)]
  simp only [Option.some_bind]
  rw [int32_of_range ((y + j) * W + (x + i)) (by omega)]
  simp only [Option.some_bind]
  rw [int32_of_range _ (by omega)]

theorem kernelChecked_eq {j i : Int} (hj : -2 ≤ j ∧ j ≤ 2) (hi : -2 ≤ i ∧ i ≤ 2) :
    kernelChecked (j + radius) (i + radius)
      = some (kernelDouble (j + radius) (i + radius)) := by
  unfold kernelChecked radius
  rw [if_pos (by omega)]

/-- One step of the convolution makes no out-of-range access. -/
theorem convStepChecked_eq (p : List Nat) {W H x y j i : Int} (sum : ℚ × ℚ × ℚ)
    (hx : 2 ≤ x ∧ x < W - 2) (hy : 2 ≤ y ∧ y < H - 2)
    (hj : -2 ≤ j ∧ j ≤ 2) (hi : -2 ≤ i ∧ i ≤ 2) (hs : 3 * W * H < 2 ^ 31)
    (hlen : 3 * W * H ≤ (p.length : Int)) :
    convStepChecked p W x y j i sum = some (convStep p W x y j i sum) := by
  have b0 := neighbour_bounds (c := 0) hx hy (Or.inl rfl) hj hi
  have b2 := neighbour_bounds (c := 2) hx hy (Or.inr (Or.inr rfl)) hj hi
  unfold convStepChecked
  rw [pixelOffsetChecked_eq hx hy hj hi hs]
  simp only [Option.bind_eq_bind, Option.some_bind]
  rw [int32_of_range (j + radius) (by unfold radius; omega)]
  simp only [Option.some_bind]
  rw [int32_of_range (i + radius) (by unfold radius; omega)]
  simp only [Option.some_bind]
  rw [kernelChecked_eq hj hi]
  simp only [Option.some_bind]
  rw [readChecked_of_range p _ (by omega)]
  simp only [Option.some_bind]
  rw [int32_of_range (((y + j) * W + (x + i)) * 3 + 1) (by omega)]
  simp only [Option.some_bind]
  rw [readChecked_of_range p _ (by omega)]
  simp only [Option.some_bind]
  rw [int32_of_range (((y + j) * W + (x + i)) * 3 + 2) (by omega)]
  simp only [Option.some_bind]
  rw [readChecked_of_range p _ (by omega)]
  rfl

theorem mem_intRange_kernel {j : Int} (h : j ∈ intRange (-radius) (radius + 1)) :
    -2 ≤ j ∧ j ≤ 2 := by
  rw [mem_intRange] at h
  unfold radius at h
  omega

/-- The convolution at an interior pixel makes no out-of-range access. -/
theorem convolveChecked_eq (p : List Nat) {W H x y : Int}
    (hx : 2 ≤ x ∧ x < W - 2) (hy : 2 ≤ y ∧ y < H - 2) (hs : 3 * W * H < 2 ^ 31)
    (hlen : 3 * W * H ≤ (p.length : Int)) :
    convolveChecked p W x y = some (convolve p W x y) := by
  unfold convolveChecked convolve
  refine (foldlM_eq_some_foldl (fun _ : ℚ × ℚ × ℚ => True) _ _ _ _ trivial ?_).1
  intro j hj sum _
  refine foldlM_eq_some_foldl (fun _ : ℚ × ℚ × ℚ => True) _ _ _ _ trivial ?_
  intro i hi sum' _
  exact ⟨convStepChecked_eq p sum' hx hy (mem_intRange_kernel hj) (mem_intRange_kernel hi)
    hs hlen, trivial⟩

/-- One iteration of the filter makes no out-of-range access. -/
theorem gaussianBodyChecked_eq (p : List Nat) {W H x y : Int} (acc : List Nat)
    (hx : 2 ≤ x ∧ x < W - 2) (hy : 2 ≤ y ∧ y < H - 2) (hs : 3 * W * H < 2 ^ 31)
    (hlen : 3 * W * H ≤ (p.length : Int)) (hacc : acc.length = p.length) :
    gaussianBodyChecked p W x y acc = some (gaussianBody p W x y acc)
      ∧ (gaussianBody p W x y acc).length = p.length := by
  have hx' : 0 ≤ x ∧ x < W := by omega
  have hy' : 0 ≤ y ∧ y < H := by omega
  have s0 := srcOffset_bounds (W := W) (H := H) hx' hy' (Or.inl rfl)
  have s2 := srcOffset_bounds (W := W) (H := H) hx' hy' (Or.inr (Or.inr rfl))
  constructor
  · unfold gaussianBodyChecked
    rw [convolveChecked_eq p hx hy hs hlen, srcOffsetChecked_eq hx' hy' hs]
    simp only [Option.bind_eq_bind, Option.some_bind]
    rw [writeChecked_of_range acc _ _ (by omega)]
    simp only [Option.some_bind]
    rw [int32_of_range (srcOffset W x y + 1) (by omega)]
    simp only [Option.some_bind]
    rw [writeChecked_of_range _ _ _ (by rw [length_writeAt]; omega)]
    simp only [Option.some_bind]
    rw [int32_of_range (srcOffset W x y + 2) (by omega)]
    simp only [Option.some_bind]
    rw [writeChecked_of_range _ _ _ (by rw [length_writeAt, length_writeAt]; omega)]
    rfl
  · unfold gaussianBody
    simp only [length_writeAt]
    exact hacc

/-- The filter makes no out-of-range access and no overflowing operation. -/
theorem gaussianChecked_eq (p : List Nat) (W H : Int) (hs : 3 * W * H < 2 ^ 31)
    (hlen : 3 * W * H ≤ (p.length : Int)) :
    gaussianChecked p W H = some (GaussianFilter p W H) := by
  unfold gaussianChecked GaussianFilter
  refine (foldlM_eq_some_foldl (fun acc : List Nat => acc.length = p.length) _ _ _ _
    (List.length_replicate _ _) ?_).1
  intro y hy acc hacc
  rw [mem_intRange] at hy
  refine foldlM_eq_some_foldl (fun acc : List Nat => acc.length = p.length) _ _ _ _ hacc ?_
  intro x hx acc' hacc'
  rw [mem_intRange] at hx
  unfold radius at hx hy
  exact gaussianBodyChecked_eq p acc' (by omega) (by omega) hs hlen hacc'

/-- C16. Index safety: for `W, H ≥ 0` with `3*W*H < 2^31` and a buffer `p` of length at
least `3*W*H`, every read index `(y*W + x)*3 + c` and write index
`((W-1-x)*H + y)*3 + c` of `rotateImage90Degrees`, and every read index
`((y+j)*W + (x+i))*3 + c` and write index `(y*W + x)*3 + c` of `GaussianFilter`, is
`≥ 0` and `< 3*W*H`, hence inside the input and the output buffer; every kernel index
pair `(j+2, i+2)` lies in `0..4`; and both functions run without an out-of-range access
or an overflowing `int` operation. -/
theorem index_safety (p : List Nat) (W H : Int) (_hW : 0 ≤ W) (_hH : 0 ≤ H)
    (hs : 3 * W * H < 2 ^ 31) (hlen : 3 * W * H ≤ (p.length : Int)) :
    (∀ x ∈ intRange 0 W, ∀ y ∈ intRange 0 H, ∀ c : Int, c = 0 ∨ c = 1 ∨ c = 2 →
        (0 ≤ (y * W + x) * 3 + c ∧ (y * W + x) * 3 + c < 3 * W * H)
          ∧ (0 ≤ ((W - 1 - x) * H + y) * 3 + c ∧ ((W - 1 - x) * H + y) * 3 + c < 3 * W * H))
      ∧ (∀ y ∈ intRange radius (H - radius), ∀ x ∈ intRange radius (W - radius),
          ∀ j ∈ intRange (-radius) (radius + 1), ∀ i ∈ intRange (-radius) (radius + 1),
          ∀ c : Int, c = 0 ∨ c = 1 ∨ c = 2 →
            (0 ≤ ((y + j) * W + (x + i)) * 3 + c
              ∧ ((y + j) * W + (x + i)) * 3 + c < 3 * W * H)
            ∧ (0 ≤ (y * W + x) * 3 + c ∧ (y * W + x) * 3 + c < 3 * W * H)
            ∧ (0 ≤ j + 2 ∧ j + 2 ≤ 4) ∧ (0 ≤ i + 2 ∧ i + 2 ≤ 4))
      ∧ (3 * W * H ≤ ((rotateImage90Degrees p W H).length : Int)
          ∧ 3 * W * H ≤ ((GaussianFilter p W H).length : Int))
      ∧ rotateChecked p W H = some (rotateImage90Degrees p W H)
      ∧ gaussianChecked p W H = some (GaussianFilter p W H) := by
  refine ⟨?_, ?_, ?_, rotateChecked_eq p W H hs hlen, gaussianChecked_eq p W H hs hlen⟩
  · intro x hx y hy c hc
    rw [mem_intRange] at hx hy
    have hd := destOffset_bounds (W := W) (H := H) hx hy hc
    have e : ((W - 1 - x) * H + y) * 3 = destOffset W H x y := by
      unfold destOffset; ring
    rw [e]
    exact ⟨srcOffset_bounds hx hy hc, hd⟩
  · intro y hy x hx j hj i hi c hc
    rw [mem_intRange] at hx hy
    unfold radius at hx hy
    have hj' := mem_intRange_kernel hj
    have hi' := mem_intRange_kernel hi
    have hx' : 2 ≤ x ∧ x < W - 2 := by omega
    have hy' : 2 ≤ y ∧ y < H - 2 := by omega
    refine ⟨neighbour_bounds hx' hy' hc hj' hi', ?_, by omega, by omega⟩
    exact srcOffset_bounds (W := W) (H := H) (x := x) (y := y) (by omega) (by omega) hc
  · rw [length_rotateImage90Degrees, length_GaussianFilter]
    exact ⟨hlen, hlen⟩

/-- C16 at the 6x6 image of 108 bytes. -/
theorem index_safety_witness :
    rotateChecked (List.replicate 108 1) 6 6
        = some (rotateImage90Degrees (List.replicate 108 1) 6 6)
      ∧ gaussianChecked (List.replicate 108 1) 6 6
        = some (GaussianFilter (List.replicate 108 1) 6 6) :=
  (index_safety (List.replicate 108 1) 6 6 (by decide) (by decide) (by decide)
    (by rw [List.length_replicate]; decide)).2.2.2

/-! ## Range of the filtered value -/

/-- C17, as stated, fails: in the 5x5 image `image102070`, black except for channel 0 of
pixels `(0, 0)`, `(4, 0)` and `(4, 1)`, which is `10`, `20` and `70`, the exact sum at
pixel `(2, 2)`, channel 0, is `S = 10 * 0.003 + 20 * 0.003 + 70 * 0.013 = 1`, so
`floor(S) = 1`; the sum the filter accumulates in binary64 is `1 - 2^-53`, and the stored
byte is `0`. -/
theorem stored_byte_below_exact_floor :
    (∀ b ∈ image102070, b < 256)
      ∧ 3 * 5 * 5 ≤ (image102070.length : Int)
      ∧ weightedSum image102070 5 2 2 0 = 1
      ∧ ⌊weightedSum image102070 5 2 2 0⌋.toNat = 1
      ∧ channel 0 (convolve image102070 5 2 2) = 9007199254740991 / 2 ^ 53
      ∧ readAt (GaussianFilter image102070 5 5) ((2 * 5 + 2) * 3 + 0) = 0
      ∧ readAt (GaussianFilter image102070 5 5) ((2 * 5 + 2) * 3 + 0)
          ≠ ⌊weightedSum image102070 5 2 2 0⌋.toNat := by
  have hf : ⌊(9007199254740991 / 2 ^ 53 : ℚ)⌋ = 0 := by
    rw [Int.floor_eq_iff]
    norm_num
  have hr : readAt (GaussianFilter image102070 5 5) ((2 * 5 + 2) * 3 + 0) = 0 := by
    have h := readAt_gaussian_floor image102070 5 5 2 2 0 (by decide) (by decide) (by decide)
      (by decide)
    rw [doubleSum_image102070, hf] at h
    exact h
  have hs : ⌊weightedSum image102070 5 2 2 0⌋.toNat = 1 := by
    rw [weightedSum_image102070, Int.floor_one]
    rfl
  refine ⟨image102070_bytes, by decide, weightedSum_image102070, hs, ?_, hr, ?_⟩
  · rw [channel_convolve _ _ _ _ _ (Or.inl rfl), doubleSum_image102070]
  · rw [hr, hs]
    decide

/-- C17, amended. The narrowing cast of the blur never wraps: the 25 weights are
non-negative and add up to exactly `0.987`; for a buffer of bytes, an interior pixel and a
channel, the exact weighted sum `S` satisfies `0 ≤ S ≤ 0.987 * M ≤ 251.685`, where `M` is
the largest of the 25 neighbourhood bytes of the channel; the stored byte is the floor of
the sum `D` accumulated in binary64, without reduction modulo 256; it is `floor(S)` when
`S` is not an integer, `S` or `S - 1` when it is; and it is at most `M`. -/
theorem gaussian_cast_never_wraps (p : List Nat) (W H x y c : Int)
    (hbytes : ∀ b ∈ p, b < 256) (hlen : 3 * W * H ≤ (p.length : Int))
    (hx : 2 ≤ x ∧ x < W - 2) (hy : 2 ≤ y ∧ y < H - 2) (hc : c = 0 ∨ c = 1 ∨ c = 2) :
    (∀ j ∈ Finset.Icc (-2 : Int) 2, ∀ i ∈ Finset.Icc (-2 : Int) 2,
        0 ≤ kernelAt (j + 2) (i + 2))
      ∧ ∑ j in Finset.Icc (-2 : Int) 2, ∑ i in Finset.Icc (-2 : Int) 2,
          kernelAt (j + 2) (i + 2) = 987 / 1000
      ∧ 0 ≤ weightedSum p W x y c
      ∧ weightedSum p W x y c ≤ 987 / 1000 * (neighbourhoodMax p W x y c : ℚ)
      ∧ 987 / 1000 * (neighbourhoodMax p W x y c : ℚ) ≤ 251685 / 1000
      ∧ readAt (GaussianFilter p W H) ((y * W + x) * 3 + c)
          = ⌊channel c (convolve p W x y)⌋.toNat
      ∧ (weightedSum p W x y c ≠ (⌊weightedSum p W x y c⌋ : ℚ) →
          readAt (GaussianFilter p W H) ((y * W + x) * 3 + c)
            = ⌊weightedSum p W x y c⌋.toNat)
      ∧ (weightedSum p W x y c = (⌊weightedSum p W x y c⌋ : ℚ) →
          readAt (GaussianFilter p W H) ((y * W + x) * 3 + c)
              = ⌊weightedSum p W x y c⌋.toNat
            ∨ readAt (GaussianFilter p W H) ((y * W + x) * 3 + c) + 1
              = ⌊weightedSum p W x y c⌋.toNat)
      ∧ readAt (GaussianFilter p W H) ((y * W + x) * 3 + c) ≤ neighbourhoodMax p W x y c := by
  have h0 := weightedSum_nonneg p W x y c
  have h1 := weightedSum_le p W x y c
  have hM : (neighbourhoodMax p W x y c : ℚ) ≤ 255 := by
    exact_mod_cast neighbourhoodMax_le p hbytes W x y c
  have h2 : 987 / 1000 * (neighbourhoodMax p W x y c : ℚ) ≤ 251685 / 1000 := by linarith
  have e : (y * W + x) * 3 + c = srcOffset W x y + c := rfl
  have h := readAt_gaussian_exact p W H x y c hbytes hlen hx hy hc
  rw [e, channel_convolve p W x y c hc]
  exact ⟨fun j hj i hi => kernelAt_nonneg j i hj hi, sum_kernelAt, h0, h1, h2, h⟩

/-- C17 (amended) at the 5x5 image whose bytes are all `255`, pixel `(2, 2)`, channel
`0`. -/
theorem gaussian_cast_never_wraps_witness :
    readAt (GaussianFilter (List.replicate 75 255) 5 5) ((2 * 5 + 2) * 3 + 0)
        = ⌊channel 0 (convolve (List.replicate 75 255) 5 2 2)⌋.toNat
      ∧ readAt (GaussianFilter (List.replicate 75 255) 5 5) ((2 * 5 + 2) * 3 + 0)
        ≤ neighbourhoodMax (List.replicate 75 255) 5 2 2 0 :=
  ⟨(gaussian_cast_never_wraps (List.replicate 75 255) 5 5 2 2 0
      (fun b hb => by rw [(List.mem_replicate.mp hb).2]; decide)
      (by rw [List.length_replicate]; decide) (by decide) (by decide)
      (by decide)).2.2.2.2.2.1,
   (gaussian_cast_never_wraps (List.replicate 75 255) 5 5 2 2 0
      (fun b hb => by rw [(List.mem_replicate.mp hb).2]; decide)
      (by rw [List.length_replicate]; decide) (by decide) (by decide)
      (by decide)).2.2.2.2.2.2.2.2⟩

/-! ## Blur and rotation -/

/-- C19, as stated, fails: for the 5x5 image `image105060`, black except for channel 0 of
pixels `(0, 0)`, `(1, 0)` and `(2, 0)`, which is `10`, `50` and `60`, the exact sum at
pixel `(2, 2)`, channel 0, is `10 * 0.003 + 50 * 0.013 + 60 * 0.022 = 2`. The filter
accumulates it in binary64 in loop order: on the image the sum is `2` and the byte `2`; on
the rotated image the terms come in the order `60 * 0.022, 50 * 0.013, 10 * 0.003`, the sum
is `2 - 2^-52` and the byte `1`. So byte 36 is `1` for rotation then blur and `2` for blur
then rotation. -/
theorem blur_then_rotate_differs :
    (image105060.length : Int) = 3 * 5 * 5
      ∧ (∀ b ∈ image105060, b < 256)
      ∧ weightedSum image105060 5 2 2 0 = 2
      ∧ weightedSum (rotateImage90Degrees image105060 5 5) 5 2 2 0 = 2
      ∧ channel 0 (convolve image105060 5 2 2) = 2
      ∧ channel 0 (convolve (rotateImage90Degrees image105060 5 5) 5 2 2)
          = 9007199254740991 / 2 ^ 52
      ∧ readAt (GaussianFilter (rotateImage90Degrees image105060 5 5) 5 5) 36 = 1
      ∧ readAt (rotateImage90Degrees (GaussianFilter image105060 5 5) 5 5) 36 = 2
      ∧ GaussianFilter (rotateImage90Degrees image105060 5 5) 5 5
          ≠ rotateImage90Degrees (GaussianFilter image105060 5 5) 5 5 := by
  have hl : 3 * 5 * 5 ≤ (image105060.length : Int) := by decide
  have hlq : 3 * 5 * 5 ≤ ((rotateImage90Degrees image105060 5 5).length : Int) := by
    rw [length_rotateImage90Degrees]
    exact hl
  have hlg : 3 * 5 * 5 ≤ ((GaussianFilter image105060 5 5).length : Int) := by
    rw [length_GaussianFilter]
    exact hl
  have hf1 : ⌊(9007199254740991 / 2 ^ 52 : ℚ)⌋ = 1 := by
    rw [Int.floor_eq_iff]
    norm_num
  have hf2 : ⌊(4503599627370496 / 2 ^ 51 : ℚ)⌋ = 2 := by
    rw [Int.floor_eq_iff]
    norm_num
  have hL : readAt (GaussianFilter (rotateImage90Degrees image105060 5 5) 5 5) 36 = 1 := by
    have h := readAt_gaussian_floor (rotateImage90Degrees image105060 5 5) 5 5 2 2 0 hlq
      (by decide) (by decide) (by decide)
    rw [doubleSum_rotate_image105060, hf1] at h
    exact h
  have hR : readAt (rotateImage90Degrees (GaussianFilter image105060 5 5) 5 5) 36 = 2 := by
    have h := readAt_rotate (GaussianFilter image105060 5 5) 5 5 2 2 0 hlg (by decide)
      (by decide) (by decide)
    have h2 := readAt_gaussian_floor image105060 5 5 2 2 0 hl (by decide) (by decide)
      (by decide)
    rw [doubleSum_image105060, hf2] at h2
    rw [h2] at h
    exact h
  have hw : weightedSum (rotateImage90Degrees image105060 5 5) 5 2 2 0 = 2 := by
    have h := weightedSum_rotate image105060 5 5 2 2 0 hl (by decide) (by decide) (by decide)
    rw [weightedSum_image105060] at h
    exact h
  refine ⟨by decide, image105060_bytes, weightedSum_image105060, hw, ?_, ?_, hL, hR, ?_⟩
  · rw [channel_convolve _ _ _ _ _ (Or.inl rfl), doubleSum_image105060]
    norm_num
  · rw [channel_convolve _ _ _ _ _ (Or.inl rfl), doubleSum_rotate_image105060]
  · intro h
    rw [h, hR] at hL
    exact absurd hL (by decide)

/-- C19, amended. Blur commutes with rotation up to one unit per byte: for `W, H ≥ 0` and
a buffer `p` of bytes of length `3*W*H`, the buffers
`GaussianFilter (rotateImage90Degrees p W H) H W` and
`rotateImage90Degrees (GaussianFilter p W H) W H` have the same length and differ by at
most `1` at every offset; both are `0` at every border pixel; at the destination of an
interior pixel `(x, y)` the exact weighted sums of the two orders are equal, and the two
bytes are equal whenever that sum is not an integer. -/
theorem blur_rotation_within_one (p : List Nat) (W H : Int) (_hW : 0 ≤ W) (hH : 0 ≤ H)
    (hbytes : ∀ b ∈ p, b < 256) (hlen : (p.length : Int) = 3 * W * H) :
    (GaussianFilter (rotateImage90Degrees p W H) H W).length
        = (rotateImage90Degrees (GaussianFilter p W H) W H).length
      ∧ (∀ k : Int,
          readAt (GaussianFilter (rotateImage90Degrees p W H) H W) k
              = readAt (rotateImage90Degrees (GaussianFilter p W H) W H) k
            ∨ readAt (GaussianFilter (rotateImage90Degrees p W H) H W) k + 1
              = readAt (rotateImage90Degrees (GaussianFilter p W H) W H) k
            ∨ readAt (rotateImage90Degrees (GaussianFilter p W H) W H) k + 1
              = readAt (GaussianFilter (rotateImage90Degrees p W H) H W) k)
      ∧ (∀ x y c : Int, 0 ≤ x ∧ x < W → 0 ≤ y ∧ y < H → c = 0 ∨ c = 1 ∨ c = 2 →
          x < 2 ∨ W - 2 ≤ x ∨ y < 2 ∨ H - 2 ≤ y →
          readAt (GaussianFilter (rotateImage90Degrees p W H) H W)
              (((W - x - 1) * H + y) * 3 + c) = 0
            ∧ readAt (rotateImage90Degrees (GaussianFilter p W H) W H)
              (((W - x - 1) * H + y) * 3 + c) = 0)
      ∧ (∀ x y c : Int, 2 ≤ x ∧ x < W - 2 → 2 ≤ y ∧ y < H - 2 → c = 0 ∨ c = 1 ∨ c = 2 →
          weightedSum (rotateImage90Degrees p W H) H y (W - 1 - x) c = weightedSum p W x y c
            ∧ (weightedSum p W x y c ≠ (⌊weightedSum p W x y c⌋ : ℚ) →
              readAt (GaussianFilter (rotateImage90Degrees p W H) H W)
                  (((W - x - 1) * H + y) * 3 + c)
                = readAt (rotateImage90Degrees (GaussianFilter p W H) W H)
                  (((W - x - 1) * H + y) * 3 + c))) := by
  have hle : 3 * W * H ≤ (p.length : Int) := by omega
  have lg : 3 * W * H ≤ ((GaussianFilter p W H).length : Int) := by
    rw [length_GaussianFilter]; exact hle
  have hborder : ∀ x y c : Int, 0 ≤ x ∧ x < W → 0 ≤ y ∧ y < H → c = 0 ∨ c = 1 ∨ c = 2 →
      x < 2 ∨ W - 2 ≤ x ∨ y < 2 ∨ H - 2 ≤ y →
      readAt (GaussianFilter (rotateImage90Degrees p W H) H W) (destOffset W H x y + c) = 0
        ∧ readAt (rotateImage90Degrees (GaussianFilter p W H) W H)
            (destOffset W H x y + c) = 0 := by
    intro x y c hx hy hc hb
    refine ⟨?_, ?_⟩
    · rw [destOffset_eq_srcOffset]
      exact readAt_gaussian_border (rotateImage90Degrees p W H) H W y (W - 1 - x) c hy hc
        (by omega)
    · rw [readAt_rotate (GaussianFilter p W H) W H x y c lg hx hy hc]
      exact readAt_gaussian_border p W H x y c hx hc (by omega)
  refine ⟨by rw [length_GaussianFilter, length_rotateImage90Degrees,
      length_rotateImage90Degrees, length_GaussianFilter], fun k => ?_,
    fun x y c hx hy hc hb => hborder x y c hx hy hc hb, fun x y c hx hy hc =>
      ⟨weightedSum_rotate p W H x y c hle hx hy hc,
        (readAt_blur_rotate_near p W H x y c hbytes hH hle hx hy hc).2⟩⟩
  by_cases hk : 0 ≤ k ∧ k < 3 * W * H
  · obtain ⟨x, y, c, hx, hy, hc, e⟩ := exists_destOffset W H k hk hH
    rw [e]
    by_cases hi : (2 ≤ x ∧ x < W - 2) ∧ (2 ≤ y ∧ y < H - 2)
    · exact (readAt_blur_rotate_near p W H x y c hbytes hH hle hi.1 hi.2 hc).1
    · have h := hborder x y c hx hy hc (by omega)
      rw [h.1, h.2]
      exact Or.inl rfl
  · left
    by_cases hneg : k < 0
    · unfold readAt
      rw [if_neg (by omega), if_neg (by omega)]
    · have e : 3 * H * W = 3 * W * H := by ring
      rw [readAt_gaussian_outside _ H W k (by omega),
        readAt_rotate_outside _ W H k (by omega)]

/-- C19 (amended) at the 6x5 image of bytes `0, ..., 89`. -/
theorem blur_rotation_within_one_witness :
    (GaussianFilter (rotateImage90Degrees (List.range 90) 6 5) 5 6).length
        = (rotateImage90Degrees (GaussianFilter (List.range 90) 6 5) 6 5).length
      ∧ (∀ k : Int,
          readAt (GaussianFilter (rotateImage90Degrees (List.range 90) 6 5) 5 6) k
              = readAt (rotateImage90Degrees (GaussianFilter (List.range 90) 6 5) 6 5) k
            ∨ readAt (GaussianFilter (rotateImage90Degrees (List.range 90) 6 5) 5 6) k + 1
              = readAt (rotateImage90Degrees (GaussianFilter (List.range 90) 6 5) 6 5) k
            ∨ readAt (rotateImage90Degrees (GaussianFilter (List.range 90) 6 5) 6 5) k + 1
              = readAt (GaussianFilter (rotateImage90Degrees (List.range 90) 6 5) 5 6) k) :=
  ⟨(blur_rotation_within_one (List.range 90) 6 5 (by decide) (by decide)
      (fun b hb => by have := List.mem_range.mp hb; omega) (by decide)).1,
   (blur_rotation_within_one (List.range 90) 6 5 (by decide) (by decide)
      (fun b hb => by have := List.mem_range.mp hb; omega) (by decide)).2.1⟩

/-! ## The header as bytes -/

theorem length_leBytes (k n : Nat) : (leBytes k n).length = k := by
  induction k generalizing n with
  | zero => rfl
  | succ k ih => simp [leBytes, ih]

theorem leValue_leBytes (k n : Nat) : leValue (leBytes k n) = n % 256 ^ k := by
  induction k generalizing n with
  | zero => simp [leBytes, leValue, Nat.mod_one]
  | succ k ih =>
    simp only [leBytes, leValue, ih]
    rw [pow_succ, mul_comm (256 ^ k) 256, Nat.mod_mul]

theorem leValue_lt (l : List Nat) (hb : ∀ x ∈ l, x < 256) : leValue l < 256 ^ l.length := by
  induction l with
  | nil => simp [leValue]
  | cons a l ih =>
    have ha := hb a (List.mem_cons_self _ _)
    have hl := ih (fun x hx => hb x (List.mem_cons_of_mem _ hx))
    simp only [leValue, List.length_cons, pow_succ]
    omega

theorem leBytes_leValue (l : List Nat) (hb : ∀ x ∈ l, x < 256) :
    leBytes l.length (leValue l) = l := by
  induction l with
  | nil => rfl
  | cons a l ih =>
    have ha := hb a (List.mem_cons_self _ _)
    have hl := ih (fun x hx => hb x (List.mem_cons_of_mem _ hx))
    simp only [leValue, List.length_cons, leBytes]
    have e1 : (a + 256 * leValue l) % 256 = a := by omega
    have e2 : (a + 256 * leValue l) / 256 = leValue l := by omega
    rw [e1, e2, hl]

theorem ofUInt32_toUInt32 (z : Int) (h : -2 ^ 31 ≤ z ∧ z < 2 ^ 31) :
    ofUInt32 (toUInt32 z) = z := by
  unfold ofUInt32 toUInt32
  norm_num at h ⊢
  split <;> omega

theorem toUInt32_ofUInt32 (n : Nat) (h : n < 2 ^ 32) : toUInt32 (ofUInt32 n) = n := by
  unfold ofUInt32 toUInt32
  norm_num at h ⊢
  split <;> omega

theorem toUInt32_lt (z : Int) : toUInt32 z < 2 ^ 32 := by
  unfold toUInt32
  norm_num
  omega

theorem ofUInt32_range (n : Nat) (h : n < 2 ^ 32) :
    -2 ^ 31 ≤ ofUInt32 n ∧ ofUInt32 n < 2 ^ 31 := by
  unfold ofUInt32
  norm_num at h ⊢
  split <;> omega

/-- A field that starts the byte sequence. -/
theorem fieldAt_here (k n : Nat) (r : List Nat) :
    fieldAt (leBytes k n ++ r) 0 k = n % 256 ^ k := by
  unfold fieldAt
  rw [List.drop_zero, List.take_left' (length_leBytes k n), leValue_leBytes]

/-- The last field. -/
theorem fieldAt_last (k n : Nat) : fieldAt (leBytes k n) 0 k = n % 256 ^ k := by
  have := fieldAt_here k n []
  rwa [List.append_nil] at this

/-- A field that lies beyond the first one. -/
theorem fieldAt_skip (k n : Nat) (r : List Nat) (off m : Nat) (h : k ≤ off) :
    fieldAt (leBytes k n ++ r) off m = fieldAt r (off - k) m := by
  unfold fieldAt
  have e : off = (leBytes k n).length + (off - k) := by rw [length_leBytes]; omega
  conv_lhs => rw [e, List.drop_append]

theorem length_encodeHeader (h : BMPHeader) : (encodeHeader h).length = 54 := by
  simp [encodeHeader, length_leBytes]

/-- Decoding the bytes of a record gives the record back. -/
theorem decodeHeader_encodeHeader (h : BMPHeader) (hr : headerInRange h) :
    decodeHeader (encodeHeader h) = h := by
  obtain ⟨h1, h2, h3, h4, h5, h6, h7, h8, h9, h10, h11, h12, h13, h14, h15, h16⟩ := hr
  cases h
  simp only [Nat.reducePow] at h1 h2 h3 h4 h5 h6 h9 h10 h11 h12 h15 h16
  simp only [decodeHeader, encodeHeader, BMPHeader.mk.injEq, fieldAt_here, fieldAt_last,
    fieldAt_skip, Nat.reduceLeDiff, Nat.reduceSub, Nat.reducePow, le_refl, Nat.sub_self]
  have m16 : ∀ n : Nat, n < 65536 → n % 65536 = n := fun n hn => Nat.mod_eq_of_lt hn
  have m32 : ∀ n : Nat, n < 4294967296 → n % 4294967296 = n :=
    fun n hn => Nat.mod_eq_of_lt hn
  have s32 : ∀ z : Int, -2 ^ 31 ≤ z ∧ z < 2 ^ 31 →
      ofUInt32 (toUInt32 z % 4294967296) = z := by
    intro z hz
    rw [m32 _ (by have := toUInt32_lt z; norm_num at this; exact this)]
    exact ofUInt32_toUInt32 z hz
  exact ⟨m16 _ h1, m32 _ h2, m16 _ h3, m16 _ h4, m32 _ h5, m32 _ h6, s32 _ h7, s32 _ h8,
    m16 _ h9, m16 _ h10, m32 _ h11, m32 _ h12, s32 _ h13, s32 _ h14, m32 _ h15, m32 _ h16⟩

/-- The bytes of a decoded field are the bytes it was decoded from. -/
theorem leBytes_fieldAt (b : List Nat) (hb : ∀ x ∈ b, x < 256) (off k : Nat)
    (hlen : off + k ≤ b.length) : leBytes k (fieldAt b off k) = (b.drop off).take k := by
  unfold fieldAt
  have hl : ((b.drop off).take k).length = k := by
    rw [List.length_take, List.length_drop]; omega
  have h := leBytes_leValue ((b.drop off).take k)
    (fun x hx => hb x (List.mem_of_mem_drop (List.mem_of_mem_take hx)))
  rw [hl] at h
  exact h

theorem fieldAt_lt (b : List Nat) (hb : ∀ x ∈ b, x < 256) (off k : Nat)
    (hlen : off + k ≤ b.length) : fieldAt b off k < 256 ^ k := by
  unfold fieldAt
  have hl : ((b.drop off).take k).length = k := by
    rw [List.length_take, List.length_drop]; omega
  have h := leValue_lt ((b.drop off).take k)
    (fun x hx => hb x (List.mem_of_mem_drop (List.mem_of_mem_take hx)))
  rw [hl] at h
  exact h

/-- The bytes of a decoded signed field are the bytes it was decoded from. -/
theorem leBytes_signed_fieldAt (b : List Nat) (hb : ∀ x ∈ b, x < 256) (off : Nat)
    (hlen : off + 4 ≤ b.length) :
    leBytes 4 (toUInt32 (ofUInt32 (fieldAt b off 4))) = (b.drop off).take 4 := by
  have h := fieldAt_lt b hb off 4 hlen
  rw [toUInt32_ofUInt32 _ (by norm_num at h ⊢; exact h)]
  exact leBytes_fieldAt b hb off 4 hlen

theorem take_append_drop_at (b : List Nat) (off k e : Nat) (he : e = off + k) :
    (b.drop off).take k ++ b.drop e = b.drop off := by
  subst he
  have h := List.take_append_drop k (b.drop off)
  rw [List.drop_drop] at h
  exact h

/-- Encoding the record decoded from 54 bytes gives the 54 bytes back. -/
theorem encodeHeader_decodeHeader (b : List Nat) (hlen : b.length = 54)
    (hb : ∀ x ∈ b, x < 256) : encodeHeader (decodeHeader b) = b := by
  unfold encodeHeader decodeHeader
  simp only
  rw [leBytes_fieldAt b hb 0 2 (by omega), leBytes_fieldAt b hb 2 4 (by omega),
    leBytes_fieldAt b hb 6 2 (by omega), leBytes_fieldAt b hb 8 2 (by omega),
    leBytes_fieldAt b hb 10 4 (by omega), leBytes_fieldAt b hb 14 4 (by omega),
    leBytes_signed_fieldAt b hb 18 (by omega), leBytes_signed_fieldAt b hb 22 (by omega),
    leBytes_fieldAt b hb 26 2 (by omega), leBytes_fieldAt b hb 28 2 (by omega),
    leBytes_fieldAt b hb 30 4 (by omega), leBytes_fieldAt b hb 34 4 (by omega),
    leBytes_signed_fieldAt b hb 38 (by omega), leBytes_signed_fieldAt b hb 42 (by omega),
    leBytes_fieldAt b hb 46 4 (by omega), leBytes_fieldAt b hb 50 4 (by omega)]
  have hlast : (b.drop 50).take 4 = b.drop 50 :=
    List.take_of_length_le (by rw [List.length_drop]; omega)
  rw [hlast, take_append_drop_at b 46 4 50 rfl, take_append_drop_at b 42 4 46 rfl,
    take_append_drop_at b 38 4 42 rfl, take_append_drop_at b 34 4 38 rfl,
    take_append_drop_at b 30 4 34 rfl, take_append_drop_at b 28 2 30 rfl,
    take_append_drop_at b 26 2 28 rfl, take_append_drop_at b 22 4 26 rfl,
    take_append_drop_at b 18 4 22 rfl, take_append_drop_at b 14 4 18 rfl,
    take_append_drop_at b 10 4 14 rfl, take_append_drop_at b 8 2 10 rfl,
    take_append_drop_at b 6 2 8 rfl, take_append_drop_at b 2 4 6 rfl,
    take_append_drop_at b 0 2 2 rfl, List.drop_zero]

/-- A record decoded from bytes holds values of the C++ types of its fields. -/
theorem headerInRange_decodeHeader (b : List Nat) (hlen : b.length = 54)
    (hb : ∀ x ∈ b, x < 256) : headerInRange (decodeHeader b) := by
  have f2 : ∀ off, off + 2 ≤ b.length → fieldAt b off 2 < 2 ^ 16 := by
    intro off h
    have := fieldAt_lt b hb off 2 h
    norm_num at this ⊢
    exact this
  have f4 : ∀ off, off + 4 ≤ b.length → fieldAt b off 4 < 2 ^ 32 := by
    intro off h
    have := fieldAt_lt b hb off 4 h
    norm_num at this ⊢
    exact this
  unfold headerInRange decodeHeader
  exact ⟨f2 0 (by omega), f4 2 (by omega), f2 6 (by omega), f2 8 (by omega),
    f4 10 (by omega), f4 14 (by omega), ofUInt32_range _ (f4 18 (by omega)),
    ofUInt32_range _ (f4 22 (by omega)), f2 26 (by omega), f2 28 (by omega),
    f4 30 (by omega), f4 34 (by omega), ofUInt32_range _ (f4 38 (by omega)),
    ofUInt32_range _ (f4 42 (by omega)), f4 46 (by omega), f4 50 (by omega)⟩

/-- C14. Header round-trip: the packed `BMPHeader` occupies 54 bytes, the sum of the 16
field widths, the fields following each other in the listed order, little-endian; for
every sequence `b` of 54 bytes, encoding the header decoded from `b` gives `b`, and for
every header `h` whose fields hold values of their types, decoding the encoding of `h`
gives `h`. -/
theorem header_round_trip (b : List Nat) (h : BMPHeader) (hlen : b.length = 54)
    (hb : ∀ x ∈ b, x < 256) (hr : headerInRange h) :
    sizeofHeader = 2 + 4 + 2 + 2 + 4 + 4 + 4 + 4 + 2 + 2 + 4 + 4 + 4 + 4 + 4 + 4
      ∧ (encodeHeader h).length = sizeofHeader
      ∧ encodeHeader (decodeHeader b) = b
      ∧ headerInRange (decodeHeader b)
      ∧ decodeHeader (encodeHeader h) = h :=
  ⟨rfl, length_encodeHeader h, encodeHeader_decodeHeader b hlen hb,
    headerInRange_decodeHeader b hlen hb, decodeHeader_encodeHeader h hr⟩

/-- C14 at the header of the 4x1 image and its 54 bytes, which are the encoding and the
decoding of each other. -/
theorem header_round_trip_witness :
    (encodeHeader (decodeHeader header4x1Bytes) = header4x1Bytes
        ∧ decodeHeader (encodeHeader header4x1) = header4x1)
      ∧ decodeHeader header4x1Bytes = header4x1
      ∧ encodeHeader header4x1 = header4x1Bytes :=
  ⟨⟨(header_round_trip header4x1Bytes header4x1 (by decide) (by decide)
        (by unfold headerInRange; decide)).2.2.1,
      (header_round_trip header4x1Bytes header4x1 (by decide) (by decide)
        (by unfold headerInRange; decide)).2.2.2.2⟩,
    by decide, by decide⟩

end BmpProject
